import Mathlib

/-!
A limit order book and its matching engine.

Shallow embedding of `src/Order.h` and `src/OrderBook.cpp`.

Conventions of the embedding.

* The engine is modelled sequentially: one call runs to completion before the
  next one starts, and the mutex is not represented.
* A function returns `Option`.  The value `none` stands for "the call has no
  defined result": an exception escapes (`std::map::at` on a missing key,
  `Order::Fill` beyond the remaining quantity, `Order::ToGoodTillCancel` on a
  non-market order), a container is read where it has no element (`front()` of
  an empty list, an iterator that is not in the list), or the matching loop
  does not terminate.
* Orders are shared between the id index and the ladders through
  `std::shared_ptr`.  In the embedding both indices hold the order record and a
  fill, which in the source mutates the one shared object, rewrites the record
  in both places (`syncOrder`).
* Names the source binds by reference (`bid`, `ask`, `bids`, `asks` in
  `MatchOrders`, `order` in `CancelOrderInternal`) are read as the values they
  stood for when they were bound, also after the element they pointed into was
  popped or erased: a popped head is still the order that was filled, and a
  FIFO whose level was erased counts as empty.
* `std::map` ladders are association lists in iteration order (front = `begin()`,
  last = `rbegin()`); `std::unordered_map`s are association lists in an
  arbitrary but fixed iteration order.
-/

namespace Engine

/-- Modelled from the spec: `Usings.h` is not part of the sources; a price is a
totally ordered number, here an integer. -/
abbrev Price := Int

/-- Modelled from the spec: `Usings.h` is not part of the sources; a quantity is
a non-negative integer. -/
abbrev Quantity := Nat

/-- Modelled from the spec: `Usings.h` is not part of the sources; an order id is
an identifier chosen by the caller. -/
abbrev OrderId := Nat

/-- Modelled from the spec: `Side.h` is not part of the sources. -/
inductive Side where
  | Buy
  | Sell
deriving DecidableEq, Repr

/-- Modelled from the spec: `OrderType.h` is not part of the sources. -/
inductive OrderType where
  | Market
  | GoodTillCancel
  | GoodForDay
  | FillAndKill
  | FillOrKill
deriving DecidableEq, Repr

/-- The class `Order` of `Order.h`. -/
structure Order where
  orderType_ : OrderType
  orderId_ : OrderId
  side_ : Side
  price_ : Price
  initialQuantity : Quantity
  remainingQuantity : Quantity
deriving DecidableEq, Repr

namespace Order

/-- The five-argument constructor of `Order`: the remaining quantity starts at
the initial quantity. -/
def new (orderType : OrderType) (orderId : OrderId) (side : Side) (price : Price)
    (quantity : Quantity) : Order :=
  { orderType_ := orderType, orderId_ := orderId, side_ := side, price_ := price,
    initialQuantity := quantity, remainingQuantity := quantity }

/-- `Order::GetFilledQuantity`. -/
def GetFilledQuantity (o : Order) : Quantity := o.initialQuantity - o.remainingQuantity

/-- `Order::IsFilled`. -/
def IsFilled (o : Order) : Bool := o.remainingQuantity == 0

/-- `Order::Fill`: throws when asked for more than the remaining quantity. -/
def Fill (o : Order) (quantity : Quantity) : Option Order :=
  if quantity > o.remainingQuantity then none
  else some { o with remainingQuantity := o.remainingQuantity - quantity }

/-- `Order::ToGoodTillCancel`: throws unless the order is a market order.  The
`std::isfinite` test always passes on an integer price. -/
def ToGoodTillCancel (o : Order) (price : Price) : Option Order :=
  if o.orderType_ ≠ OrderType.Market then none
  else some { o with price_ := price, orderType_ := OrderType.GoodTillCancel }

/-- An order as its constructor leaves it: nothing filled yet. -/
def Fresh (o : Order) : Prop := o.remainingQuantity = o.initialQuantity

instance (o : Order) : Decidable o.Fresh := by unfold Fresh; infer_instance

end Order

/-- Modelled from the spec: `TradeInfo.h` is not part of the sources; the three
fields are those `MatchOrders` fills in. -/
structure TradeInfo where
  orderId_ : OrderId
  price_ : Price
  quantity_ : Quantity
deriving DecidableEq, Repr

/-- Modelled from the spec: `Trade.h` is not part of the sources; a trade is the
pair of a bid leg and an ask leg. -/
structure Trade where
  bidTrade_ : TradeInfo
  askTrade_ : TradeInfo
deriving DecidableEq, Repr

abbrev Trades := List Trade

/-- Modelled from the spec: `OrderModify.h` is not part of the sources; a modify
request carries id, side, price and quantity. -/
structure OrderModify where
  orderId_ : OrderId
  side_ : Side
  price_ : Price
  quantity_ : Quantity
deriving DecidableEq, Repr

/-- Modelled from the spec: `OrderModify::ToOrderPointer` is not part of the
sources; it builds a new order with the request's id, side, price and quantity
under the given type. -/
def OrderModify.ToOrderPointer (m : OrderModify) (orderType : OrderType) : Order :=
  Order.new orderType m.orderId_ m.side_ m.price_ m.quantity_

/-- Modelled from the spec: `LevelData` is declared in `OrderBook.h`, which is not
part of the sources; it aggregates a quantity and an order count.  Both are
integers here so that the decrements of `UpdateLevelData` are exact. -/
structure LevelData where
  quantity_ : Int
  count_ : Int
deriving DecidableEq, Repr

/-- The enumeration `LevelData::Action`. -/
inductive Action where
  | Add
  | Remove
  | Match
deriving DecidableEq, Repr

/-- One side's ladder: price levels in iteration order, each with its FIFO. -/
abbrev Ladder := List (Price × List Order)

/-- The id index `orders_`. -/
abbrev OrderIndex := List (OrderId × Order)

/-- The aggregate `data_`. -/
abbrev LevelMap := List (Price × LevelData)

/-- The four containers of `OrderBook`. -/
structure OrderBook where
  orders_ : OrderIndex
  bids_ : Ladder
  asks_ : Ladder
  data_ : LevelMap
deriving DecidableEq, Repr

/-- The book after construction. -/
def OrderBook.empty : OrderBook := { orders_ := [], bids_ := [], asks_ := [], data_ := [] }

/-! ## Container operations -/

/-- `orders_.contains(id)`. -/
def containsOrder (orders : OrderIndex) (orderId : OrderId) : Bool :=
  orders.any (fun e => e.1 == orderId)

/-- `orders_.at(id)`, read through the stored pointer. -/
def findOrder : OrderIndex → OrderId → Option Order
  | [], _ => none
  | (k, o) :: rest, orderId => if k = orderId then some o else findOrder rest orderId

/-- `orders_.erase(id)`. -/
def eraseOrder (orders : OrderIndex) (orderId : OrderId) : OrderIndex :=
  orders.filter (fun e => e.1 ≠ orderId)

/-- The effect on the id index of mutating an order through its shared pointer. -/
def syncOrder (orders : OrderIndex) (o : Order) : OrderIndex :=
  orders.map (fun e => if e.1 = o.orderId_ then (e.1, o) else e)

/-- `ladder[price].push_back(order)`: the level is created at its sorted position
when it is missing; `before p k` says that key `p` sorts before key `k`. -/
def ladderPush (before : Price → Price → Bool) (price : Price) (order : Order) :
    Ladder → Ladder
  | [] => [(price, [order])]
  | (k, q) :: rest =>
    if k = price then (k, q ++ [order]) :: rest
    else if before price k then (price, [order]) :: (k, q) :: rest
    else (k, q) :: ladderPush before price order rest

/-- `orders.erase(iterator)` for the iterator stored with the order: the node of
that order leaves the list. -/
def eraseById (orderId : OrderId) : List Order → Option (List Order)
  | [] => none
  | o :: rest =>
    if o.orderId_ = orderId then some rest
    else (eraseById orderId rest).map (fun r => o :: r)

/-- The ladder part of `CancelOrderInternal`: `ladder.at(price)`, erase the
order's node, erase the level when its list became empty. -/
def ladderRemove (price : Price) (orderId : OrderId) : Ladder → Option Ladder
  | [] => none
  | (k, q) :: rest =>
    if k = price then
      match eraseById orderId q with
      | none => none
      | some q1 => if q1.isEmpty then some rest else some ((k, q1) :: rest)
    else (ladderRemove price orderId rest).map (fun r => (k, q) :: r)

/-- All orders of a ladder in priority order. -/
def ladderOrders (l : Ladder) : List Order := (l.map (fun e => e.2)).flatten

/-- `data_[price]` read, default-constructed when missing. -/
def levelGet : LevelMap → Price → Option LevelData
  | [], _ => none
  | (k, d) :: rest, price => if k = price then some d else levelGet rest price

/-- Write to the entry `data_[price]`. -/
def levelSet : LevelMap → Price → LevelData → LevelMap
  | [], price, d => [(price, d)]
  | (k, e) :: rest, price, d =>
    if k = price then (k, d) :: rest else (k, e) :: levelSet rest price d

/-- `data_.erase(price)`. -/
def levelErase (data : LevelMap) (price : Price) : LevelMap :=
  data.filter (fun e => e.1 ≠ price)

/-- `OrderBook::UpdateLevelData`. -/
def UpdateLevelData (data : LevelMap) (price : Price) (quantity : Quantity)
    (action : Action) : LevelMap :=
  let cur := (levelGet data price).getD { quantity_ := 0, count_ := 0 }
  let count := cur.count_ +
    (if action = Action.Remove then -1 else if action = Action.Add then 1 else 0)
  let qty :=
    if action = Action.Remove ∨ action = Action.Match then cur.quantity_ - (quantity : Int)
    else cur.quantity_ + (quantity : Int)
  if count = 0 then levelErase data price
  else levelSet data price { quantity_ := qty, count_ := count }

/-- `OrderBook::OnOrderCancelled`. -/
def OnOrderCancelled (data : LevelMap) (order : Order) : LevelMap :=
  UpdateLevelData data order.price_ order.remainingQuantity Action.Remove

/-- `OrderBook::OnOrderAdded`. -/
def OnOrderAdded (data : LevelMap) (order : Order) : LevelMap :=
  UpdateLevelData data order.price_ order.initialQuantity Action.Add

/-- `OrderBook::OnOrderMatched`. -/
def OnOrderMatched (data : LevelMap) (price : Price) (quantity : Quantity)
    (isFullyFilled : Bool) : LevelMap :=
  UpdateLevelData data price quantity (if isFullyFilled then Action.Remove else Action.Match)

namespace OrderBook

/-- `OrderBook::Size`. -/
def Size (b : OrderBook) : Nat := b.orders_.length

/-- `OrderBook::CancelOrderInternal`. -/
def CancelOrderInternal (b : OrderBook) (orderId : OrderId) : Option OrderBook :=
  if !containsOrder b.orders_ orderId then some b
  else
    match findOrder b.orders_ orderId with
    | none => none
    | some order =>
      let orders1 := eraseOrder b.orders_ orderId
      if order.side_ = Side.Sell then
        match ladderRemove order.price_ orderId b.asks_ with
        | none => none
        | some asks1 =>
          some { b with orders_ := orders1, asks_ := asks1,
                        data_ := OnOrderCancelled b.data_ order }
      else
        match ladderRemove order.price_ orderId b.bids_ with
        | none => none
        | some bids1 =>
          some { b with orders_ := orders1, bids_ := bids1,
                        data_ := OnOrderCancelled b.data_ order }

/-- `OrderBook::CancelOrder`. -/
def CancelOrder (b : OrderBook) (orderId : OrderId) : Option OrderBook :=
  CancelOrderInternal b orderId

/-- `OrderBook::CancelOrders`. -/
def CancelOrders (b : OrderBook) : List OrderId → Option OrderBook
  | [] => some b
  | orderId :: rest =>
    match CancelOrderInternal b orderId with
    | none => none
    | some b1 => CancelOrders b1 rest

/-- `OrderBook::CanMatch`. -/
def CanMatch (b : OrderBook) (side : Side) (price : Price) : Bool :=
  if side = Side.Buy then
    match b.asks_ with
    | [] => false
    | (bestAsk, _) :: _ => decide (price ≥ bestAsk)
  else
    match b.bids_ with
    | [] => false
    | (bestBid, _) :: _ => decide (price ≤ bestBid)

/-- The `for` loop of `OrderBook::CanFullyFill` over the entries of `data_`. -/
def canFullyFillLoop (side : Side) (threshold price : Price) : LevelMap → Int → Bool
  | [], _ => false
  | (levelPrice, levelData) :: rest, quantity =>
    if (true && (decide (side = Side.Buy) && decide (threshold > levelPrice))) ||
        (decide (side = Side.Sell) && decide (threshold < levelPrice)) then
      canFullyFillLoop side threshold price rest quantity
    else if (decide (side = Side.Buy) && decide (levelPrice > price)) ||
        (decide (side = Side.Sell) && decide (levelPrice < price)) then
      canFullyFillLoop side threshold price rest quantity
    else if quantity ≤ levelData.quantity_ then true
    else canFullyFillLoop side threshold price rest (quantity - levelData.quantity_)

/-- `OrderBook::CanFullyFill`. -/
def CanFullyFill (b : OrderBook) (side : Side) (price : Price) (quantity : Quantity) : Bool :=
  if !CanMatch b side price then false
  else
    let threshold : Option Price :=
      if side = Side.Buy then b.asks_.head?.map (fun e => e.1)
      else b.bids_.head?.map (fun e => e.1)
    match threshold with
    | none => false
    | some t => canFullyFillLoop side t price b.data_ (quantity : Int)

/-- One round of the inner `while` of `OrderBook::MatchOrders` on the heads `bid`
and `ask` of the two front levels: fill both, pop and unregister what is filled,
erase a level whose FIFO became empty, emit the trade, update the aggregate.
Erasing the key of the front level of a `std::map` removes that front level. -/
def fillFront (b : OrderBook) (bidPrice : Price) (bid : Order) (bidsTail : List Order)
    (bidsRest : Ladder) (askPrice : Price) (ask : Order) (asksTail : List Order)
    (asksRest : Ladder) : Option (Trade × OrderBook) :=
  let quantity := min bid.remainingQuantity ask.remainingQuantity
  match bid.Fill quantity, ask.Fill quantity with
  | some bid1, some ask1 =>
    let orders0 := syncOrder (syncOrder b.orders_ bid1) ask1
    let bids1 := if bid1.IsFilled then bidsTail else bid1 :: bidsTail
    let orders1 := if bid1.IsFilled then eraseOrder orders0 bid1.orderId_ else orders0
    let asks1 := if ask1.IsFilled then asksTail else ask1 :: asksTail
    let orders2 := if ask1.IsFilled then eraseOrder orders1 ask1.orderId_ else orders1
    let bidsL := if bids1.isEmpty then bidsRest else (bidPrice, bids1) :: bidsRest
    let asksL := if asks1.isEmpty then asksRest else (askPrice, asks1) :: asksRest
    let trade : Trade :=
      { bidTrade_ := { orderId_ := bid1.orderId_, price_ := bid1.price_,
                       quantity_ := quantity },
        askTrade_ := { orderId_ := ask1.orderId_, price_ := ask1.price_,
                       quantity_ := quantity } }
    let data1 := OnOrderMatched b.data_ bid1.price_ quantity bid1.IsFilled
    let data2 := OnOrderMatched data1 ask1.price_ quantity ask1.IsFilled
    some (trade, { orders_ := orders2, bids_ := bidsL, asks_ := asksL, data_ := data2 })
  | _, _ => none

/-- The matching loop of `OrderBook::MatchOrders`, one fill per round.

The source nests a `while` over the two front FIFOs inside a `while(true)` that
re-reads the front levels.  As long as neither front level was erased the inner
loop sees the same two levels the outer loop would read again, so both loops
are one loop that reads the front levels each round.  When the front levels
cross but one of their FIFOs is empty the source spins forever; here the round
changes nothing and the fuel runs out. -/
def matchLoop : Nat → OrderBook → Trades → Option (Trades × OrderBook)
  | 0, _, _ => none
  | fuel + 1, b, trades =>
    match b.bids_, b.asks_ with
    | (bidPrice, bids) :: bidsRest, (askPrice, asks) :: asksRest =>
      if bidPrice < askPrice then some (trades, b)
      else
        match bids, asks with
        | bid :: bidsTail, ask :: asksTail =>
          match fillFront b bidPrice bid bidsTail bidsRest askPrice ask asksTail asksRest with
          | none => none
          | some (trade, b1) => matchLoop fuel b1 (trades ++ [trade])
        | _, _ => matchLoop fuel b trades
    | _, _ => some (trades, b)

/-- The cleanup after the matching loop for one ladder: when the ladder is not
empty and the head of its front FIFO has type `orderType`, that order is
cancelled. -/
def cancelFront (b : OrderBook) (ladder : Ladder) (orderType : OrderType) :
    Option OrderBook :=
  match ladder with
  | [] => some b
  | (_, []) :: _ => none
  | (_, order :: _) :: _ =>
    if order.orderType_ = orderType then CancelOrder b order.orderId_ else some b

/-- Rounds granted to the matching loop: every fill removes an order from a
ladder, and one more round sees the loop end. -/
def matchFuel (b : OrderBook) : Nat :=
  (ladderOrders b.bids_).length + (ladderOrders b.asks_).length + 1

/-- `OrderBook::MatchOrders`. -/
def MatchOrders (b : OrderBook) : Option (Trades × OrderBook) :=
  match matchLoop (matchFuel b) b [] with
  | none => none
  | some (trades, b1) =>
    match cancelFront b1 b1.bids_ OrderType.FillOrKill with
    | none => none
    | some b2 =>
      match cancelFront b2 b2.asks_ OrderType.FillAndKill with
      | none => none
      | some b3 => some (trades, b3)

/-- Outcome of the market branch of `AddOrder`. -/
inductive Retag where
  | rejected
  | failed
  | goesOn (order : Order)
deriving DecidableEq, Repr

/-- The market branch of `OrderBook::AddOrder`. -/
def marketRetag (b : OrderBook) (order : Order) : Retag :=
  if order.orderType_ = OrderType.Market then
    if order.side_ = Side.Buy ∧ b.asks_ ≠ [] then
      match b.asks_.getLast? with
      | none => Retag.failed
      | some (worstAsk, _) =>
        match order.ToGoodTillCancel worstAsk with
        | none => Retag.failed
        | some o => Retag.goesOn o
    else if order.side_ = Side.Sell ∧ b.bids_ ≠ [] then
      match b.bids_.getLast? with
      | none => Retag.failed
      | some (worstBid, _) =>
        match order.ToGoodTillCancel worstBid with
        | none => Retag.failed
        | some o => Retag.goesOn o
    else Retag.rejected
  else Retag.goesOn order

/-- The insertion part of `OrderBook::AddOrder`: push the order at the tail of its
level, record it in the id index, update the aggregate. -/
def insertOrder (b : OrderBook) (order : Order) : OrderBook :=
  let bids1 :=
    if order.side_ = Side.Buy then
      ladderPush (fun p k => decide (p > k)) order.price_ order b.bids_
    else b.bids_
  let asks1 :=
    if order.side_ = Side.Buy then b.asks_
    else ladderPush (fun p k => decide (p < k)) order.price_ order b.asks_
  { orders_ := b.orders_ ++ [(order.orderId_, order)], bids_ := bids1, asks_ := asks1,
    data_ := OnOrderAdded b.data_ order }

/-- `OrderBook::AddOrder`. -/
def AddOrder (b : OrderBook) (order : Order) : Option (Trades × OrderBook) :=
  if containsOrder b.orders_ order.orderId_ then some ([], b)
  else
    match marketRetag b order with
    | Retag.rejected => some ([], b)
    | Retag.failed => none
    | Retag.goesOn o =>
      if o.orderType_ = OrderType.FillAndKill ∧ !CanMatch b o.side_ o.price_ then
        some ([], b)
      else if o.orderType_ = OrderType.FillOrKill ∧
          !CanFullyFill b o.side_ o.price_ o.initialQuantity then
        some ([], b)
      else MatchOrders (insertOrder b o)

/-- `OrderBook::ModifyOrder`. -/
def ModifyOrder (b : OrderBook) (order : OrderModify) : Option (Trades × OrderBook) :=
  if !containsOrder b.orders_ order.orderId_ then some ([], b)
  else
    match findOrder b.orders_ order.orderId_ with
    | none => none
    | some existingOrder =>
      match CancelOrder b order.orderId_ with
      | none => none
      | some b1 => AddOrder b1 (order.ToOrderPointer existingOrder.orderType_)

end OrderBook

open OrderBook

/-- States of the book that calls of the public operations lead to, starting from
the empty book, when the orders handed to `AddOrder` satisfy `P`. -/
inductive ReachableBy (P : Order → Prop) : OrderBook → Prop where
  | empty : ReachableBy P OrderBook.empty
  | add (b : OrderBook) (order : Order) (trades : Trades) (b1 : OrderBook) :
      ReachableBy P b → P order → AddOrder b order = some (trades, b1) → ReachableBy P b1
  | cancel (b : OrderBook) (orderId : OrderId) (b1 : OrderBook) :
      ReachableBy P b → CancelOrder b orderId = some b1 → ReachableBy P b1
  | cancelMany (b : OrderBook) (orderIds : List OrderId) (b1 : OrderBook) :
      ReachableBy P b → CancelOrders b orderIds = some b1 → ReachableBy P b1
  | modify (b : OrderBook) (order : OrderModify) (trades : Trades) (b1 : OrderBook) :
      ReachableBy P b → ModifyOrder b order = some (trades, b1) → ReachableBy P b1

/-- Reachable states, whatever the caller puts into the orders it hands over. -/
def ReachableAny (b : OrderBook) : Prop := ReachableBy (fun _ => True) b

/-- Reachable states when every order handed to `AddOrder` is as its constructor
built it, with nothing filled yet. -/
def Reachable (b : OrderBook) : Prop := ReachableBy Order.Fresh b

/-! ## Predicates used by the statements -/

/-- The key order a `std::map` maintains: bids by descending price, asks by
ascending price, no key twice. -/
def OrderBook.Sorted (b : OrderBook) : Prop :=
  b.bids_.Pairwise (fun x y => x.1 > y.1) ∧ b.asks_.Pairwise (fun x y => x.1 < y.1)

instance (b : OrderBook) : Decidable b.Sorted := by
  unfold OrderBook.Sorted; infer_instance

/-- The ladder opposite to a side. -/
def OrderBook.opposite (b : OrderBook) (side : Side) : Ladder :=
  if side = Side.Buy then b.asks_ else b.bids_

/-- The conditions under which `AddOrder` turns an order away. -/
def OrderBook.Turned (b : OrderBook) (o : Order) : Prop :=
  containsOrder b.orders_ o.orderId_ = true ∨
  (o.orderType_ = OrderType.Market ∧ b.opposite o.side_ = []) ∨
  (o.orderType_ = OrderType.FillAndKill ∧ CanMatch b o.side_ o.price_ = false) ∨
  (o.orderType_ = OrderType.FillOrKill ∧
    CanFullyFill b o.side_ o.price_ o.initialQuantity = false)

instance (b : OrderBook) (o : Order) : Decidable (b.Turned o) := by
  unfold OrderBook.Turned; infer_instance

/-- A good-till-cancel order. -/
def gtc (id : OrderId) (s : Side) (p : Price) (q : Quantity) : Order :=
  Order.new OrderType.GoodTillCancel id s p q

/-- The book holding one resting sell order of quantity 3 at price 100. -/
def bookOneAsk : OrderBook :=
  { orders_ := [(1, gtc 1 Side.Sell 100 3)], bids_ := [],
    asks_ := [(100, [gtc 1 Side.Sell 100 3])], data_ := [(100, ⟨3, 1⟩)] }

/-- The book holding one resting buy order of quantity 3 at price 100. -/
def bookOneBid : OrderBook :=
  { orders_ := [(1, gtc 1 Side.Buy 100 3)], bids_ := [(100, [gtc 1 Side.Buy 100 3])],
    asks_ := [], data_ := [(100, ⟨3, 1⟩)] }

/-- The book in which a fill-and-kill buy of 10 at 100 rests with 7 remaining. -/
def bookFakResidual : OrderBook :=
  { orders_ := [(20, ⟨OrderType.FillAndKill, 20, Side.Buy, 100, 10, 7⟩)],
    bids_ := [(100, [⟨OrderType.FillAndKill, 20, Side.Buy, 100, 10, 7⟩])],
    asks_ := [], data_ := [(100, ⟨7, 1⟩)] }

/-- The book with asks of quantity 4 at price 101 and quantity 3 at price 102. -/
def bookTwoAsks : OrderBook :=
  { orders_ := [(1, gtc 1 Side.Sell 101 4), (2, gtc 2 Side.Sell 102 3)], bids_ := [],
    asks_ := [(101, [gtc 1 Side.Sell 101 4]), (102, [gtc 2 Side.Sell 102 3])],
    data_ := [(101, ⟨4, 1⟩), (102, ⟨3, 1⟩)] }

/-- The book with bids of quantity 3 at price 102 and quantity 4 at price 101. -/
def bookTwoBids : OrderBook :=
  { orders_ := [(1, gtc 1 Side.Buy 101 4), (2, gtc 2 Side.Buy 102 3)],
    bids_ := [(102, [gtc 2 Side.Buy 102 3]), (101, [gtc 1 Side.Buy 101 4])], asks_ := [],
    data_ := [(101, ⟨4, 1⟩), (102, ⟨3, 1⟩)] }

/-! ## Invariants -/

/-- All resting orders of the book in ladder order, bids first. -/
def OrderBook.resting (b : OrderBook) : List Order :=
  ladderOrders b.bids_ ++ ladderOrders b.asks_

/-- A well-formed ladder: keys strictly ordered by `r`, no level with an empty
FIFO, every order on the ladder's side and at the price of its level. -/
def LadderOK (r : Price → Price → Prop) (side : Side) (l : Ladder) : Prop :=
  l.Pairwise (fun x y => r x.1 y.1) ∧
    ∀ e ∈ l, e.2 ≠ [] ∧ ∀ o ∈ e.2, o.side_ = side ∧ o.price_ = e.1

/-- The record the id index holds for a resting order. -/
def indexEntry (o : Order) : OrderId × Order := (o.orderId_, o)

/-- Index consistency: both ladders are well formed, no id rests twice, and the
id index holds exactly the resting orders, each under its own id. -/
def OrderBook.Consistent (b : OrderBook) : Prop :=
  LadderOK (fun p k => p > k) Side.Buy b.bids_ ∧
  LadderOK (fun p k => p < k) Side.Sell b.asks_ ∧
  (b.resting.map (fun o => o.orderId_)).Nodup ∧
  b.orders_.Perm (b.resting.map indexEntry)

/-- The book is not crossed: every bid level is priced below every ask level. -/
def OrderBook.Uncrossed (b : OrderBook) : Prop :=
  ∀ x ∈ b.bids_, ∀ y ∈ b.asks_, x.1 < y.1

/-- A front level after its head order came back from a fill as `o1`: the head
is popped when `o1` is filled, and the level goes when its FIFO became empty. -/
def frontAfterFill (k : Price) (o1 : Order) (t : List Order) (rest : Ladder) : Ladder :=
  if (if o1.IsFilled then t else o1 :: t).isEmpty then rest
  else (k, if o1.IsFilled then t else o1 :: t) :: rest

/-- The order `o1` is the order `o` after fills: only the remaining quantity
changed, and it did not grow. -/
def Order.Tracks (o1 o : Order) : Prop :=
  o1.orderType_ = o.orderType_ ∧ o1.orderId_ = o.orderId_ ∧ o1.side_ = o.side_ ∧
  o1.price_ = o.price_ ∧ o1.initialQuantity = o.initialQuantity ∧
  o1.remainingQuantity ≤ o.remainingQuantity

/-- Every order of ladder `l1` is an order of ladder `l` after fills, and every
level of `l1` is a level of `l`. -/
def LadderFrom (l l1 : Ladder) : Prop :=
  (∀ o1 ∈ ladderOrders l1, ∃ o ∈ ladderOrders l, o1.Tracks o) ∧
  (∀ e1 ∈ l1, ∃ e ∈ l, e.1 = e1.1)

/-- The book `b1` is the book `b` without the resting order of id `orderId`. -/
def OrderBook.Removes (b : OrderBook) (orderId : OrderId) (b1 : OrderBook) : Prop :=
  ∃ X o Y, findOrder b.orders_ orderId = some o ∧ o.orderId_ = orderId ∧
    b.resting = X ++ o :: Y ∧ b1.resting = X ++ Y ∧
    b1.orders_ = eraseOrder b.orders_ orderId ∧
    b1.data_ = OnOrderCancelled b.data_ o ∧
    (o.side_ = Side.Buy → b1.asks_ = b.asks_ ∧
      ∃ X1 Y1, ladderOrders b.bids_ = X1 ++ o :: Y1 ∧ ladderOrders b1.bids_ = X1 ++ Y1) ∧
    (o.side_ = Side.Sell → b1.bids_ = b.bids_ ∧
      ∃ X1 Y1, ladderOrders b.asks_ = X1 ++ o :: Y1 ∧ ladderOrders b1.asks_ = X1 ++ Y1)

/-- The quantity one round of the matching loop fills. -/
def matchQuantity (bid ask : Order) : Quantity :=
  min bid.remainingQuantity ask.remainingQuantity

/-- The bid after `bid->Fill(quantity)`. -/
def filledBid (bid ask : Order) : Order :=
  { bid with remainingQuantity := bid.remainingQuantity - matchQuantity bid ask }

/-- The ask after `ask->Fill(quantity)`. -/
def filledAsk (bid ask : Order) : Order :=
  { ask with remainingQuantity := ask.remainingQuantity - matchQuantity bid ask }

/-- The trade one round of the matching loop emits. -/
def matchTrade (bid ask : Order) : Trade :=
  { bidTrade_ := { orderId_ := bid.orderId_, price_ := bid.price_,
                   quantity_ := matchQuantity bid ask },
    askTrade_ := { orderId_ := ask.orderId_, price_ := ask.price_,
                   quantity_ := matchQuantity bid ask } }

/-- The id index after one round of the matching loop. -/
def indexAfterFill (orders : OrderIndex) (bid1 ask1 : Order) : OrderIndex :=
  let orders0 := syncOrder (syncOrder orders bid1) ask1
  let orders1 := if bid1.IsFilled then eraseOrder orders0 bid1.orderId_ else orders0
  if ask1.IsFilled then eraseOrder orders1 ask1.orderId_ else orders1

/-- The book after one round of the matching loop on the heads `bid` and `ask` of
the front levels. -/
def bookAfterFill (b : OrderBook) (bp : Price) (bid : Order) (bt : List Order)
    (br : Ladder) (ap : Price) (ask : Order) (at1 : List Order) (ar : Ladder) : OrderBook :=
  { orders_ := indexAfterFill b.orders_ (filledBid bid ask) (filledAsk bid ask),
    bids_ := frontAfterFill bp (filledBid bid ask) bt br,
    asks_ := frontAfterFill ap (filledAsk bid ask) at1 ar,
    data_ := OnOrderMatched
      (OnOrderMatched b.data_ bid.price_ (matchQuantity bid ask) (filledBid bid ask).IsFilled)
      ask.price_ (matchQuantity bid ask) (filledAsk bid ask).IsFilled }

/-- `AddOrder` admits the order `o` to the book as `o1`: the id is not live, the
market branch lets the order go on as `o1`, and the fill-and-kill and
fill-or-kill guards let `o1` pass. -/
def OrderBook.Admits (b : OrderBook) (o o1 : Order) : Prop :=
  containsOrder b.orders_ o.orderId_ = false ∧ marketRetag b o = Retag.goesOn o1 ∧
  (o1.orderType_ = OrderType.FillAndKill → CanMatch b o1.side_ o1.price_ = true) ∧
  (o1.orderType_ = OrderType.FillOrKill →
    CanFullyFill b o1.side_ o1.price_ o1.initialQuantity = true)

instance (b : OrderBook) (o o1 : Order) : Decidable (b.Admits o o1) := by
  unfold OrderBook.Admits; infer_instance

/-- Total quantity of a list of trades. -/
def tradedQuantity (ts : Trades) : Nat :=
  (ts.map (fun t => t.bidTrade_.quantity_)).sum

/-- Remaining quantity of the orders among `os` whose price passes `ok`. -/
def available (ok : Price → Bool) (os : List Order) : Nat :=
  ((os.filter (fun o => ok o.price_)).map (fun o => o.remainingQuantity)).sum

/-- The trade legs `legs`, in the order they were emitted, go down the list
`resting` of orders in priority order: leg `i` carries the id and the price of
the `i`-th order and at most its remaining quantity, and every leg but the last
takes the whole remaining quantity of its order. -/
def legsFollow : List TradeInfo → List Order → Prop
  | [], _ => True
  | _ :: _, [] => False
  | t :: ts, r :: rs =>
    t.orderId_ = r.orderId_ ∧ t.price_ = r.price_ ∧
    t.quantity_ ≤ r.remainingQuantity ∧
    (ts ≠ [] → t.quantity_ = r.remainingQuantity) ∧ legsFollow ts rs

/-- Outcome of the matching loop for a buy order `x` that stands alone on the
front bid level `P`, above the bid levels `B`, against the asks `A`: the
trades `tn` it made and the book `b1` it left. -/
def SweptBuy (P : Price) (B : Ladder) (x : Order) (A : Ladder) (tn : Trades)
    (b1 : OrderBook) : Prop :=
  (∀ t ∈ tn, t.bidTrade_.orderId_ = x.orderId_ ∧ t.bidTrade_.price_ = x.price_ ∧
    t.askTrade_.quantity_ = t.bidTrade_.quantity_ ∧ t.askTrade_.price_ ≤ P) ∧
  legsFollow (tn.map (fun t => t.askTrade_)) (ladderOrders A) ∧
  tradedQuantity tn ≤ x.remainingQuantity ∧
  (∀ e ∈ A.head?, e.1 ≤ P → tn ≠ []) ∧
  ((b1.bids_ = B ∧ tradedQuantity tn = x.remainingQuantity ∧ tn ≠ []) ∨
   (∃ x1, b1.bids_ = (P, [x1]) :: B ∧ x1.Tracks x ∧
      x1.remainingQuantity = x.remainingQuantity - tradedQuantity tn ∧
      (tn ≠ [] → tradedQuantity tn < x.remainingQuantity) ∧
      (∀ y ∈ b1.asks_, P < y.1) ∧
      tradedQuantity tn = available (fun p => decide (p ≤ P)) (ladderOrders A) ∧
      ladderOrders b1.asks_ = (ladderOrders A).drop tn.length))

/-- Outcome of the matching loop for a sell order `x` that stands alone on the
front ask level `P`, below the ask levels `A`, against the bids `B`. -/
def SweptSell (P : Price) (A : Ladder) (x : Order) (B : Ladder) (tn : Trades)
    (b1 : OrderBook) : Prop :=
  (∀ t ∈ tn, t.askTrade_.orderId_ = x.orderId_ ∧ t.askTrade_.price_ = x.price_ ∧
    t.askTrade_.quantity_ = t.bidTrade_.quantity_ ∧ P ≤ t.bidTrade_.price_) ∧
  legsFollow (tn.map (fun t => t.bidTrade_)) (ladderOrders B) ∧
  tradedQuantity tn ≤ x.remainingQuantity ∧
  (∀ e ∈ B.head?, P ≤ e.1 → tn ≠ []) ∧
  ((b1.asks_ = A ∧ tradedQuantity tn = x.remainingQuantity ∧ tn ≠ []) ∨
   (∃ x1, b1.asks_ = (P, [x1]) :: A ∧ x1.Tracks x ∧
      x1.remainingQuantity = x.remainingQuantity - tradedQuantity tn ∧
      (tn ≠ [] → tradedQuantity tn < x.remainingQuantity) ∧
      (∀ y ∈ b1.bids_, y.1 < P) ∧
      tradedQuantity tn = available (fun p => decide (P ≤ p)) (ladderOrders B) ∧
      ladderOrders b1.bids_ = (ladderOrders B).drop tn.length))

/-- Outcome of the matching loop for the order `o1` just inserted into the book
`b`, on whichever side it is. -/
def Swept (o1 : Order) (b : OrderBook) (tn : Trades) (b2 : OrderBook) : Prop :=
  if o1.side_ = Side.Buy then SweptBuy o1.price_ b.bids_ o1 b.asks_ tn b2
  else SweptSell o1.price_ b.asks_ o1 b.bids_ tn b2

/-- The ladder of a side. -/
def OrderBook.ladder (b : OrderBook) (side : Side) : Ladder :=
  if side = Side.Buy then b.bids_ else b.asks_

/-- The leg of a trade on the given side. -/
def ownLeg (side : Side) (t : Trade) : TradeInfo :=
  if side = Side.Buy then t.bidTrade_ else t.askTrade_

/-- The leg of a trade opposite to the given side. -/
def otherLeg (side : Side) (t : Trade) : TradeInfo :=
  if side = Side.Buy then t.askTrade_ else t.bidTrade_

/-- The steps of `AddOrder` for an order admitted as `o1`: the matching loop
leaves `b2` and the trades `tn`, the cleanup of the bid side leaves `b3`, the
cleanup of the ask side leaves `b4`. -/
def OrderBook.AddSteps (b : OrderBook) (o1 : Order) (tn : Trades) (b2 b3 b4 : OrderBook) :
    Prop :=
  matchLoop (matchFuel (insertOrder b o1)) (insertOrder b o1) [] = some (tn, b2) ∧
  cancelFront b2 b2.bids_ OrderType.FillOrKill = some b3 ∧
  cancelFront b3 b3.asks_ OrderType.FillAndKill = some b4

/-- The book holding one resting buy order id 1 of quantity 10 at price 100. -/
def bookBuyTen : OrderBook :=
  { orders_ := [(1, gtc 1 Side.Buy 100 10)], bids_ := [(100, [gtc 1 Side.Buy 100 10])],
    asks_ := [], data_ := [(100, ⟨10, 1⟩)] }

/-- The book `bookBuyTen` after 7 of the 10 were sold. -/
def bookBuyThree : OrderBook :=
  { orders_ := [(1, ⟨OrderType.GoodTillCancel, 1, Side.Buy, 100, 10, 3⟩)],
    bids_ := [(100, [⟨OrderType.GoodTillCancel, 1, Side.Buy, 100, 10, 3⟩])],
    asks_ := [], data_ := [(100, ⟨3, 1⟩)] }

/-- The book with the buys id 1 and then id 2 resting at price 100, 5 each. -/
def bookTwoBuys : OrderBook :=
  { orders_ := [(1, gtc 1 Side.Buy 100 5), (2, gtc 2 Side.Buy 100 5)],
    bids_ := [(100, [gtc 1 Side.Buy 100 5, gtc 2 Side.Buy 100 5])],
    asks_ := [], data_ := [(100, ⟨10, 2⟩)] }

/-- The book `bookTwoBuys` after the buy id 1 was filled. -/
def bookSecondBuy : OrderBook :=
  { orders_ := [(2, gtc 2 Side.Buy 100 5)], bids_ := [(100, [gtc 2 Side.Buy 100 5])],
    asks_ := [], data_ := [(100, ⟨5, 1⟩)] }

/-- Number of the orders among `os` priced at `p`. -/
def countAt (p : Price) (os : List Order) : Int :=
  ((os.filter (fun o => decide (o.price_ = p))).length : Int)

/-- Remaining quantity of the orders among `os` priced at `p`. -/
def quantityAt (p : Price) (os : List Order) : Int :=
  ((os.filter (fun o => decide (o.price_ = p))).map (fun o => (o.remainingQuantity : Int))).sum

/-- The aggregate the orders `os` call for at price `p`: none when no order is
priced at `p`, else their count and their remaining quantity. -/
def aggregate (p : Price) (os : List Order) : Option LevelData :=
  if countAt p os = 0 then none
  else some { quantity_ := quantityAt p os, count_ := countAt p os }

/-- The level map `d` is the aggregate of the orders `os`: one entry per price,
and at every price the entry the orders call for. -/
def Represents (d : LevelMap) (os : List Order) : Prop :=
  (d.map Prod.fst).Nodup ∧ ∀ p, levelGet d p = aggregate p os

/-- The aggregate `data_` agrees with the resting orders. -/
def OrderBook.DataWF (b : OrderBook) : Prop := Represents b.data_ b.resting

/-- The change of the count an action makes. -/
def Action.countDelta (a : Action) : Int :=
  if a = Action.Remove then -1 else if a = Action.Add then 1 else 0

/-- The change of the quantity an action makes. -/
def Action.quantityDelta (a : Action) (q : Quantity) : Int :=
  if a = Action.Remove ∨ a = Action.Match then -(q : Int) else (q : Int)

/-- The test of `CanFullyFill` that keeps a level: it is not skipped by the first
`continue` (beyond the threshold) nor by the second (beyond the limit price). -/
def inRange (side : Side) (threshold price levelPrice : Price) : Bool :=
  (!((true && (decide (side = Side.Buy) && decide (threshold > levelPrice))) ||
      (decide (side = Side.Sell) && decide (threshold < levelPrice)))) &&
  (!((decide (side = Side.Buy) && decide (levelPrice > price)) ||
      (decide (side = Side.Sell) && decide (levelPrice < price))))

/-- Sum of the aggregated quantities over the entries whose price passes `ok`. -/
def rangeSum (ok : Price → Bool) (d : LevelMap) : Int :=
  ((d.filter (fun e => ok e.1)).map (fun e => e.2.quantity_)).sum

/-- The invariant of the reachable books: the indices are consistent, the book is
not crossed, the aggregate agrees with the resting orders and no fill-or-kill
order rests. -/
def OrderBook.Sound (b : OrderBook) : Prop :=
  b.Consistent ∧ b.Uncrossed ∧ b.DataWF ∧ ∀ o ∈ b.resting, o.orderType_ ≠ OrderType.FillOrKill

/-- The FIFO of the level keyed `p` of a ladder; empty when the ladder has no
level at `p`. -/
def levelOrders : Ladder → Price → List Order
  | [], _ => []
  | (k, q) :: rest, p => if k = p then q else levelOrders rest p

/-- A ladder after the orders failing `keep` left it: every FIFO keeps its other
orders in their order, and a level whose FIFO became empty is gone. -/
def ladderWithout (keep : Order → Bool) (l : Ladder) : Ladder :=
  (l.map (fun e => (e.1, e.2.filter keep))).filter (fun e => !e.2.isEmpty)

/-- The struct `LevelInfo` of `LevelInfo.h`: the quantity available at a price. -/
structure LevelInfo where
  price_ : Price
  quantity_ : Quantity
deriving DecidableEq, Repr

abbrev LevelInfos := List LevelInfo

/-- The class `OrderBookLevelInfos` of `OrderBookLevelInfos.h`. -/
structure OrderBookLevelInfos where
  bids_ : LevelInfos
  asks_ : LevelInfos
deriving DecidableEq, Repr

/-- `OrderBookLevelInfos::GetBids`. -/
def OrderBookLevelInfos.GetBids (i : OrderBookLevelInfos) : LevelInfos := i.bids_

/-- `OrderBookLevelInfos::GetAsks`. -/
def OrderBookLevelInfos.GetAsks (i : OrderBookLevelInfos) : LevelInfos := i.asks_

/-- The lambda `CreateLevelInfos` of `OrderBook::GetOrderInfos`: `std::accumulate`
of the remaining quantities over the FIFO, starting from zero. -/
def CreateLevelInfos (price : Price) (orders : List Order) : LevelInfo :=
  { price_ := price,
    quantity_ := orders.foldl (fun runningSum order => runningSum + order.remainingQuantity) 0 }

/-- `OrderBook::GetOrderInfos`: one `LevelInfo` per level, pushed in the iteration
order of each ladder. -/
def OrderBook.GetOrderInfos (b : OrderBook) : OrderBookLevelInfos :=
  { bids_ := b.bids_.map (fun e => CreateLevelInfos e.1 e.2),
    asks_ := b.asks_.map (fun e => CreateLevelInfos e.1 e.2) }
/-- The best price of the ladder opposite to a side: the key of its front level. -/
def OrderBook.bestOpposite (b : OrderBook) (side : Side) : Option Price :=
  (b.opposite side).head?.map Prod.fst
/-- An order as the class `Order` keeps it: the constructor starts the remaining
quantity at the initial quantity and `Fill` only takes away from it. -/
def Order.Bounded (o : Order) : Prop := o.remainingQuantity ≤ o.initialQuantity

instance (o : Order) : Decidable o.Bounded := by unfold Order.Bounded; infer_instance
/-- No level of either ladder holds an empty FIFO. -/
def OrderBook.NoEmptyLevel (b : OrderBook) : Prop :=
  (∀ e ∈ b.bids_, e.2 ≠ []) ∧ (∀ e ∈ b.asks_, e.2 ≠ [])

instance (b : OrderBook) : Decidable b.NoEmptyLevel := by
  unfold OrderBook.NoEmptyLevel; infer_instance

/-- The book `bookBuyTen` with the sell id 2 of 7 at 100 inserted and not yet
matched. -/
def bookCrossed : OrderBook :=
  { orders_ := [(1, gtc 1 Side.Buy 100 10), (2, gtc 2 Side.Sell 100 7)],
    bids_ := [(100, [gtc 1 Side.Buy 100 10])], asks_ := [(100, [gtc 2 Side.Sell 100 7])],
    data_ := [(100, ⟨17, 2⟩)] }

/-! ## Theorems -/

/-! ### Rejections -/

theorem addOrder_of_contains (b : OrderBook) (o : Order)
    (h : containsOrder b.orders_ o.orderId_ = true) : AddOrder b o = some ([], b) := by
  simp [AddOrder, h]

theorem marketRetag_of_not_market (b : OrderBook) (o : Order)
    (h : o.orderType_ ≠ OrderType.Market) : marketRetag b o = Retag.goesOn o := by
  simp [marketRetag, h]

theorem marketRetag_of_empty (b : OrderBook) (o : Order)
    (hm : o.orderType_ = OrderType.Market) (he : b.opposite o.side_ = []) :
    marketRetag b o = Retag.rejected := by
  cases hs : o.side_ <;> simp [OrderBook.opposite, hs] at he <;>
    simp [marketRetag, hm, hs, he]

/-- C2: every rejection path of `AddOrder` (live id, market order against an empty
opposite ladder, fill-and-kill that cannot match, fill-or-kill that cannot be
filled in full) returns no trades and the unchanged book; `CancelOrder` and
`ModifyOrder` on an id that is not live return the unchanged book, `ModifyOrder`
with no trades. -/
theorem rejection_changes_nothing (b : OrderBook) (o : Order) (orderId : OrderId)
    (m : OrderModify) (ho : b.Turned o)
    (hid : containsOrder b.orders_ orderId = false)
    (hm : containsOrder b.orders_ m.orderId_ = false) :
    AddOrder b o = some ([], b) ∧ CancelOrder b orderId = some b ∧
      ModifyOrder b m = some ([], b) := by
  refine ⟨?_, ?_, ?_⟩
  · by_cases hc : containsOrder b.orders_ o.orderId_ = true
    · exact addOrder_of_contains b o hc
    · rcases ho with h | ⟨h1, h2⟩ | ⟨h1, h2⟩ | ⟨h1, h2⟩
      · exact absurd h hc
      · simp [AddOrder, hc, marketRetag_of_empty b o h1 h2]
      · have hnm : o.orderType_ ≠ OrderType.Market := by rw [h1]; decide
        simp [AddOrder, hc, marketRetag_of_not_market b o hnm, h1, h2]
      · have hnm : o.orderType_ ≠ OrderType.Market := by rw [h1]; decide
        simp [AddOrder, hc, marketRetag_of_not_market b o hnm, h1, h2]
  · simp [CancelOrder, CancelOrderInternal, hid]
  · simp [ModifyOrder, hm]

/-- C2, on the book with asks 4 at 101 and 3 at 102: a fill-or-kill buy of 5 at
101 is turned away, as are a cancel and a modify of the unknown id 7. -/
theorem rejection_changes_nothing_witness :
    bookTwoAsks.Turned (Order.new OrderType.FillOrKill 10 Side.Buy 101 5) ∧
    AddOrder bookTwoAsks (Order.new OrderType.FillOrKill 10 Side.Buy 101 5)
      = some ([], bookTwoAsks) ∧
    CancelOrder bookTwoAsks 7 = some bookTwoAsks ∧
    ModifyOrder bookTwoAsks ⟨7, Side.Buy, 100, 1⟩ = some ([], bookTwoAsks) :=
  ⟨by decide,
   rejection_changes_nothing bookTwoAsks (Order.new OrderType.FillOrKill 10 Side.Buy 101 5)
     7 ⟨7, Side.Buy, 100, 1⟩ (by decide) (by decide) (by decide)⟩

/-! ### Fill-and-kill residual -/

/-- C4: on the book whose only resting order is a sell of 3 at 100, a fill-and-kill
buy id 20 of 10 at 100 trades 3 and its residual of 7 stays in the book: the
order is live afterwards, `Size` is 1 and the bids ladder holds it.  The same
order on the sell side against a resting buy leaves nothing behind. -/
theorem fill_and_kill_buy_residual_rests :
    AddOrder bookOneAsk (Order.new OrderType.FillAndKill 20 Side.Buy 100 10)
      = some ([⟨⟨20, 100, 3⟩, ⟨1, 100, 3⟩⟩], bookFakResidual) ∧
    bookFakResidual.Size = 1 ∧ containsOrder bookFakResidual.orders_ 20 = true ∧
    AddOrder bookOneBid (Order.new OrderType.FillAndKill 20 Side.Sell 100 10)
      = some ([⟨⟨1, 100, 3⟩, ⟨20, 100, 3⟩⟩], OrderBook.empty) := by
  refine ⟨by decide, by decide, by decide, by decide⟩

/-! ### Market retag -/

theorem getLast_extreme {α : Type} (r : α → α → Prop) :
    ∀ (l : List α) (e : α), l.Pairwise r → l.getLast? = some e →
      e ∈ l ∧ ∀ x ∈ l, x = e ∨ r x e := by
  intro l
  induction l with
  | nil => intro e _ h; simp at h
  | cons a t ih =>
    intro e hp hl
    cases t with
    | nil =>
      simp at hl
      subst hl
      simp
    | cons c t2 =>
      rw [List.getLast?_cons_cons] at hl
      obtain ⟨hmem, hall⟩ := ih e (List.Pairwise.of_cons hp) hl
      refine ⟨List.mem_cons_of_mem _ hmem, ?_⟩
      intro x hx
      rcases List.mem_cons.1 hx with rfl | hx
      · exact Or.inr (List.rel_of_pairwise_cons hp hmem)
      · exact hall x hx

/-- C6: a market order with a fresh id, on a book whose opposite ladder is not
empty, is turned into a good-till-cancel order priced at the largest ask (for a
buy) or the smallest bid (for a sell) and it is that order which is inserted and
matched; when the opposite ladder is empty the order is rejected with no trades
and the book, hence `Size`, is unchanged. -/
theorem market_order_retag (b : OrderBook) (o : Order) (hs : b.Sorted)
    (hfresh : containsOrder b.orders_ o.orderId_ = false)
    (hm : o.orderType_ = OrderType.Market) :
    (b.opposite o.side_ = [] → AddOrder b o = some ([], b)) ∧
    (b.opposite o.side_ ≠ [] →
      ∃ p : Price, p ∈ (b.opposite o.side_).map Prod.fst ∧
        (∀ k ∈ (b.opposite o.side_).map Prod.fst,
          if o.side_ = Side.Buy then k ≤ p else p ≤ k) ∧
        marketRetag b o =
          Retag.goesOn { o with price_ := p, orderType_ := OrderType.GoodTillCancel } ∧
        AddOrder b o = MatchOrders (insertOrder b
          { o with price_ := p, orderType_ := OrderType.GoodTillCancel })) := by
  constructor
  · intro he
    simp [AddOrder, hfresh, marketRetag_of_empty b o hm he]
  · intro hne
    cases hside : o.side_ with
    | Buy =>
      simp only [OrderBook.opposite, hside, if_true] at hne ⊢
      cases hl : b.asks_.getLast? with
      | none => simp [List.getLast?_eq_none_iff] at hl; exact absurd hl hne
      | some e =>
        obtain ⟨hmem, hall⟩ := getLast_extreme _ b.asks_ e hs.2 hl
        have hr : marketRetag b o =
            Retag.goesOn { o with price_ := e.1, orderType_ := OrderType.GoodTillCancel } := by
          simp [marketRetag, hm, hside, hne, hl, Order.ToGoodTillCancel]
        simp only [hside] at hr
        refine ⟨e.1, List.mem_map_of_mem _ hmem, ?_, hr, ?_⟩
        · intro k hk
          obtain ⟨x, hx, rfl⟩ := List.mem_map.1 hk
          rcases hall x hx with rfl | h
          · exact le_refl _
          · exact le_of_lt h
        · simp [AddOrder, hfresh, hr]
    | Sell =>
      simp only [OrderBook.opposite, hside] at hne ⊢
      simp only [reduceCtorEq, if_false] at hne ⊢
      cases hl : b.bids_.getLast? with
      | none => simp [List.getLast?_eq_none_iff] at hl; exact absurd hl hne
      | some e =>
        obtain ⟨hmem, hall⟩ := getLast_extreme _ b.bids_ e hs.1 hl
        have hr : marketRetag b o =
            Retag.goesOn { o with price_ := e.1, orderType_ := OrderType.GoodTillCancel } := by
          simp [marketRetag, hm, hside, hne, hl, Order.ToGoodTillCancel]
        simp only [hside] at hr
        refine ⟨e.1, List.mem_map_of_mem _ hmem, ?_, hr, ?_⟩
        · intro k hk
          obtain ⟨x, hx, rfl⟩ := List.mem_map.1 hk
          rcases hall x hx with rfl | h
          · exact le_refl _
          · exact le_of_lt h
        · simp [AddOrder, hfresh, hr]

/-- C6 on three books: a market buy of 9 against asks at 101 and 102 is priced at
102, a market sell of 9 against bids at 102 and 101 is priced at 101, and a
market buy id 30 of 5 on the empty book is rejected with `Size` 0. -/
theorem market_order_retag_witness :
    marketRetag bookTwoAsks (Order.new OrderType.Market 10 Side.Buy 0 9)
      = Retag.goesOn (gtc 10 Side.Buy 102 9) ∧
    marketRetag bookTwoBids (Order.new OrderType.Market 10 Side.Sell 0 9)
      = Retag.goesOn (gtc 10 Side.Sell 101 9) ∧
    AddOrder OrderBook.empty (Order.new OrderType.Market 30 Side.Buy 0 5)
      = some ([], OrderBook.empty) ∧ OrderBook.empty.Size = 0 := by
  have h1 := (market_order_retag bookTwoAsks (Order.new OrderType.Market 10 Side.Buy 0 9)
    (by decide) (by decide) rfl).2 (by decide)
  have h2 := (market_order_retag bookTwoBids (Order.new OrderType.Market 10 Side.Sell 0 9)
    (by decide) (by decide) rfl).2 (by decide)
  have h3 := (market_order_retag OrderBook.empty (Order.new OrderType.Market 30 Side.Buy 0 5)
    (by decide) (by decide) rfl).1 (by decide)
  exact ⟨by decide, by decide, h3, by decide⟩

/-! ### The id index -/

theorem containsOrder_iff (os : OrderIndex) (orderId : OrderId) :
    containsOrder os orderId = true ↔ ∃ o, (orderId, o) ∈ os := by
  unfold containsOrder
  rw [List.any_eq_true]
  constructor
  · rintro ⟨⟨k, o⟩, hmem, hk⟩
    have : k = orderId := by simpa using hk
    subst this
    exact ⟨o, hmem⟩
  · rintro ⟨o, hmem⟩
    exact ⟨(orderId, o), hmem, by simp⟩

theorem containsOrder_false_iff (os : OrderIndex) (orderId : OrderId) :
    containsOrder os orderId = false ↔ ∀ o, (orderId, o) ∉ os := by
  rw [← Bool.not_eq_true, containsOrder_iff]
  push_neg
  rfl

theorem findOrder_mem : ∀ (os : OrderIndex) (orderId : OrderId) (o : Order),
    findOrder os orderId = some o → (orderId, o) ∈ os := by
  intro os
  induction os with
  | nil => intro _ _ h; simp [findOrder] at h
  | cons e t ih =>
    intro orderId o h
    obtain ⟨k, v⟩ := e
    unfold findOrder at h
    split at h
    · rename_i hk
      subst hk
      simp at h
      subst h
      exact List.mem_cons_self _ _
    · exact List.mem_cons_of_mem _ (ih _ _ h)

theorem findOrder_of_mem : ∀ (os : OrderIndex) (orderId : OrderId) (o : Order),
    (os.map Prod.fst).Nodup → (orderId, o) ∈ os → findOrder os orderId = some o := by
  intro os
  induction os with
  | nil => intro _ _ _ h; simp at h
  | cons e t ih =>
    intro orderId o hnd hmem
    obtain ⟨k, v⟩ := e
    simp only [List.map_cons, List.nodup_cons] at hnd
    unfold findOrder
    rcases List.mem_cons.1 hmem with heq | hmem
    · simp only [Prod.mk.injEq] at heq
      simp [heq.1, heq.2]
    · have hne : k ≠ orderId := by
        intro hk
        apply hnd.1
        rw [hk]
        exact List.mem_map_of_mem Prod.fst hmem
      simp [hne, ih _ _ hnd.2 hmem]

/-- Rewriting, through the shared pointer, the record of the order `o` that sits
between `X` and `Y`. -/
theorem sync_perm (os : OrderIndex) (X Y : List Order) (o o1 : Order)
    (hid : o1.orderId_ = o.orderId_)
    (hnd : ((X ++ o :: Y).map (fun z => z.orderId_)).Nodup)
    (hp : os.Perm ((X ++ o :: Y).map indexEntry)) :
    (syncOrder os o1).Perm ((X ++ o1 :: Y).map indexEntry) := by
  have h1 : (syncOrder os o1).Perm (syncOrder ((X ++ o :: Y).map indexEntry) o1) :=
    List.Perm.map _ hp
  have hX : ∀ z ∈ X, z.orderId_ ≠ o.orderId_ := by
    intro z hz he
    rw [List.map_append, List.map_cons] at hnd
    have := (List.nodup_append.1 hnd).2.2
    exact this (List.mem_map_of_mem _ hz) (by rw [he]; exact List.mem_cons_self _ _)
  have hY : ∀ z ∈ Y, z.orderId_ ≠ o.orderId_ := by
    intro z hz he
    rw [List.map_append, List.map_cons] at hnd
    have := (List.nodup_cons.1 (List.nodup_append.1 hnd).2.1).1
    exact this (by rw [← he]; exact List.mem_map_of_mem _ hz)
  have h2 : syncOrder ((X ++ o :: Y).map indexEntry) o1 = (X ++ o1 :: Y).map indexEntry := by
    unfold syncOrder
    simp only [List.map_append, List.map_cons, List.map_map]
    congr 1
    · apply List.map_congr_left
      intro z hz
      simp [indexEntry, hid, hX z hz]
    · congr 1
      · simp [indexEntry, hid]
      · apply List.map_congr_left
        intro z hz
        simp [indexEntry, hid, hY z hz]
  rw [h2] at h1
  exact h1

/-- Unregistering the order `o` that sits between `X` and `Y`. -/
theorem erase_perm (os : OrderIndex) (X Y : List Order) (o : Order)
    (hnd : ((X ++ o :: Y).map (fun z => z.orderId_)).Nodup)
    (hp : os.Perm ((X ++ o :: Y).map indexEntry)) :
    (eraseOrder os o.orderId_).Perm ((X ++ Y).map indexEntry) := by
  have h1 : (eraseOrder os o.orderId_).Perm
      (eraseOrder ((X ++ o :: Y).map indexEntry) o.orderId_) := List.Perm.filter _ hp
  have hX : ∀ z ∈ X, z.orderId_ ≠ o.orderId_ := by
    intro z hz he
    rw [List.map_append, List.map_cons] at hnd
    have := (List.nodup_append.1 hnd).2.2
    exact this (List.mem_map_of_mem _ hz) (by rw [he]; exact List.mem_cons_self _ _)
  have hY : ∀ z ∈ Y, z.orderId_ ≠ o.orderId_ := by
    intro z hz he
    rw [List.map_append, List.map_cons] at hnd
    have := (List.nodup_cons.1 (List.nodup_append.1 hnd).2.1).1
    exact this (by rw [← he]; exact List.mem_map_of_mem _ hz)
  have h2 : eraseOrder ((X ++ o :: Y).map indexEntry) o.orderId_ = (X ++ Y).map indexEntry := by
    unfold eraseOrder
    simp only [List.map_append, List.map_cons, List.filter_append, List.filter_cons]
    have e1 : List.filter (fun e : OrderId × Order => decide (e.1 ≠ o.orderId_))
        (X.map indexEntry) = X.map indexEntry := by
      apply List.filter_eq_self.2
      intro e he
      obtain ⟨z, hz, rfl⟩ := List.mem_map.1 he
      simpa [indexEntry] using hX z hz
    have e2 : List.filter (fun e : OrderId × Order => decide (e.1 ≠ o.orderId_))
        (Y.map indexEntry) = Y.map indexEntry := by
      apply List.filter_eq_self.2
      intro e he
      obtain ⟨z, hz, rfl⟩ := List.mem_map.1 he
      simpa [indexEntry] using hY z hz
    rw [e1, e2]
    simp [indexEntry]
  rw [h2] at h1
  exact h1

theorem nodup_remove_middle (X Y : List Order) (o : Order)
    (hnd : ((X ++ o :: Y).map (fun z => z.orderId_)).Nodup) :
    ((X ++ Y).map (fun z => z.orderId_)).Nodup := by
  refine List.Nodup.sublist ?_ hnd
  apply List.Sublist.map
  exact List.Sublist.append (List.Sublist.refl X) (List.sublist_cons_self o Y)

theorem nodup_replace_middle (X Y : List Order) (o o1 : Order)
    (hid : o1.orderId_ = o.orderId_)
    (hnd : ((X ++ o :: Y).map (fun z => z.orderId_)).Nodup) :
    ((X ++ o1 :: Y).map (fun z => z.orderId_)).Nodup := by
  simpa [hid] using hnd

/-! ### Ladders -/

@[simp] theorem ladderOrders_nil : ladderOrders [] = [] := rfl

@[simp] theorem ladderOrders_cons (k : Price) (q : List Order) (rest : Ladder) :
    ladderOrders ((k, q) :: rest) = q ++ ladderOrders rest := by
  simp [ladderOrders]

theorem mem_ladderOrders (l : Ladder) (o : Order) :
    o ∈ ladderOrders l ↔ ∃ e ∈ l, o ∈ e.2 := by
  simp only [ladderOrders, List.mem_flatten, List.mem_map]
  constructor
  · rintro ⟨q, ⟨e, he, rfl⟩, ho⟩
    exact ⟨e, he, ho⟩
  · rintro ⟨e, he, ho⟩
    exact ⟨e.2, ⟨e, he, rfl⟩, ho⟩

theorem LadderOK.nil (r : Price → Price → Prop) (side : Side) : LadderOK r side [] :=
  ⟨List.Pairwise.nil, by simp⟩

theorem LadderOK.tail {r : Price → Price → Prop} {side : Side} {e : Price × List Order}
    {l : Ladder} (h : LadderOK r side (e :: l)) : LadderOK r side l :=
  ⟨List.Pairwise.of_cons h.1, fun x hx => h.2 x (List.mem_cons_of_mem _ hx)⟩

/-- Replacing the FIFO of the front level by a non-empty list of orders of the
same side and price keeps the ladder well formed. -/
theorem LadderOK.front {r : Price → Price → Prop} {side : Side} {k : Price}
    {q q1 : List Order} {l : Ladder} (h : LadderOK r side ((k, q) :: l))
    (hne : q1 ≠ []) (hq : ∀ o ∈ q1, o.side_ = side ∧ o.price_ = k) :
    LadderOK r side ((k, q1) :: l) := by
  refine ⟨?_, ?_⟩
  · have := h.1
    rw [List.pairwise_cons] at this ⊢
    exact this
  · intro x hx
    rcases List.mem_cons.1 hx with rfl | hx
    · exact ⟨hne, hq⟩
    · exact h.2 x (List.mem_cons_of_mem _ hx)

theorem LadderOK.price_of_mem {r : Price → Price → Prop} {side : Side} {l : Ladder}
    (h : LadderOK r side l) {o : Order} (ho : o ∈ ladderOrders l) :
    o.side_ = side ∧ ∃ e ∈ l, e.1 = o.price_ ∧ o ∈ e.2 := by
  obtain ⟨e, he, hoe⟩ := (mem_ladderOrders l o).1 ho
  have := (h.2 e he).2 o hoe
  exact ⟨this.1, e, he, this.2.symm, hoe⟩

theorem ladderPush_key (before : Price → Price → Bool) (p : Price) (o : Order) :
    ∀ (l : Ladder) (e : Price × List Order), e ∈ ladderPush before p o l →
      e.1 = p ∨ ∃ e0 ∈ l, e0.1 = e.1 := by
  intro l
  induction l with
  | nil =>
    intro e he
    simp [ladderPush] at he
    left; rw [he]
  | cons a t ih =>
    intro e he
    obtain ⟨k, q⟩ := a
    unfold ladderPush at he
    split at he
    · rcases List.mem_cons.1 he with rfl | he
      · right; exact ⟨(k, q), List.mem_cons_self _ _, rfl⟩
      · right; exact ⟨e, List.mem_cons_of_mem _ he, rfl⟩
    · split at he
      · rcases List.mem_cons.1 he with rfl | he
        · left; rfl
        · right; exact ⟨e, he, rfl⟩
      · rcases List.mem_cons.1 he with rfl | he
        · right; exact ⟨(k, q), List.mem_cons_self _ _, rfl⟩
        · rcases ih e he with h | ⟨e0, he0, h⟩
          · left; exact h
          · right; exact ⟨e0, List.mem_cons_of_mem _ he0, h⟩

theorem ladderPush_ok (before : Price → Price → Bool) (r : Price → Price → Prop)
    (hbr : ∀ p k, before p k = true ↔ r p k)
    (htrans : ∀ a b c, r a b → r b c → r a c)
    (htot : ∀ a b, a ≠ b → ¬ r a b → r b a)
    (side : Side) (o : Order) (hs : o.side_ = side) :
    ∀ l : Ladder, LadderOK r side l → LadderOK r side (ladderPush before o.price_ o l) := by
  intro l
  induction l with
  | nil =>
    intro _
    refine ⟨by simp [ladderPush], ?_⟩
    intro e he
    simp [ladderPush] at he
    subst he
    simp [hs]
  | cons a t ih =>
    intro h
    obtain ⟨k, q⟩ := a
    unfold ladderPush
    split
    · rename_i hk
      refine LadderOK.front h (by simp) ?_
      intro x hx
      rcases List.mem_append.1 hx with hx | hx
      · exact (h.2 (k, q) (List.mem_cons_self _ _)).2 x hx
      · simp at hx
        subst hx
        exact ⟨hs, hk.symm⟩
    · rename_i hk
      split
      · rename_i hb
        have hr : r o.price_ k := (hbr _ _).1 hb
        refine ⟨?_, ?_⟩
        · rw [List.pairwise_cons]
          refine ⟨?_, h.1⟩
          intro x hx
          rcases List.mem_cons.1 hx with rfl | hx
          · exact hr
          · exact htrans _ _ _ hr (List.rel_of_pairwise_cons h.1 hx)
        · intro e he
          rcases List.mem_cons.1 he with rfl | he
          · simp [hs]
          · exact h.2 e he
      · rename_i hb
        have hnr : ¬ r o.price_ k := fun hr => hb ((hbr _ _).2 hr)
        have hrk : r k o.price_ := htot _ _ (fun e => hk e.symm) hnr
        have iht := ih h.tail
        refine ⟨?_, ?_⟩
        · rw [List.pairwise_cons]
          refine ⟨?_, iht.1⟩
          intro x hx
          rcases ladderPush_key before o.price_ o t x hx with hx1 | ⟨e0, he0, hx1⟩
          · simp only []
            rw [hx1]; exact hrk
          · have := List.rel_of_pairwise_cons h.1 he0
            simp only [] at this ⊢
            rw [← hx1]; exact this
        · intro e he
          rcases List.mem_cons.1 he with rfl | he
          · exact h.2 _ (List.mem_cons_self _ _)
          · exact iht.2 e he

/-- The pushed order enters the priority order of the ladder at one place and
moves nothing else. -/
theorem ladderPush_orders (before : Price → Price → Bool) (p : Price) (o : Order) :
    ∀ l : Ladder, ∃ X Y, ladderOrders l = X ++ Y ∧
      ladderOrders (ladderPush before p o l) = X ++ o :: Y := by
  intro l
  induction l with
  | nil => exact ⟨[], [], by simp, by simp [ladderPush]⟩
  | cons a t ih =>
    obtain ⟨k, q⟩ := a
    unfold ladderPush
    split
    · exact ⟨q, ladderOrders t, by simp, by simp⟩
    · split
      · exact ⟨[], q ++ ladderOrders t, by simp, by simp⟩
      · obtain ⟨X, Y, h1, h2⟩ := ih
        exact ⟨q ++ X, Y, by simp [h1], by simp [h2]⟩

theorem eraseById_some (orderId : OrderId) :
    ∀ q : List Order, (∃ o ∈ q, o.orderId_ = orderId) →
      ∃ X o Y, eraseById orderId q = some (X ++ Y) ∧ q = X ++ o :: Y ∧
        o.orderId_ = orderId := by
  intro q
  induction q with
  | nil => rintro ⟨o, ho, _⟩; simp at ho
  | cons a t ih =>
    rintro ⟨o, ho, hid⟩
    unfold eraseById
    by_cases ha : a.orderId_ = orderId
    · exact ⟨[], a, t, by simp [ha], by simp, ha⟩
    · have hot : o ∈ t := by
        rcases List.mem_cons.1 ho with rfl | h
        · exact absurd hid ha
        · exact h
      obtain ⟨X, o1, Y, h1, h2, h3⟩ := ih ⟨o, hot, hid⟩
      exact ⟨a :: X, o1, Y, by simp [ha, h1], by simp [h2], h3⟩

theorem ladderRemove_ok (r : Price → Price → Prop) (hirr : ∀ a, ¬ r a a) (side : Side)
    (p : Price) (orderId : OrderId) :
    ∀ l : Ladder, LadderOK r side l →
      (∃ o ∈ ladderOrders l, o.orderId_ = orderId ∧ o.price_ = p) →
      ∃ l1 X o Y, ladderRemove p orderId l = some l1 ∧ ladderOrders l = X ++ o :: Y ∧
        o.orderId_ = orderId ∧ ladderOrders l1 = X ++ Y ∧ LadderOK r side l1 ∧
        (∀ e ∈ l1, ∃ e0 ∈ l, e0.1 = e.1) := by
  intro l
  induction l with
  | nil => rintro _ ⟨o, ho, _⟩; simp at ho
  | cons a t ih =>
    intro h ⟨o, ho, hid, hp⟩
    obtain ⟨k, q⟩ := a
    have hlev := h.2 (k, q) (List.mem_cons_self _ _)
    rw [ladderOrders_cons, List.mem_append] at ho
    unfold ladderRemove
    by_cases hk : k = p
    · have hoq : o ∈ q := by
        rcases ho with ho | ho
        · exact ho
        · exfalso
          obtain ⟨_, e, he, hep, _⟩ := h.tail.price_of_mem ho
          have := List.rel_of_pairwise_cons h.1 he
          simp only [] at this
          rw [hep, hp, ← hk] at this
          exact hirr _ this
      obtain ⟨X, o1, Y, h1, h2, h3⟩ := eraseById_some orderId q ⟨o, hoq, hid⟩
      simp only [hk, if_true, h1]
      by_cases hemp : (X ++ Y).isEmpty = true
      · refine ⟨t, X, o1, Y ++ ladderOrders t, by simp [hemp], by simp [h2], h3, ?_, h.tail, ?_⟩
        · have : X ++ Y = [] := by simpa using hemp
          rw [← List.append_assoc, this]; simp
        · intro e he; exact ⟨e, List.mem_cons_of_mem _ he, rfl⟩
      · refine ⟨(p, X ++ Y) :: t, X, o1, Y ++ ladderOrders t, by simp [hemp], by simp [h2],
          h3, by simp, ?_, ?_⟩
        · subst hk
          refine LadderOK.front h (by simpa using hemp) ?_
          intro x hx
          apply hlev.2 x
          rw [h2]
          rcases List.mem_append.1 hx with hx | hx
          · exact List.mem_append_left _ hx
          · exact List.mem_append_right _ (List.mem_cons_of_mem _ hx)
        · intro e he
          rcases List.mem_cons.1 he with rfl | he
          · exact ⟨_, List.mem_cons_self _ _, rfl⟩
          · exact ⟨e, List.mem_cons_of_mem _ he, rfl⟩
    · have hot : o ∈ ladderOrders t := by
        rcases ho with ho | ho
        · exact absurd ((hlev.2 o ho).2.symm.trans hp) hk
        · exact ho
      obtain ⟨l1, X, o1, Y, h1, h2, h3, h4, h5, h6⟩ := ih h.tail ⟨o, hot, hid, hp⟩
      refine ⟨(k, q) :: l1, q ++ X, o1, Y, by simp [hk, h1], by simp [h2], h3, by simp [h4],
        ?_, ?_⟩
      · refine ⟨?_, ?_⟩
        · rw [List.pairwise_cons]
          refine ⟨?_, h5.1⟩
          intro x hx
          obtain ⟨e0, he0, hx1⟩ := h6 x hx
          have := List.rel_of_pairwise_cons h.1 he0
          simp only [] at this ⊢
          rw [← hx1]; exact this
        · intro e he
          rcases List.mem_cons.1 he with rfl | he
          · exact hlev
          · exact h5.2 e he
      · intro e he
        rcases List.mem_cons.1 he with rfl | he
        · exact ⟨_, List.mem_cons_self _ _, rfl⟩
        · obtain ⟨e0, he0, hx1⟩ := h6 e he
          exact ⟨e0, List.mem_cons_of_mem _ he0, hx1⟩

/-! ### Consistency of the indices -/

theorem eq_of_same_id (L : List Order) (hnd : (L.map (fun o => o.orderId_)).Nodup)
    (a c : Order) (ha : a ∈ L) (hc : c ∈ L) (h : a.orderId_ = c.orderId_) : a = c :=
  List.inj_on_of_nodup_map hnd ha hc h

theorem Order.Tracks.self (o : Order) : o.Tracks o :=
  ⟨rfl, rfl, rfl, rfl, rfl, le_refl _⟩

theorem Order.Tracks.chain {a c d : Order} (h1 : a.Tracks c) (h2 : c.Tracks d) : a.Tracks d :=
  ⟨h1.1.trans h2.1, h1.2.1.trans h2.2.1, h1.2.2.1.trans h2.2.2.1,
    h1.2.2.2.1.trans h2.2.2.2.1, h1.2.2.2.2.1.trans h2.2.2.2.2.1,
    le_trans h1.2.2.2.2.2 h2.2.2.2.2.2⟩

theorem LadderFrom.same (l : Ladder) : LadderFrom l l :=
  ⟨fun o ho => ⟨o, ho, Order.Tracks.self o⟩, fun e he => ⟨e, he, rfl⟩⟩

theorem LadderFrom.next {l l1 l2 : Ladder} (h1 : LadderFrom l l1) (h2 : LadderFrom l1 l2) :
    LadderFrom l l2 := by
  refine ⟨?_, ?_⟩
  · intro o2 ho2
    obtain ⟨o1, ho1, t1⟩ := h2.1 o2 ho2
    obtain ⟨o, ho, t⟩ := h1.1 o1 ho1
    exact ⟨o, ho, t1.chain t⟩
  · intro e2 he2
    obtain ⟨e1, he1, k1⟩ := h2.2 e2 he2
    obtain ⟨e, he, k⟩ := h1.2 e1 he1
    exact ⟨e, he, k.trans k1⟩

theorem OrderBook.Consistent.keys_nodup {b : OrderBook} (h : b.Consistent) :
    (b.orders_.map Prod.fst).Nodup := by
  have hp : (b.orders_.map Prod.fst).Perm ((b.resting.map indexEntry).map Prod.fst) :=
    List.Perm.map _ h.2.2.2
  rw [List.map_map] at hp
  exact (List.Perm.nodup_iff hp).2 h.2.2.1

theorem OrderBook.Consistent.mem_index {b : OrderBook} (h : b.Consistent) (orderId : OrderId)
    (o : Order) : (orderId, o) ∈ b.orders_ ↔ o ∈ b.resting ∧ o.orderId_ = orderId := by
  rw [List.Perm.mem_iff h.2.2.2, List.mem_map]
  constructor
  · rintro ⟨o1, ho1, he⟩
    simp only [indexEntry, Prod.mk.injEq] at he
    obtain ⟨h1, h2⟩ := he
    subst h2
    exact ⟨ho1, h1⟩
  · rintro ⟨ho, hid⟩
    exact ⟨o, ho, by simp [indexEntry, hid]⟩

theorem OrderBook.Consistent.find {b : OrderBook} (h : b.Consistent) (o : Order)
    (ho : o ∈ b.resting) : findOrder b.orders_ o.orderId_ = some o :=
  findOrder_of_mem _ _ _ h.keys_nodup ((h.mem_index _ _).2 ⟨ho, rfl⟩)

theorem OrderBook.Consistent.contains_iff {b : OrderBook} (h : b.Consistent) (orderId : OrderId) :
    containsOrder b.orders_ orderId = true ↔ ∃ o ∈ b.resting, o.orderId_ = orderId := by
  rw [containsOrder_iff]
  constructor
  · rintro ⟨o, ho⟩
    exact ⟨o, (h.mem_index _ _).1 ho⟩
  · rintro ⟨o, ho, hid⟩
    exact ⟨o, (h.mem_index _ _).2 ⟨ho, hid⟩⟩

theorem OrderBook.Consistent.size {b : OrderBook} (h : b.Consistent) :
    b.Size = b.resting.length := by
  unfold OrderBook.Size
  rw [List.Perm.length_eq h.2.2.2, List.length_map]

theorem gt_irrefl_price : ∀ a : Price, ¬ (fun p k : Price => p > k) a a :=
  fun a h => lt_irrefl a h

theorem lt_irrefl_price : ∀ a : Price, ¬ (fun p k : Price => p < k) a a :=
  fun a h => lt_irrefl a h

/-- `CancelOrderInternal` on a consistent book returns; an id that is not live
leaves the book as it is, a live id has its order removed. -/
theorem cancel_ok (b : OrderBook) (orderId : OrderId) (h : b.Consistent) :
    ∃ b1, CancelOrderInternal b orderId = some b1 ∧ b1.Consistent ∧
      LadderFrom b.bids_ b1.bids_ ∧ LadderFrom b.asks_ b1.asks_ ∧
      ((containsOrder b.orders_ orderId = false ∧ b1 = b) ∨
       (containsOrder b.orders_ orderId = true ∧ b.Removes orderId b1)) := by
  by_cases hc : containsOrder b.orders_ orderId = true
  · obtain ⟨o, hmem⟩ := (containsOrder_iff _ _).1 hc
    obtain ⟨hrest, hid⟩ := (h.mem_index _ _).1 hmem
    have hfind : findOrder b.orders_ orderId = some o := by
      rw [← hid]; exact h.find o hrest
    obtain ⟨hB, hA, hnd, hperm⟩ := h
    cases hside : o.side_ with
    | Sell =>
      have hoA : o ∈ ladderOrders b.asks_ := by
        rcases List.mem_append.1 hrest with hb | ha
        · have := (hB.price_of_mem hb).1
          rw [hside] at this; cases this
        · exact ha
      obtain ⟨l1, X, o1, Y, h1, h2, h3, h4, h5, h6⟩ :=
        ladderRemove_ok _ lt_irrefl_price Side.Sell o.price_ orderId b.asks_ hA
          ⟨o, hoA, hid, rfl⟩
      have ho1 : o1 = o := by
        apply eq_of_same_id _ hnd
        · unfold OrderBook.resting; rw [h2]; simp
        · exact hrest
        · rw [h3, hid]
      subst ho1
      have hres : b.resting = (ladderOrders b.bids_ ++ X) ++ o1 :: Y := by
        unfold OrderBook.resting; rw [h2]; simp
      refine ⟨{ b with orders_ := eraseOrder b.orders_ orderId, asks_ := l1,
                       data_ := OnOrderCancelled b.data_ o1 }, ?_, ?_, ?_, ?_, ?_⟩
      · simp [CancelOrderInternal, hc, hfind, hside, h1]
      · refine ⟨hB, h5, ?_, ?_⟩
        · simp only [OrderBook.resting, h4]
          rw [← List.append_assoc]
          rw [hres] at hnd
          exact nodup_remove_middle _ _ _ hnd
        · simp only [OrderBook.resting, h4]
          rw [← List.append_assoc, ← hid]
          rw [hres] at hnd hperm
          exact erase_perm _ _ _ _ hnd hperm
      · exact LadderFrom.same _
      · refine ⟨?_, h6⟩
        intro x hx
        simp only [h4] at hx
        refine ⟨x, ?_, Order.Tracks.self x⟩
        rw [h2]
        rcases List.mem_append.1 hx with hx | hx
        · exact List.mem_append_left _ hx
        · exact List.mem_append_right _ (List.mem_cons_of_mem _ hx)
      · right
        refine ⟨hc, ladderOrders b.bids_ ++ X, o1, Y, hfind, hid, hres, ?_, rfl, rfl, ?_, ?_⟩
        · simp [OrderBook.resting, h4]
        · intro hb; rw [hside] at hb; cases hb
        · intro _; exact ⟨rfl, X, Y, h2, h4⟩
    | Buy =>
      have hoB : o ∈ ladderOrders b.bids_ := by
        rcases List.mem_append.1 hrest with hb | ha
        · exact hb
        · have := (hA.price_of_mem ha).1
          rw [hside] at this; cases this
      obtain ⟨l1, X, o1, Y, h1, h2, h3, h4, h5, h6⟩ :=
        ladderRemove_ok _ gt_irrefl_price Side.Buy o.price_ orderId b.bids_ hB
          ⟨o, hoB, hid, rfl⟩
      have ho1 : o1 = o := by
        apply eq_of_same_id _ hnd
        · unfold OrderBook.resting; rw [h2]; simp
        · exact hrest
        · rw [h3, hid]
      subst ho1
      have hres : b.resting = X ++ o1 :: (Y ++ ladderOrders b.asks_) := by
        unfold OrderBook.resting; rw [h2]; simp
      refine ⟨{ b with orders_ := eraseOrder b.orders_ orderId, bids_ := l1,
                       data_ := OnOrderCancelled b.data_ o1 }, ?_, ?_, ?_, ?_, ?_⟩
      · simp [CancelOrderInternal, hc, hfind, hside, h1]
      · refine ⟨h5, hA, ?_, ?_⟩
        · simp only [OrderBook.resting, h4]
          rw [List.append_assoc]
          rw [hres] at hnd
          exact nodup_remove_middle _ _ _ hnd
        · simp only [OrderBook.resting, h4]
          rw [List.append_assoc, ← hid]
          rw [hres] at hnd hperm
          exact erase_perm _ _ _ _ hnd hperm
      · refine ⟨?_, h6⟩
        intro x hx
        simp only [h4] at hx
        refine ⟨x, ?_, Order.Tracks.self x⟩
        rw [h2]
        rcases List.mem_append.1 hx with hx | hx
        · exact List.mem_append_left _ hx
        · exact List.mem_append_right _ (List.mem_cons_of_mem _ hx)
      · exact LadderFrom.same _
      · right
        refine ⟨hc, X, o1, Y ++ ladderOrders b.asks_, hfind, hid, hres, ?_, rfl, rfl, ?_, ?_⟩
        · simp [OrderBook.resting, h4]
        · intro _; exact ⟨rfl, X, Y, h2, h4⟩
        · intro hb; rw [hside] at hb; cases hb
  · have hc2 : containsOrder b.orders_ orderId = false := by simpa using hc
    exact ⟨b, by simp [CancelOrderInternal, hc2], h, LadderFrom.same _, LadderFrom.same _,
      Or.inl ⟨hc2, rfl⟩⟩

/-! ### One round of the matching loop -/

theorem ladderOrders_frontAfterFill (k : Price) (o1 : Order) (t : List Order)
    (rest : Ladder) :
    ladderOrders (frontAfterFill k o1 t rest) =
      (if o1.IsFilled then [] else [o1]) ++ (t ++ ladderOrders rest) := by
  unfold frontAfterFill
  by_cases hf : o1.IsFilled = true
  · cases t with
    | nil => simp [hf]
    | cons a t2 => simp [hf]
  · simp [hf]

theorem frontAfterFill_cases (k : Price) (o1 : Order) (t : List Order) (rest : Ladder) :
    (o1.IsFilled = true ∧ t = [] ∧ frontAfterFill k o1 t rest = rest) ∨
    (o1.IsFilled = true ∧ t ≠ [] ∧ frontAfterFill k o1 t rest = (k, t) :: rest) ∨
    (o1.IsFilled = false ∧ frontAfterFill k o1 t rest = (k, o1 :: t) :: rest) := by
  unfold frontAfterFill
  by_cases hf : o1.IsFilled = true
  · cases t with
    | nil => left; simp [hf]
    | cons a t2 => right; left; simp [hf]
  · right; right; simp [hf]

theorem frontAfterFill_ok {r : Price → Price → Prop} {side : Side} {k : Price}
    {o o1 : Order} {t : List Order} {rest : Ladder}
    (h : LadderOK r side ((k, o :: t) :: rest)) (ht : o1.Tracks o) :
    LadderOK r side (frontAfterFill k o1 t rest) := by
  have hlev := (h.2 _ (List.mem_cons_self _ _)).2
  rcases frontAfterFill_cases k o1 t rest with ⟨_, _, he⟩ | ⟨_, hne, he⟩ | ⟨_, he⟩
  · rw [he]; exact h.tail
  · rw [he]
    refine LadderOK.front h hne ?_
    intro x hx
    exact hlev x (List.mem_cons_of_mem _ hx)
  · rw [he]
    refine LadderOK.front h (by simp) ?_
    intro x hx
    rcases List.mem_cons.1 hx with rfl | hx
    · have := hlev o (List.mem_cons_self _ _)
      exact ⟨ht.2.2.1.trans this.1, ht.2.2.2.1.trans this.2⟩
    · exact hlev x (List.mem_cons_of_mem _ hx)

theorem frontAfterFill_from (k : Price) (o o1 : Order) (t : List Order) (rest : Ladder)
    (ht : o1.Tracks o) :
    LadderFrom ((k, o :: t) :: rest) (frontAfterFill k o1 t rest) := by
  refine ⟨?_, ?_⟩
  · intro x hx
    rw [ladderOrders_frontAfterFill] at hx
    rw [ladderOrders_cons]
    rcases List.mem_append.1 hx with hx | hx
    · split at hx
      · simp at hx
      · simp at hx
        subst hx
        exact ⟨o, by simp, ht⟩
    · refine ⟨x, ?_, Order.Tracks.self x⟩
      rcases List.mem_append.1 hx with hx | hx
      · simp [hx]
      · simp [hx]
  · intro e he
    rcases frontAfterFill_cases k o1 t rest with ⟨_, _, h⟩ | ⟨_, _, h⟩ | ⟨_, h⟩ <;>
      rw [h] at he
    · exact ⟨e, List.mem_cons_of_mem _ he, rfl⟩
    · rcases List.mem_cons.1 he with rfl | he
      · exact ⟨_, List.mem_cons_self _ _, rfl⟩
      · exact ⟨e, List.mem_cons_of_mem _ he, rfl⟩
    · rcases List.mem_cons.1 he with rfl | he
      · exact ⟨_, List.mem_cons_self _ _, rfl⟩
      · exact ⟨e, List.mem_cons_of_mem _ he, rfl⟩

theorem fillFront_eq (b : OrderBook) (bp : Price) (bid : Order) (bt : List Order)
    (br : Ladder) (ap : Price) (ask : Order) (at1 : List Order) (ar : Ladder) :
    fillFront b bp bid bt br ap ask at1 ar =
      some (matchTrade bid ask, bookAfterFill b bp bid bt br ap ask at1 ar) := by
  unfold fillFront
  have h1 : ¬ (min bid.remainingQuantity ask.remainingQuantity > bid.remainingQuantity) :=
    not_lt.2 (min_le_left _ _)
  have h2 : ¬ (min bid.remainingQuantity ask.remainingQuantity > ask.remainingQuantity) :=
    not_lt.2 (min_le_right _ _)
  simp only [Order.Fill, h1, h2, if_false]
  rfl

theorem filledBid_tracks (bid ask : Order) : (filledBid bid ask).Tracks bid :=
  ⟨rfl, rfl, rfl, rfl, rfl, Nat.sub_le _ _⟩

theorem filledAsk_tracks (bid ask : Order) : (filledAsk bid ask).Tracks ask :=
  ⟨rfl, rfl, rfl, rfl, rfl, Nat.sub_le _ _⟩

theorem filled_one (bid ask : Order) :
    (filledBid bid ask).IsFilled = true ∨ (filledAsk bid ask).IsFilled = true := by
  simp only [Order.IsFilled, filledBid, filledAsk, matchQuantity, beq_iff_eq]
  rcases le_total bid.remainingQuantity ask.remainingQuantity with h | h
  · left; rw [min_eq_left h]; exact Nat.sub_self _
  · right; rw [min_eq_right h]; exact Nat.sub_self _

/-- A round keeps the indices consistent and takes at least one order out of the
ladders. -/
theorem bookAfterFill_consistent (b : OrderBook) (bp : Price) (bid : Order)
    (bt : List Order) (br : Ladder) (ap : Price) (ask : Order) (at1 : List Order)
    (ar : Ladder) (hb : b.bids_ = (bp, bid :: bt) :: br)
    (ha : b.asks_ = (ap, ask :: at1) :: ar) (h : b.Consistent) :
    (bookAfterFill b bp bid bt br ap ask at1 ar).Consistent ∧
      LadderFrom b.bids_ (bookAfterFill b bp bid bt br ap ask at1 ar).bids_ ∧
      LadderFrom b.asks_ (bookAfterFill b bp bid bt br ap ask at1 ar).asks_ ∧
      (bookAfterFill b bp bid bt br ap ask at1 ar).resting.length < b.resting.length := by
  unfold bookAfterFill
  obtain ⟨hB, hA, hnd, hperm⟩ := h
  rw [hb] at hB
  rw [ha] at hA
  have hrest : b.resting =
      [] ++ bid :: ((bt ++ ladderOrders br) ++ ask :: (at1 ++ ladderOrders ar)) := by
    simp [OrderBook.resting, hb, ha]
  rw [hrest] at hnd hperm
  set B := bt ++ ladderOrders br with hBdef
  set A := at1 ++ ladderOrders ar with hAdef
  set bid1 := filledBid bid ask with hbid1
  set ask1 := filledAsk bid ask with hask1
  have hidb : bid1.orderId_ = bid.orderId_ := rfl
  have hida : ask1.orderId_ = ask.orderId_ := rfl
  have p1 := sync_perm _ _ _ bid bid1 hidb hnd hperm
  have n1 := nodup_replace_middle _ _ bid bid1 hidb hnd
  have e1 : [] ++ bid1 :: (B ++ ask :: A) = (bid1 :: B) ++ ask :: A := by simp
  rw [e1] at p1 n1
  have p2 := sync_perm _ _ _ ask ask1 hida n1 p1
  have n2 := nodup_replace_middle _ _ ask ask1 hida n1
  have hres1 : ∀ fb fa : Bool,
      (if fb then [] else [bid1]) ++ B ++ ((if fa then [] else [ask1]) ++ A) =
        ((if fb then [] else [bid1]) ++ B) ++ (if fa then [] else [ask1]) ++ A := by
    intro fb fa; simp
  refine ⟨⟨frontAfterFill_ok hB (filledBid_tracks bid ask),
      frontAfterFill_ok hA (filledAsk_tracks bid ask), ?_, ?_⟩,
    by rw [hb]; exact frontAfterFill_from _ _ _ _ _ (filledBid_tracks bid ask),
    by rw [ha]; exact frontAfterFill_from _ _ _ _ _ (filledAsk_tracks bid ask), ?_⟩
  · simp only [OrderBook.resting, ladderOrders_frontAfterFill]
    refine List.Nodup.sublist ?_ n2
    apply List.Sublist.map
    apply List.Sublist.append
    · by_cases hfb : bid1.IsFilled = true
      · simp [hfb, ← hBdef]
      · simp [hfb, ← hBdef]
    · by_cases hfa : ask1.IsFilled = true
      · simp [hfa, ← hAdef]
      · simp [hfa, ← hAdef]
  · simp only [OrderBook.resting, ladderOrders_frontAfterFill, indexAfterFill]
    rw [← hBdef, ← hAdef]
    by_cases hfb : bid1.IsFilled = true
    · have e2 : (bid1 :: B) ++ ask1 :: A = [] ++ bid1 :: (B ++ ask1 :: A) := by simp
      rw [e2] at p2 n2
      have p3 := erase_perm _ _ _ _ n2 p2
      have n3 := nodup_remove_middle _ _ _ n2
      simp only [List.nil_append] at p3 n3
      by_cases hfa : ask1.IsFilled = true
      · have p4 := erase_perm _ _ _ _ n3 p3
        simpa [hfb, hfa] using p4
      · simpa [hfb, hfa] using p3
    · by_cases hfa : ask1.IsFilled = true
      · have p4 := erase_perm _ _ _ _ n2 p2
        simpa [hfb, hfa] using p4
      · simpa [hfb, hfa] using p2
  · simp only [OrderBook.resting, ladderOrders_frontAfterFill, hb, ha, ladderOrders_cons,
      List.length_append, List.length_cons]
    rcases filled_one bid ask with hfb | hfa
    · rw [← hbid1] at hfb
      simp only [hfb, if_true, List.length_nil]
      split <;> simp <;> omega
    · rw [← hask1] at hfa
      simp only [hfa, if_true, List.length_nil]
      split <;> simp <;> omega

/-! ### The matching loop -/

theorem matchLoop_cross (fuel : Nat) (b : OrderBook) (ts : Trades) (bp : Price)
    (bid : Order) (bt : List Order) (br : Ladder) (ap : Price) (ask : Order)
    (at1 : List Order) (ar : Ladder) (hb : b.bids_ = (bp, bid :: bt) :: br)
    (ha : b.asks_ = (ap, ask :: at1) :: ar) (hx : ¬ bp < ap) :
    matchLoop (fuel + 1) b ts =
      matchLoop fuel (bookAfterFill b bp bid bt br ap ask at1 ar)
        (ts ++ [matchTrade bid ask]) := by
  rw [matchLoop]
  simp only [hb, ha, hx, if_false, fillFront_eq]

theorem matchLoop_exit_lt (fuel : Nat) (b : OrderBook) (ts : Trades) (bp : Price)
    (bq : List Order) (br : Ladder) (ap : Price) (aq : List Order) (ar : Ladder)
    (hb : b.bids_ = (bp, bq) :: br) (ha : b.asks_ = (ap, aq) :: ar) (hx : bp < ap) :
    matchLoop (fuel + 1) b ts = some (ts, b) := by
  rw [matchLoop]
  simp only [hb, ha, hx, if_true]

theorem matchLoop_exit_bids (fuel : Nat) (b : OrderBook) (ts : Trades)
    (hb : b.bids_ = []) : matchLoop (fuel + 1) b ts = some (ts, b) := by
  rw [matchLoop]
  simp only [hb]

theorem matchLoop_exit_asks (fuel : Nat) (b : OrderBook) (ts : Trades)
    (ha : b.asks_ = []) : matchLoop (fuel + 1) b ts = some (ts, b) := by
  rw [matchLoop]
  cases hb : b.bids_ with
  | nil => simp only [hb]
  | cons e t => simp only [hb, ha]

theorem uncrossed_of_front (b : OrderBook) (h : b.Consistent)
    (hx : ∀ e ∈ b.bids_.head?, ∀ f ∈ b.asks_.head?, e.1 < f.1) : b.Uncrossed := by
  intro x hxm y hym
  obtain ⟨hB, hA, _, _⟩ := h
  cases hb : b.bids_ with
  | nil => rw [hb] at hxm; simp at hxm
  | cons e t =>
    cases ha : b.asks_ with
    | nil => rw [ha] at hym; simp at hym
    | cons f u =>
      have hef : e.1 < f.1 := hx e (by simp [hb]) f (by simp [ha])
      rw [hb] at hxm hB
      rw [ha] at hym hA
      have h1 : x.1 ≤ e.1 := by
        rcases List.mem_cons.1 hxm with rfl | hm
        · exact le_refl _
        · exact le_of_lt (List.rel_of_pairwise_cons hB.1 hm)
      have h2 : f.1 ≤ y.1 := by
        rcases List.mem_cons.1 hym with rfl | hm
        · exact le_refl _
        · exact le_of_lt (List.rel_of_pairwise_cons hA.1 hm)
      exact lt_of_le_of_lt h1 (lt_of_lt_of_le hef h2)

/-- The matching loop on a consistent book: with more fuel than resting orders it
returns, and the book it returns is consistent and not crossed, its orders
being orders of the book it started from. -/
theorem matchLoop_ok : ∀ (fuel : Nat) (b : OrderBook) (ts : Trades), b.Consistent →
    b.resting.length < fuel →
    ∃ ts1 b1, matchLoop fuel b ts = some (ts1, b1) ∧ b1.Consistent ∧ b1.Uncrossed ∧
      LadderFrom b.bids_ b1.bids_ ∧ LadderFrom b.asks_ b1.asks_ := by
  intro fuel
  induction fuel with
  | zero => intro b ts _ h; exact absurd h (Nat.not_lt_zero _)
  | succ n ih =>
    intro b ts hc hlen
    cases hb : b.bids_ with
    | nil =>
      refine ⟨ts, b, matchLoop_exit_bids n b ts hb, hc, ?_, by rw [hb]; exact LadderFrom.same _,
        LadderFrom.same _⟩
      intro x hx; rw [hb] at hx; simp at hx
    | cons e br =>
      cases ha : b.asks_ with
      | nil =>
        refine ⟨ts, b, matchLoop_exit_asks n b ts ha, hc, ?_, by rw [hb]; exact LadderFrom.same _,
          by rw [ha]; exact LadderFrom.same _⟩
        intro x _ y hy; rw [ha] at hy; simp at hy
      | cons f ar =>
        obtain ⟨bp, bq⟩ := e
        obtain ⟨ap, aq⟩ := f
        by_cases hx : bp < ap
        · refine ⟨ts, b, matchLoop_exit_lt n b ts bp bq br ap aq ar hb ha hx, hc, ?_,
            by rw [hb]; exact LadderFrom.same _, by rw [ha]; exact LadderFrom.same _⟩
          apply uncrossed_of_front b hc
          intro e he f hf
          simp [hb] at he
          simp [ha] at hf
          subst he hf
          exact hx
        · have hbne := (hc.1.2 (bp, bq) (by rw [hb]; exact List.mem_cons_self _ _)).1
          have hane := (hc.2.1.2 (ap, aq) (by rw [ha]; exact List.mem_cons_self _ _)).1
          cases bq with
          | nil => exact absurd rfl hbne
          | cons bid bt =>
            cases aq with
            | nil => exact absurd rfl hane
            | cons ask at1 =>
              obtain ⟨hc1, hfb, hfa, hl⟩ :=
                bookAfterFill_consistent b bp bid bt br ap ask at1 ar hb ha hc
              obtain ⟨ts1, b1, hm, hc2, hu, hfb2, hfa2⟩ :=
                ih _ (ts ++ [matchTrade bid ask]) hc1 (by omega)
              refine ⟨ts1, b1, ?_, hc2, hu, by rw [← hb]; exact hfb.next hfb2,
                by rw [← ha]; exact hfa.next hfa2⟩
              rw [matchLoop_cross n b ts bp bid bt br ap ask at1 ar hb ha hx]
              exact hm

/-! ### Insertion, cleanup and the public operations -/

theorem gt_trans_price : ∀ a b c : Price, a > b → b > c → a > c :=
  fun _ _ _ h1 h2 => lt_trans h2 h1

theorem gt_total_price : ∀ a b : Price, a ≠ b → ¬ a > b → b > a :=
  fun _ _ h1 h2 => lt_of_le_of_ne (not_lt.1 h2) h1

theorem lt_trans_price : ∀ a b c : Price, a < b → b < c → a < c :=
  fun _ _ _ h1 h2 => lt_trans h1 h2

theorem lt_total_price : ∀ a b : Price, a ≠ b → ¬ a < b → b < a :=
  fun _ _ h1 h2 => lt_of_le_of_ne (not_lt.1 h2) (Ne.symm h1)

theorem insertOrder_resting (b : OrderBook) (o : Order) :
    ∃ X Y, b.resting = X ++ Y ∧ (insertOrder b o).resting = X ++ o :: Y := by
  unfold insertOrder OrderBook.resting
  by_cases hs : o.side_ = Side.Buy
  · obtain ⟨X, Y, h1, h2⟩ :=
      ladderPush_orders (fun p k => decide (p > k)) o.price_ o b.bids_
    exact ⟨X, Y ++ ladderOrders b.asks_, by simp [h1], by simp [hs, h2]⟩
  · obtain ⟨X, Y, h1, h2⟩ :=
      ladderPush_orders (fun p k => decide (p < k)) o.price_ o b.asks_
    exact ⟨ladderOrders b.bids_ ++ X, Y, by simp [h1], by simp [hs, h2]⟩

theorem insertOrder_consistent (b : OrderBook) (o : Order) (h : b.Consistent)
    (hfresh : containsOrder b.orders_ o.orderId_ = false) :
    (insertOrder b o).Consistent := by
  obtain ⟨X, Y, h1, h2⟩ := insertOrder_resting b o
  have hnot : ∀ x ∈ b.resting, x.orderId_ ≠ o.orderId_ := by
    intro x hx he
    have := (h.contains_iff o.orderId_).2 ⟨x, hx, he⟩
    rw [hfresh] at this
    cases this
  obtain ⟨hB, hA, hnd, hperm⟩ := h
  have hp : (insertOrder b o).resting.Perm (o :: b.resting) := by
    rw [h1, h2]; exact List.perm_middle
  refine ⟨?_, ?_, ?_, ?_⟩
  · unfold insertOrder
    by_cases hs : o.side_ = Side.Buy
    · simp only [hs, if_true]
      exact ladderPush_ok _ _ (by simp) gt_trans_price gt_total_price Side.Buy o hs _ hB
    · simp only [hs, if_false]
      exact hB
  · unfold insertOrder
    by_cases hs : o.side_ = Side.Buy
    · simp only [hs, if_true]
      exact hA
    · simp only [hs, if_false]
      have hs2 : o.side_ = Side.Sell := by
        cases hside : o.side_ with
        | Buy => exact absurd hside hs
        | Sell => rfl
      exact ladderPush_ok _ _ (by simp) lt_trans_price lt_total_price Side.Sell o hs2 _ hA
  · rw [List.Perm.nodup_iff (List.Perm.map _ hp), List.map_cons, List.nodup_cons]
    refine ⟨?_, hnd⟩
    intro hm
    obtain ⟨x, hx, he⟩ := List.mem_map.1 hm
    exact hnot x hx he
  · have e1 : (insertOrder b o).orders_ = b.orders_ ++ [(o.orderId_, o)] := rfl
    rw [e1]
    refine List.Perm.trans ?_ (List.Perm.map _ hp).symm
    rw [List.map_cons]
    refine List.Perm.trans (List.perm_append_comm) ?_
    simp only [List.singleton_append, indexEntry]
    exact List.Perm.cons _ hperm

theorem uncrossed_of_from {b b1 : OrderBook} (hu : b.Uncrossed)
    (hB : LadderFrom b.bids_ b1.bids_) (hA : LadderFrom b.asks_ b1.asks_) :
    b1.Uncrossed := by
  intro x hx y hy
  obtain ⟨x0, hx0, ex⟩ := hB.2 x hx
  obtain ⟨y0, hy0, ey⟩ := hA.2 y hy
  rw [← ex, ← ey]
  exact hu x0 hx0 y0 hy0

/-- The cleanup after the matching loop on a consistent book returns; it either
leaves the book as it is or cancels the head of the front level, whose type
is the one looked for. -/
theorem cancelFront_ok (b : OrderBook) (l : Ladder) (r : Price → Price → Prop)
    (side : Side) (hl : LadderOK r side l) (t : OrderType) (h : b.Consistent) :
    ∃ b1, cancelFront b l t = some b1 ∧ b1.Consistent ∧
      LadderFrom b.bids_ b1.bids_ ∧ LadderFrom b.asks_ b1.asks_ ∧
      ((b1 = b ∧ ∀ k o q rest, l = (k, o :: q) :: rest → o.orderType_ ≠ t) ∨
       (∃ k o q rest, l = (k, o :: q) :: rest ∧ o.orderType_ = t ∧
          CancelOrderInternal b o.orderId_ = some b1)) := by
  cases l with
  | nil =>
    exact ⟨b, rfl, h, LadderFrom.same _, LadderFrom.same _,
      Or.inl ⟨rfl, fun _ _ _ _ he => by cases he⟩⟩
  | cons e rest =>
    obtain ⟨k, q⟩ := e
    cases q with
    | nil => exact absurd rfl (hl.2 (k, []) (List.mem_cons_self _ _)).1
    | cons o q =>
      by_cases ht : o.orderType_ = t
      · obtain ⟨b1, h1, h2, h3, h4, _⟩ := cancel_ok b o.orderId_ h
        refine ⟨b1, ?_, h2, h3, h4, Or.inr ⟨k, o, q, rest, rfl, ht, h1⟩⟩
        simp [cancelFront, ht, CancelOrder, h1]
      · refine ⟨b, by simp [cancelFront, ht], h, LadderFrom.same _, LadderFrom.same _,
          Or.inl ⟨rfl, ?_⟩⟩
        intro k1 o1 q1 rest1 he
        simp only [List.cons.injEq, Prod.mk.injEq] at he
        obtain ⟨⟨_, ho, _⟩, _⟩ := he
        rw [← ho]; exact ht

theorem matchFuel_gt (b : OrderBook) : b.resting.length < matchFuel b := by
  unfold matchFuel OrderBook.resting
  rw [List.length_append]
  exact Nat.lt_succ_self _

/-- `MatchOrders` on a consistent book returns a consistent book that is not
crossed. -/
theorem MatchOrders_ok (b : OrderBook) (h : b.Consistent) :
    ∃ ts b1, MatchOrders b = some (ts, b1) ∧ b1.Consistent ∧ b1.Uncrossed ∧
      LadderFrom b.bids_ b1.bids_ ∧ LadderFrom b.asks_ b1.asks_ := by
  obtain ⟨ts, b1, h1, c1, u1, fb1, fa1⟩ := matchLoop_ok (matchFuel b) b [] h (matchFuel_gt b)
  obtain ⟨b2, h2, c2, fb2, fa2, _⟩ :=
    cancelFront_ok b1 b1.bids_ _ Side.Buy c1.1 OrderType.FillOrKill c1
  obtain ⟨b3, h3, c3, fb3, fa3, _⟩ :=
    cancelFront_ok b2 b2.asks_ _ Side.Sell c2.2.1 OrderType.FillAndKill c2
  refine ⟨ts, b3, ?_, c3, uncrossed_of_from (uncrossed_of_from u1 fb2 fa2) fb3 fa3,
    (fb1.next fb2).next fb3, (fa1.next fa2).next fa3⟩
  simp [MatchOrders, h1, h2, h3]

theorem marketRetag_cases (b : OrderBook) (o : Order) :
    (o.orderType_ = OrderType.Market ∧ b.opposite o.side_ = [] ∧
      marketRetag b o = Retag.rejected) ∨
    (o.orderType_ ≠ OrderType.Market ∧ marketRetag b o = Retag.goesOn o) ∨
    (o.orderType_ = OrderType.Market ∧
      ∃ e, (b.opposite o.side_).getLast? = some e ∧
        marketRetag b o =
          Retag.goesOn { o with price_ := e.1, orderType_ := OrderType.GoodTillCancel }) := by
  by_cases hm : o.orderType_ = OrderType.Market
  · by_cases he : b.opposite o.side_ = []
    · exact Or.inl ⟨hm, he, marketRetag_of_empty b o hm he⟩
    · right; right
      refine ⟨hm, ?_⟩
      cases hl : (b.opposite o.side_).getLast? with
      | none => rw [List.getLast?_eq_none_iff] at hl; exact absurd hl he
      | some e =>
        refine ⟨e, rfl, ?_⟩
        cases hs : o.side_ with
        | Buy =>
          simp only [OrderBook.opposite, hs, if_true] at hl he
          simp [marketRetag, hm, hs, he, hl, Order.ToGoodTillCancel]
        | Sell =>
          simp only [OrderBook.opposite, hs, reduceCtorEq, if_false] at hl he
          simp [marketRetag, hm, hs, he, hl, Order.ToGoodTillCancel]
  · exact Or.inr (Or.inl ⟨hm, marketRetag_of_not_market b o hm⟩)

/-- What the market branch changes in an order: the type and the price of a
market order, nothing of any other order. -/
theorem marketRetag_goesOn (b : OrderBook) (o o1 : Order)
    (h : marketRetag b o = Retag.goesOn o1) :
    o1.orderId_ = o.orderId_ ∧ o1.side_ = o.side_ ∧
    o1.initialQuantity = o.initialQuantity ∧ o1.remainingQuantity = o.remainingQuantity ∧
    o1.orderType_ ≠ OrderType.Market ∧
    (o.orderType_ ≠ OrderType.Market → o1 = o) ∧
    (o.orderType_ = OrderType.Market → o1.orderType_ = OrderType.GoodTillCancel ∧
      ∃ e, (b.opposite o.side_).getLast? = some e ∧ o1.price_ = e.1) := by
  rcases marketRetag_cases b o with ⟨_, _, h1⟩ | ⟨hm, h1⟩ | ⟨hm, e, he, h1⟩
  · rw [h1] at h; cases h
  · rw [h1] at h
    cases h
    exact ⟨rfl, rfl, rfl, rfl, hm, fun _ => rfl, fun h2 => absurd h2 hm⟩
  · rw [h1] at h
    cases h
    exact ⟨rfl, rfl, rfl, rfl, by simp, fun h2 => absurd hm h2, fun _ => ⟨rfl, e, he, rfl⟩⟩

/-- `AddOrder` either turns the order away, leaving the book as it is, or admits
it, inserts it and runs the matcher. -/
theorem AddOrder_cases (b : OrderBook) (o : Order) :
    (AddOrder b o = some ([], b) ∧ ∀ o1, ¬ b.Admits o o1) ∨
    (∃ o1, b.Admits o o1 ∧ AddOrder b o = MatchOrders (insertOrder b o1)) := by
  by_cases hc : containsOrder b.orders_ o.orderId_ = true
  · left
    refine ⟨addOrder_of_contains b o hc, ?_⟩
    rintro o1 ⟨h1, _⟩
    rw [hc] at h1; cases h1
  · have hc2 : containsOrder b.orders_ o.orderId_ = false := by simpa using hc
    have key : ∀ o1, marketRetag b o = Retag.goesOn o1 →
        (AddOrder b o = some ([], b) ∧ ∀ o2, ¬ b.Admits o o2) ∨
        (∃ o2, b.Admits o o2 ∧ AddOrder b o = MatchOrders (insertOrder b o2)) := by
      intro o1 hr
      by_cases h1 : o1.orderType_ = OrderType.FillAndKill ∧
          CanMatch b o1.side_ o1.price_ = false
      · left
        refine ⟨by simp [AddOrder, hc2, hr, h1.1, h1.2], ?_⟩
        rintro o2 ⟨_, h2, h3, _⟩
        rw [hr] at h2
        cases h2
        have := h3 h1.1
        rw [h1.2] at this; cases this
      · by_cases h2 : o1.orderType_ = OrderType.FillOrKill ∧
            CanFullyFill b o1.side_ o1.price_ o1.initialQuantity = false
        · left
          refine ⟨by simp [AddOrder, hc2, hr, h2.1, h2.2], ?_⟩
          rintro o2 ⟨_, h3, _, h4⟩
          rw [hr] at h3
          cases h3
          have := h4 h2.1
          rw [h2.2] at this; cases this
        · right
          refine ⟨o1, ⟨hc2, hr, ?_, ?_⟩, ?_⟩
          · intro ht
            by_contra hcm
            exact h1 ⟨ht, by simpa using hcm⟩
          · intro ht
            by_contra hcm
            exact h2 ⟨ht, by simpa using hcm⟩
          · have h1b : ¬ (o1.orderType_ = OrderType.FillAndKill ∧
                (!CanMatch b o1.side_ o1.price_) = true) := by
              rintro ⟨ha, hb⟩; exact h1 ⟨ha, by simpa using hb⟩
            have h2b : ¬ (o1.orderType_ = OrderType.FillOrKill ∧
                (!CanFullyFill b o1.side_ o1.price_ o1.initialQuantity) = true) := by
              rintro ⟨ha, hb⟩; exact h2 ⟨ha, by simpa using hb⟩
            simp only [AddOrder, hc2, hr, Bool.false_eq_true, if_false, h1b, h2b]
    rcases marketRetag_cases b o with ⟨_, _, h1⟩ | ⟨_, h1⟩ | ⟨_, e, _, h1⟩
    · left
      refine ⟨by simp [AddOrder, hc2, h1], ?_⟩
      rintro o1 ⟨_, h2, _⟩
      rw [h1] at h2; cases h2
    · exact key _ h1
    · exact key _ h1

/-- `AddOrder` on a consistent book that is not crossed returns such a book. -/
theorem AddOrder_ok (b : OrderBook) (o : Order) (h : b.Consistent) (hu : b.Uncrossed) :
    ∃ ts b1, AddOrder b o = some (ts, b1) ∧ b1.Consistent ∧ b1.Uncrossed := by
  rcases AddOrder_cases b o with ⟨h1, _⟩ | ⟨o1, ha, h1⟩
  · exact ⟨[], b, h1, h, hu⟩
  · have hid := (marketRetag_goesOn b o o1 ha.2.1).1
    obtain ⟨ts, b1, h2, c1, u1, _, _⟩ :=
      MatchOrders_ok _ (insertOrder_consistent b o1 h (by rw [hid]; exact ha.1))
    exact ⟨ts, b1, by rw [h1]; exact h2, c1, u1⟩

theorem CancelOrder_ok (b : OrderBook) (orderId : OrderId) (h : b.Consistent)
    (hu : b.Uncrossed) :
    ∃ b1, CancelOrder b orderId = some b1 ∧ b1.Consistent ∧ b1.Uncrossed := by
  obtain ⟨b1, h1, c1, fb, fa, _⟩ := cancel_ok b orderId h
  exact ⟨b1, h1, c1, uncrossed_of_from hu fb fa⟩

theorem CancelOrders_ok : ∀ (orderIds : List OrderId) (b : OrderBook), b.Consistent →
    b.Uncrossed → ∃ b1, CancelOrders b orderIds = some b1 ∧ b1.Consistent ∧ b1.Uncrossed := by
  intro orderIds
  induction orderIds with
  | nil => intro b h hu; exact ⟨b, rfl, h, hu⟩
  | cons i t ih =>
    intro b h hu
    obtain ⟨b1, h1, c1, u1⟩ := CancelOrder_ok b i h hu
    obtain ⟨b2, h2, c2, u2⟩ := ih b1 c1 u1
    refine ⟨b2, ?_, c2, u2⟩
    have h1b : CancelOrderInternal b i = some b1 := h1
    simp [CancelOrders, h1b, h2]

theorem ModifyOrder_ok (b : OrderBook) (m : OrderModify) (h : b.Consistent)
    (hu : b.Uncrossed) :
    ∃ ts b1, ModifyOrder b m = some (ts, b1) ∧ b1.Consistent ∧ b1.Uncrossed := by
  by_cases hc : containsOrder b.orders_ m.orderId_ = true
  · obtain ⟨o, hmem⟩ := (containsOrder_iff _ _).1 hc
    have hfind := findOrder_of_mem _ _ _ h.keys_nodup hmem
    obtain ⟨b1, h1, c1, u1⟩ := CancelOrder_ok b m.orderId_ h hu
    obtain ⟨ts, b2, h2, c2, u2⟩ := AddOrder_ok b1 (m.ToOrderPointer o.orderType_) c1 u1
    exact ⟨ts, b2, by simp [ModifyOrder, hc, hfind, h1, h2], c2, u2⟩
  · have hc2 : containsOrder b.orders_ m.orderId_ = false := by simpa using hc
    exact ⟨[], b, by simp [ModifyOrder, hc2], h, hu⟩

theorem empty_consistent : OrderBook.empty.Consistent := by
  refine ⟨LadderOK.nil _ _, LadderOK.nil _ _, ?_, ?_⟩
  · simp [OrderBook.empty, OrderBook.resting]
  · simp [OrderBook.empty, OrderBook.resting]

theorem empty_uncrossed : OrderBook.empty.Uncrossed := by
  intro x hx
  simp [OrderBook.empty] at hx

/-- Every reachable book is consistent and not crossed. -/
theorem reachableBy_consistent (P : Order → Prop) (b : OrderBook) (h : ReachableBy P b) :
    b.Consistent ∧ b.Uncrossed := by
  induction h with
  | empty => exact ⟨empty_consistent, empty_uncrossed⟩
  | add b o ts b1 _ _ hadd ih =>
    obtain ⟨ts2, b2, h2, c2, u2⟩ := AddOrder_ok b o ih.1 ih.2
    rw [hadd] at h2
    cases h2
    exact ⟨c2, u2⟩
  | cancel b i b1 _ hcan ih =>
    obtain ⟨b2, h2, c2, u2⟩ := CancelOrder_ok b i ih.1 ih.2
    rw [hcan] at h2
    cases h2
    exact ⟨c2, u2⟩
  | cancelMany b is b1 _ hcan ih =>
    obtain ⟨b2, h2, c2, u2⟩ := CancelOrders_ok is b ih.1 ih.2
    rw [hcan] at h2
    cases h2
    exact ⟨c2, u2⟩
  | modify b m ts b1 _ hmod ih =>
    obtain ⟨ts2, b2, h2, c2, u2⟩ := ModifyOrder_ok b m ih.1 ih.2
    rw [hmod] at h2
    cases h2
    exact ⟨c2, u2⟩

theorem reachableBy_mono (P Q : Order → Prop) (hPQ : ∀ o, P o → Q o) (b : OrderBook)
    (h : ReachableBy P b) : ReachableBy Q b := by
  induction h with
  | empty => exact ReachableBy.empty
  | add b o ts b1 _ hp hadd ih => exact ReachableBy.add b o ts b1 ih (hPQ o hp) hadd
  | cancel b i b1 _ hcan ih => exact ReachableBy.cancel b i b1 ih hcan
  | cancelMany b is b1 _ hcan ih => exact ReachableBy.cancelMany b is b1 ih hcan
  | modify b m ts b1 _ hmod ih => exact ReachableBy.modify b m ts b1 ih hmod

theorem Reachable.any {b : OrderBook} (h : Reachable b) : ReachableAny b :=
  reachableBy_mono _ _ (fun _ _ => trivial) b h

theorem bookOneAsk_reachable : Reachable bookOneAsk :=
  ReachableBy.add OrderBook.empty (gtc 1 Side.Sell 100 3) [] bookOneAsk ReachableBy.empty
    (by decide) (by decide)

/-! ### The book is never crossed -/

/-- C1: on every book reachable from the empty book, `AddOrder` of any order
returns, and the book it returns is not crossed: every bid level is priced
strictly below every ask level, the levels of each ladder being in price order
with the best one in front.  This covers the rejected order (the book is
unchanged), the resting order and the matched order after the cleanup that
follows the matching loop. -/
theorem add_order_not_crossed (b : OrderBook) (o : Order) (h : ReachableAny b) :
    ∃ ts b1, AddOrder b o = some (ts, b1) ∧ b1.Sorted ∧
      (∀ x ∈ b1.bids_, ∀ y ∈ b1.asks_, x.1 < y.1) ∧
      (∀ x ∈ b1.bids_.head?, ∀ y ∈ b1.asks_.head?, x.1 < y.1) := by
  obtain ⟨hc, hu⟩ := reachableBy_consistent _ b h
  obtain ⟨ts, b1, h1, c1, u1⟩ := AddOrder_ok b o hc hu
  refine ⟨ts, b1, h1, ⟨c1.1.1, c1.2.1.1⟩, u1, ?_⟩
  intro x hx y hy
  exact u1 x (List.mem_of_mem_head? hx) y (List.mem_of_mem_head? hy)

/-- C1 on the book with one resting sell of 3 at 100: a buy of 5 at 100 is
matched and leaves a book that is not crossed. -/
theorem add_order_not_crossed_witness :
    ∃ ts b1, AddOrder bookOneAsk (gtc 2 Side.Buy 100 5) = some (ts, b1) ∧ b1.Sorted ∧
      (∀ x ∈ b1.bids_, ∀ y ∈ b1.asks_, x.1 < y.1) ∧
      (∀ x ∈ b1.bids_.head?, ∀ y ∈ b1.asks_.head?, x.1 < y.1) :=
  add_order_not_crossed bookOneAsk (gtc 2 Side.Buy 100 5) bookOneAsk_reachable.any

/-! ### Index consistency -/

theorem isFilled_filledBid (bid ask : Order) :
    (filledBid bid ask).IsFilled = decide (bid.remainingQuantity ≤ ask.remainingQuantity) := by
  simp only [Order.IsFilled, filledBid, matchQuantity]
  rcases le_total bid.remainingQuantity ask.remainingQuantity with h | h
  · rw [min_eq_left h]; simp [h]
  · rw [min_eq_right h]
    by_cases h2 : bid.remainingQuantity ≤ ask.remainingQuantity
    · have := le_antisymm h h2
      simp [this]
    · simp only [h2, decide_False, beq_eq_false_iff_ne, ne_eq]
      unfold Quantity at *
      omega

theorem isFilled_filledAsk (bid ask : Order) :
    (filledAsk bid ask).IsFilled = decide (ask.remainingQuantity ≤ bid.remainingQuantity) := by
  simp only [Order.IsFilled, filledAsk, matchQuantity]
  rcases le_total bid.remainingQuantity ask.remainingQuantity with h | h
  · rw [min_eq_left h]
    by_cases h2 : ask.remainingQuantity ≤ bid.remainingQuantity
    · have := le_antisymm h h2
      simp [this]
    · simp only [h2, decide_False, beq_eq_false_iff_ne, ne_eq]
      unfold Quantity at *
      omega
  · rw [min_eq_right h]; simp [h]

theorem tradedQuantity_nil : tradedQuantity [] = 0 := rfl

theorem tradedQuantity_cons (t : Trade) (ts : Trades) :
    tradedQuantity (t :: ts) = t.bidTrade_.quantity_ + tradedQuantity ts := by
  simp [tradedQuantity]

theorem available_nil (ok : Price → Bool) : available ok [] = 0 := rfl

theorem available_cons (ok : Price → Bool) (o : Order) (os : List Order) :
    available ok (o :: os) =
      (if ok o.price_ then o.remainingQuantity else 0) + available ok os := by
  unfold available
  by_cases h : ok o.price_ = true
  · simp [List.filter_cons, h]
  · simp [List.filter_cons, h]

theorem available_zero (ok : Price → Bool) (os : List Order)
    (h : ∀ o ∈ os, ok o.price_ = false) : available ok os = 0 := by
  induction os with
  | nil => rfl
  | cons o t ih =>
    rw [available_cons, h o (List.mem_cons_self _ _),
      ih (fun x hx => h x (List.mem_cons_of_mem _ hx))]
    simp

theorem frontAfterFill_filled_nil (k : Price) (o1 : Order) (rest : Ladder)
    (h : o1.IsFilled = true) : frontAfterFill k o1 [] rest = rest := by
  simp [frontAfterFill, h]

theorem frontAfterFill_not_filled (k : Price) (o1 : Order) (t : List Order) (rest : Ladder)
    (h : o1.IsFilled = false) : frontAfterFill k o1 t rest = (k, o1 :: t) :: rest := by
  simp [frontAfterFill, h]

/-- A buy order alone on the front bid level sweeps the asks in priority order
until it is filled or no ask is left at or below its price. -/
theorem sweep_buy (P : Price) (B : Ladder) :
    ∀ (fuel : Nat) (b : OrderBook) (ts : Trades) (x : Order),
      b.bids_ = (P, [x]) :: B → x.price_ = P →
      LadderOK (fun p k => p < k) Side.Sell b.asks_ →
      (∀ e ∈ B, ∀ y ∈ b.asks_, e.1 < y.1) →
      (ladderOrders b.asks_).length < fuel →
      ∃ tn b1, matchLoop fuel b ts = some (ts ++ tn, b1) ∧
        SweptBuy P B x b.asks_ tn b1 := by
  intro fuel
  induction fuel with
  | zero => intro b ts x _ _ _ _ h; exact absurd h (Nat.not_lt_zero _)
  | succ n ih =>
    intro b ts x hb hxp hA hBA hlen
    have hx0 : ({ x with remainingQuantity := x.remainingQuantity } : Order) = x := rfl
    cases ha : b.asks_ with
    | nil =>
      refine ⟨[], b, by rw [matchLoop_exit_asks n b ts ha]; simp, ?_, ?_, ?_, ?_, ?_⟩
      · intro t ht; simp at ht
      · simp [legsFollow]
      · simp [tradedQuantity_nil]
      · intro e he; simp at he
      · right
        refine ⟨x, hb, Order.Tracks.self x, by simp [tradedQuantity_nil], by simp, ?_, ?_,
          by rw [ha]; simp⟩
        · intro y hy; rw [ha] at hy; simp at hy
        · simp [tradedQuantity_nil, available_nil]
    | cons f ar =>
      obtain ⟨ap, aq⟩ := f
      rw [ha] at hA hBA hlen
      by_cases hx : P < ap
      · refine ⟨[], b, by rw [matchLoop_exit_lt n b ts P [x] B ap aq ar hb ha hx]; simp,
          ?_, ?_, ?_, ?_, ?_⟩
        · intro t ht; simp at ht
        · simp [legsFollow]
        · simp [tradedQuantity_nil]
        · intro e he hle
          simp at he
          subst he
          exact absurd hx (not_lt.2 hle)
        · right
          have hall : ∀ y ∈ (ap, aq) :: ar, P < y.1 := by
            intro y hy
            rcases List.mem_cons.1 hy with rfl | hy
            · exact hx
            · exact lt_trans hx (List.rel_of_pairwise_cons hA.1 hy)
          refine ⟨x, hb, Order.Tracks.self x, by simp [tradedQuantity_nil], by simp, ?_, ?_,
          by rw [ha]; simp⟩
          · rw [ha]; exact hall
          · rw [tradedQuantity_nil, available_zero]
            intro o ho
            obtain ⟨_, e, he, hep, _⟩ := hA.price_of_mem ho
            have := hall e he
            rw [hep] at this
            simpa using this
      · have hle : ap ≤ P := not_lt.1 hx
        have hlev := hA.2 (ap, aq) (List.mem_cons_self _ _)
        cases aq with
        | nil => exact absurd rfl hlev.1
        | cons ask at1 =>
          have hask := hlev.2 ask (List.mem_cons_self _ _)
          simp only at hask
          rw [matchLoop_cross n b ts P x [] B ap ask at1 ar hb ha hx]
          set b2 := bookAfterFill b P x [] B ap ask at1 ar with hb2
          have hb2a : b2.asks_ = frontAfterFill ap (filledAsk x ask) at1 ar := rfl
          have hb2b : b2.bids_ = frontAfterFill P (filledBid x ask) [] B := rfl
          have hA2 : LadderOK (fun p k => p < k) Side.Sell b2.asks_ := by
            rw [hb2a]; exact frontAfterFill_ok hA (filledAsk_tracks x ask)
          have hfrom := frontAfterFill_from ap ask (filledAsk x ask) at1 ar
            (filledAsk_tracks x ask)
          have hBA2 : ∀ e ∈ B, ∀ y ∈ b2.asks_, e.1 < y.1 := by
            intro e he y hy
            rw [hb2a] at hy
            obtain ⟨y0, hy0, hk⟩ := hfrom.2 y hy
            rw [← hk]
            exact hBA e he y0 hy0
          have htq : (matchTrade x ask).bidTrade_.quantity_ = matchQuantity x ask := rfl
          have htrade : (matchTrade x ask).bidTrade_.orderId_ = x.orderId_ ∧
              (matchTrade x ask).bidTrade_.price_ = x.price_ ∧
              (matchTrade x ask).askTrade_.quantity_ = (matchTrade x ask).bidTrade_.quantity_ ∧
              (matchTrade x ask).askTrade_.price_ ≤ P := by
            refine ⟨rfl, rfl, rfl, ?_⟩
            show ask.price_ ≤ P
            rw [hask.2]; exact hle
          by_cases hq : x.remainingQuantity ≤ ask.remainingQuantity
          · -- the incoming order is filled by this round
            have hfb : (filledBid x ask).IsFilled = true := by
              rw [isFilled_filledBid]; simpa using hq
            have hbids2 : b2.bids_ = B := by
              rw [hb2b]; exact frontAfterFill_filled_nil _ _ _ hfb
            have hmq : matchQuantity x ask = x.remainingQuantity := min_eq_left hq
            have hn : 0 < n := by
              simp only [ladderOrders_cons, List.length_append, List.length_cons] at hlen
              omega
            obtain ⟨m, rfl⟩ : ∃ m, n = m + 1 := ⟨n - 1, by omega⟩
            have hexit : matchLoop (m + 1) b2 (ts ++ [matchTrade x ask]) =
                some (ts ++ [matchTrade x ask], b2) := by
              cases hB : B with
              | nil => exact matchLoop_exit_bids m b2 _ (by rw [hbids2, hB])
              | cons e B1 =>
                cases ha2 : b2.asks_ with
                | nil => exact matchLoop_exit_asks m b2 _ ha2
                | cons g ar2 =>
                  obtain ⟨ep, eq1⟩ := e
                  obtain ⟨gp, gq⟩ := g
                  refine matchLoop_exit_lt m b2 _ ep eq1 B1 gp gq ar2
                    (by rw [hbids2, hB]) ha2 ?_
                  exact hBA2 (ep, eq1) (by rw [hB]; exact List.mem_cons_self _ _) (gp, gq)
                    (by rw [ha2]; exact List.mem_cons_self _ _)
            refine ⟨[matchTrade x ask], b2, by rw [hexit], ?_, ?_, ?_, ?_, ?_⟩
            · intro t ht
              simp only [List.mem_singleton] at ht
              subst ht
              exact htrade
            · simp only [List.map_cons, List.map_nil, ladderOrders_cons, List.cons_append,
                legsFollow]
              refine ⟨rfl, rfl, ?_, by simp, trivial⟩
              show matchQuantity x ask ≤ ask.remainingQuantity
              exact min_le_right _ _
            · rw [tradedQuantity_cons, tradedQuantity_nil, htq, hmq]; simp
            · intro _ _ _; simp
            · left
              refine ⟨hbids2, ?_, by simp⟩
              rw [tradedQuantity_cons, tradedQuantity_nil, htq, hmq]; simp
          · -- the ask is filled and the incoming order goes on
            have hq2 : ask.remainingQuantity < x.remainingQuantity := not_le.1 hq
            have hfb : (filledBid x ask).IsFilled = false := by
              rw [isFilled_filledBid]; simpa using hq
            have hfa : (filledAsk x ask).IsFilled = true := by
              rw [isFilled_filledAsk]; simpa using le_of_lt hq2
            have hmq : matchQuantity x ask = ask.remainingQuantity :=
              min_eq_right (le_of_lt hq2)
            have hbids2 : b2.bids_ = (P, [filledBid x ask]) :: B := by
              rw [hb2b]; exact frontAfterFill_not_filled _ _ _ _ hfb
            have hlo2 : ladderOrders b2.asks_ = at1 ++ ladderOrders ar := by
              rw [hb2a, ladderOrders_frontAfterFill]; simp [hfa]
            have hlen2 : (ladderOrders b2.asks_).length < n := by
              rw [hlo2]
              simp only [ladderOrders_cons, List.length_append, List.length_cons] at hlen ⊢
              omega
            obtain ⟨tn, b1, hm, h1, h2, h3, h4, h5⟩ :=
              ih b2 (ts ++ [matchTrade x ask]) (filledBid x ask) hbids2 hxp hA2 hBA2 hlen2
            have hrem : (filledBid x ask).remainingQuantity =
                x.remainingQuantity - ask.remainingQuantity := by
              show x.remainingQuantity - matchQuantity x ask = _
              rw [hmq]
            refine ⟨matchTrade x ask :: tn, b1, by rw [hm]; simp, ?_, ?_, ?_, ?_, ?_⟩
            · intro t ht
              rcases List.mem_cons.1 ht with rfl | ht
              · exact htrade
              · exact h1 t ht
            · simp only [List.map_cons, ladderOrders_cons, List.cons_append, legsFollow]
              refine ⟨rfl, rfl, ?_, ?_, ?_⟩
              · show matchQuantity x ask ≤ ask.remainingQuantity
                exact min_le_right _ _
              · intro _; exact hmq
              · rw [hlo2] at h2; exact h2
            · rw [tradedQuantity_cons, htq, hmq]
              rw [hrem] at h3
              unfold Quantity at *
              omega
            · intro _ _ _; simp
            · rcases h5 with ⟨h5a, h5b, _⟩ | ⟨x1, h5a, h5b, h5c, h5d, h5e, h5f, h5g⟩
              · left
                refine ⟨h5a, ?_, by simp⟩
                rw [tradedQuantity_cons, htq, hmq, h5b, hrem]
                unfold Quantity at *
                omega
              · right
                refine ⟨x1, h5a, h5b.chain (filledBid_tracks x ask), ?_, ?_, h5e, ?_, ?_⟩
                · rw [h5c, tradedQuantity_cons, htq, hmq, hrem]
                  unfold Quantity at *
                  omega
                · intro _
                  rw [tradedQuantity_cons, htq, hmq]
                  by_cases htn : tn = []
                  · subst htn
                    rw [tradedQuantity_nil]
                    simpa using hq2
                  · have := h5d htn
                    rw [hrem] at this
                    unfold Quantity at *
                    omega
                · rw [tradedQuantity_cons, htq, hmq, h5f, hlo2, ladderOrders_cons,
                    List.cons_append, available_cons]
                  have : decide (ask.price_ ≤ P) = true := by
                    rw [hask.2]; simpa using hle
                  simp [this]
                · rw [h5g, hlo2]
                  simp


/-- A sell order alone on the front ask level sweeps the bids in priority order
until it is filled or no bid is left at or above its price. -/
theorem sweep_sell (P : Price) (A : Ladder) :
    ∀ (fuel : Nat) (b : OrderBook) (ts : Trades) (x : Order),
      b.asks_ = (P, [x]) :: A → x.price_ = P →
      LadderOK (fun p k => p > k) Side.Buy b.bids_ →
      (∀ e ∈ A, ∀ y ∈ b.bids_, y.1 < e.1) →
      (ladderOrders b.bids_).length < fuel →
      ∃ tn b1, matchLoop fuel b ts = some (ts ++ tn, b1) ∧
        SweptSell P A x b.bids_ tn b1 := by
  intro fuel
  induction fuel with
  | zero => intro b ts x _ _ _ _ h; exact absurd h (Nat.not_lt_zero _)
  | succ n ih =>
    intro b ts x ha hxp hB hAB hlen
    cases hb : b.bids_ with
    | nil =>
      refine ⟨[], b, by rw [matchLoop_exit_bids n b ts hb]; simp, ?_, ?_, ?_, ?_, ?_⟩
      · intro t ht; simp at ht
      · simp [legsFollow]
      · simp [tradedQuantity_nil]
      · intro e he; simp at he
      · right
        refine ⟨x, ha, Order.Tracks.self x, by simp [tradedQuantity_nil], by simp, ?_, ?_,
          by rw [hb]; simp⟩
        · intro y hy; rw [hb] at hy; simp at hy
        · simp [tradedQuantity_nil, available_nil]
    | cons f br =>
      obtain ⟨bp, bq⟩ := f
      rw [hb] at hB hAB hlen
      by_cases hx : bp < P
      · refine ⟨[], b, by rw [matchLoop_exit_lt n b ts bp bq br P [x] A hb ha hx]; simp,
          ?_, ?_, ?_, ?_, ?_⟩
        · intro t ht; simp at ht
        · simp [legsFollow]
        · simp [tradedQuantity_nil]
        · intro e he hle
          simp at he
          subst he
          exact absurd hx (not_lt.2 hle)
        · right
          have hall : ∀ y ∈ (bp, bq) :: br, y.1 < P := by
            intro y hy
            rcases List.mem_cons.1 hy with rfl | hy
            · exact hx
            · exact lt_trans (List.rel_of_pairwise_cons hB.1 hy) hx
          refine ⟨x, ha, Order.Tracks.self x, by simp [tradedQuantity_nil], by simp, ?_, ?_,
          by rw [hb]; simp⟩
          · rw [hb]; exact hall
          · rw [tradedQuantity_nil, available_zero]
            intro o ho
            obtain ⟨_, e, he, hep, _⟩ := hB.price_of_mem ho
            have := hall e he
            rw [hep] at this
            simpa using this
      · have hle : P ≤ bp := not_lt.1 hx
        have hlev := hB.2 (bp, bq) (List.mem_cons_self _ _)
        cases bq with
        | nil => exact absurd rfl hlev.1
        | cons bid bt =>
          have hbid := hlev.2 bid (List.mem_cons_self _ _)
          simp only at hbid
          rw [matchLoop_cross n b ts bp bid bt br P x [] A hb ha hx]
          set b2 := bookAfterFill b bp bid bt br P x [] A with hb2
          have hb2b : b2.bids_ = frontAfterFill bp (filledBid bid x) bt br := rfl
          have hb2a : b2.asks_ = frontAfterFill P (filledAsk bid x) [] A := rfl
          have hB2 : LadderOK (fun p k => p > k) Side.Buy b2.bids_ := by
            rw [hb2b]; exact frontAfterFill_ok hB (filledBid_tracks bid x)
          have hfrom := frontAfterFill_from bp bid (filledBid bid x) bt br
            (filledBid_tracks bid x)
          have hAB2 : ∀ e ∈ A, ∀ y ∈ b2.bids_, y.1 < e.1 := by
            intro e he y hy
            rw [hb2b] at hy
            obtain ⟨y0, hy0, hk⟩ := hfrom.2 y hy
            rw [← hk]
            exact hAB e he y0 hy0
          have htq : (matchTrade bid x).bidTrade_.quantity_ = matchQuantity bid x := rfl
          have htrade : (matchTrade bid x).askTrade_.orderId_ = x.orderId_ ∧
              (matchTrade bid x).askTrade_.price_ = x.price_ ∧
              (matchTrade bid x).askTrade_.quantity_ = (matchTrade bid x).bidTrade_.quantity_ ∧
              P ≤ (matchTrade bid x).bidTrade_.price_ := by
            refine ⟨rfl, rfl, rfl, ?_⟩
            show P ≤ bid.price_
            rw [hbid.2]; exact hle
          by_cases hq : x.remainingQuantity ≤ bid.remainingQuantity
          · -- the incoming order is filled by this round
            have hfa : (filledAsk bid x).IsFilled = true := by
              rw [isFilled_filledAsk]; simpa using hq
            have hasks2 : b2.asks_ = A := by
              rw [hb2a]; exact frontAfterFill_filled_nil _ _ _ hfa
            have hmq : matchQuantity bid x = x.remainingQuantity := min_eq_right hq
            have hn : 0 < n := by
              simp only [ladderOrders_cons, List.length_append, List.length_cons] at hlen
              omega
            obtain ⟨m, rfl⟩ : ∃ m, n = m + 1 := ⟨n - 1, by omega⟩
            have hexit : matchLoop (m + 1) b2 (ts ++ [matchTrade bid x]) =
                some (ts ++ [matchTrade bid x], b2) := by
              cases hA : A with
              | nil => exact matchLoop_exit_asks m b2 _ (by rw [hasks2, hA])
              | cons e A1 =>
                cases hb3 : b2.bids_ with
                | nil => exact matchLoop_exit_bids m b2 _ hb3
                | cons g br2 =>
                  obtain ⟨ep, eq1⟩ := e
                  obtain ⟨gp, gq⟩ := g
                  refine matchLoop_exit_lt m b2 _ gp gq br2 ep eq1 A1 hb3
                    (by rw [hasks2, hA]) ?_
                  exact hAB2 (ep, eq1) (by rw [hA]; exact List.mem_cons_self _ _) (gp, gq)
                    (by rw [hb3]; exact List.mem_cons_self _ _)
            refine ⟨[matchTrade bid x], b2, by rw [hexit], ?_, ?_, ?_, ?_, ?_⟩
            · intro t ht
              simp only [List.mem_singleton] at ht
              subst ht
              exact htrade
            · simp only [List.map_cons, List.map_nil, ladderOrders_cons, List.cons_append,
                legsFollow]
              refine ⟨rfl, rfl, ?_, by simp, trivial⟩
              show matchQuantity bid x ≤ bid.remainingQuantity
              exact min_le_left _ _
            · rw [tradedQuantity_cons, tradedQuantity_nil, htq, hmq]; simp
            · intro _ _ _; simp
            · left
              refine ⟨hasks2, ?_, by simp⟩
              rw [tradedQuantity_cons, tradedQuantity_nil, htq, hmq]; simp
          · -- the bid is filled and the incoming order goes on
            have hq2 : bid.remainingQuantity < x.remainingQuantity := not_le.1 hq
            have hfa : (filledAsk bid x).IsFilled = false := by
              rw [isFilled_filledAsk]; simpa using hq
            have hfb : (filledBid bid x).IsFilled = true := by
              rw [isFilled_filledBid]; simpa using le_of_lt hq2
            have hmq : matchQuantity bid x = bid.remainingQuantity :=
              min_eq_left (le_of_lt hq2)
            have hasks2 : b2.asks_ = (P, [filledAsk bid x]) :: A := by
              rw [hb2a]; exact frontAfterFill_not_filled _ _ _ _ hfa
            have hlo2 : ladderOrders b2.bids_ = bt ++ ladderOrders br := by
              rw [hb2b, ladderOrders_frontAfterFill]; simp [hfb]
            have hlen2 : (ladderOrders b2.bids_).length < n := by
              rw [hlo2]
              simp only [ladderOrders_cons, List.length_append, List.length_cons] at hlen ⊢
              omega
            obtain ⟨tn, b1, hm, h1, h2, h3, h4, h5⟩ :=
              ih b2 (ts ++ [matchTrade bid x]) (filledAsk bid x) hasks2 hxp hB2 hAB2 hlen2
            have hrem : (filledAsk bid x).remainingQuantity =
                x.remainingQuantity - bid.remainingQuantity := by
              show x.remainingQuantity - matchQuantity bid x = _
              rw [hmq]
            refine ⟨matchTrade bid x :: tn, b1, by rw [hm]; simp, ?_, ?_, ?_, ?_, ?_⟩
            · intro t ht
              rcases List.mem_cons.1 ht with rfl | ht
              · exact htrade
              · exact h1 t ht
            · simp only [List.map_cons, ladderOrders_cons, List.cons_append, legsFollow]
              refine ⟨rfl, rfl, ?_, ?_, ?_⟩
              · show matchQuantity bid x ≤ bid.remainingQuantity
                exact min_le_left _ _
              · intro _; exact hmq
              · rw [hlo2] at h2; exact h2
            · rw [tradedQuantity_cons, htq, hmq]
              rw [hrem] at h3
              unfold Quantity at *
              omega
            · intro _ _ _; simp
            · rcases h5 with ⟨h5a, h5b, _⟩ | ⟨x1, h5a, h5b, h5c, h5d, h5e, h5f, h5g⟩
              · left
                refine ⟨h5a, ?_, by simp⟩
                rw [tradedQuantity_cons, htq, hmq, h5b, hrem]
                unfold Quantity at *
                omega
              · right
                refine ⟨x1, h5a, h5b.chain (filledAsk_tracks bid x), ?_, ?_, h5e, ?_, ?_⟩
                · rw [h5c, tradedQuantity_cons, htq, hmq, hrem]
                  unfold Quantity at *
                  omega
                · intro _
                  rw [tradedQuantity_cons, htq, hmq]
                  by_cases htn : tn = []
                  · subst htn
                    rw [tradedQuantity_nil]
                    simpa using hq2
                  · have := h5d htn
                    rw [hrem] at this
                    unfold Quantity at *
                    omega
                · rw [tradedQuantity_cons, htq, hmq, h5f, hlo2, ladderOrders_cons,
                    List.cons_append, available_cons]
                  have : decide (P ≤ bid.price_) = true := by
                    rw [hbid.2]; simpa using hle
                  simp [this]
                · rw [h5g, hlo2]
                  simp

/-! ### The matching loop after an insertion -/

theorem matchLoop_uncrossed (n : Nat) (b : OrderBook) (ts : Trades) (hu : b.Uncrossed) :
    matchLoop (n + 1) b ts = some (ts, b) := by
  cases hb : b.bids_ with
  | nil => exact matchLoop_exit_bids n b ts hb
  | cons e br =>
    cases ha : b.asks_ with
    | nil => exact matchLoop_exit_asks n b ts ha
    | cons f ar =>
      obtain ⟨bp, bq⟩ := e
      obtain ⟨ap, aq⟩ := f
      exact matchLoop_exit_lt n b ts bp bq br ap aq ar hb ha
        (hu _ (by rw [hb]; exact List.mem_cons_self _ _) _
          (by rw [ha]; exact List.mem_cons_self _ _))

theorem ladderPush_front (before : Price → Price → Bool) (p : Price) (o : Order)
    (l : Ladder) (h : ∀ e ∈ l, e.1 ≠ p ∧ before p e.1 = true) :
    ladderPush before p o l = (p, [o]) :: l := by
  cases l with
  | nil => rfl
  | cons e t =>
    obtain ⟨k, q⟩ := e
    have := h (k, q) (List.mem_cons_self _ _)
    simp only at this
    simp [ladderPush, this.1, this.2]

theorem canMatch_buy (b : OrderBook) (P : Price) :
    CanMatch b Side.Buy P = true ↔ ∃ e ∈ b.asks_.head?, e.1 ≤ P := by
  unfold CanMatch
  cases b.asks_ with
  | nil => simp
  | cons e t => obtain ⟨k, q⟩ := e; simp

theorem canMatch_sell (b : OrderBook) (P : Price) :
    CanMatch b Side.Sell P = true ↔ ∃ e ∈ b.bids_.head?, P ≤ e.1 := by
  unfold CanMatch
  cases b.bids_ with
  | nil => simp
  | cons e t => obtain ⟨k, q⟩ := e; simp

theorem insertOrder_buy (b : OrderBook) (o : Order) (hs : o.side_ = Side.Buy) :
    (insertOrder b o).asks_ = b.asks_ ∧
    (insertOrder b o).bids_ = ladderPush (fun p k => decide (p > k)) o.price_ o b.bids_ := by
  simp [insertOrder, hs]

theorem insertOrder_sell (b : OrderBook) (o : Order) (hs : o.side_ = Side.Sell) :
    (insertOrder b o).bids_ = b.bids_ ∧
    (insertOrder b o).asks_ = ladderPush (fun p k => decide (p < k)) o.price_ o b.asks_ := by
  simp [insertOrder, hs]

theorem asks_above_front {b : OrderBook} (h : b.Consistent) {e : Price × List Order}
    (he : e ∈ b.asks_.head?) : ∀ y ∈ b.asks_, e.1 ≤ y.1 := by
  intro y hy
  cases ha : b.asks_ with
  | nil => rw [ha] at hy; simp at hy
  | cons f t =>
    rw [ha] at he hy
    simp at he
    subst he
    rcases List.mem_cons.1 hy with rfl | hy
    · exact le_refl _
    · have := h.2.1.1
      rw [ha] at this
      exact le_of_lt (List.rel_of_pairwise_cons this hy)

theorem bids_below_front {b : OrderBook} (h : b.Consistent) {e : Price × List Order}
    (he : e ∈ b.bids_.head?) : ∀ y ∈ b.bids_, y.1 ≤ e.1 := by
  intro y hy
  cases hb : b.bids_ with
  | nil => rw [hb] at hy; simp at hy
  | cons f t =>
    rw [hb] at he hy
    simp at he
    subst he
    rcases List.mem_cons.1 hy with rfl | hy
    · exact le_refl _
    · have := h.1.1
      rw [hb] at this
      exact le_of_lt (List.rel_of_pairwise_cons this hy)

/-- The matching loop right after the insertion of `o1` into a consistent book
that is not crossed: when `o1` cannot match nothing happens, otherwise `o1`
stands alone in front of its ladder and sweeps the opposite one. -/
theorem match_after_insert (b : OrderBook) (o1 : Order) (hc : b.Consistent)
    (hu : b.Uncrossed) (hf : containsOrder b.orders_ o1.orderId_ = false) :
    ∃ tn b2, matchLoop (matchFuel (insertOrder b o1)) (insertOrder b o1) [] = some (tn, b2) ∧
      b2.Consistent ∧ b2.Uncrossed ∧
      LadderFrom (insertOrder b o1).bids_ b2.bids_ ∧
      LadderFrom (insertOrder b o1).asks_ b2.asks_ ∧
      ((CanMatch b o1.side_ o1.price_ = false ∧ tn = [] ∧ b2 = insertOrder b o1) ∨
       (CanMatch b o1.side_ o1.price_ = true ∧ Swept o1 b tn b2)) := by
  have hci := insertOrder_consistent b o1 hc hf
  obtain ⟨tn, b2, hm, c2, u2, fb, fa⟩ :=
    matchLoop_ok (matchFuel (insertOrder b o1)) (insertOrder b o1) [] hci (matchFuel_gt _)
  refine ⟨tn, b2, hm, c2, u2, fb, fa, ?_⟩
  have hfuel : matchFuel (insertOrder b o1) =
      ((ladderOrders (insertOrder b o1).bids_).length +
        (ladderOrders (insertOrder b o1).asks_).length) + 1 := rfl
  by_cases hcm : CanMatch b o1.side_ o1.price_ = true
  · right
    refine ⟨hcm, ?_⟩
    cases hs : o1.side_ with
    | Buy =>
      rw [hs] at hcm
      obtain ⟨e, he, hle⟩ := (canMatch_buy b o1.price_).1 hcm
      obtain ⟨hia, hib⟩ := insertOrder_buy b o1 hs
      have hfront : (insertOrder b o1).bids_ = (o1.price_, [o1]) :: b.bids_ := by
        rw [hib]
        apply ladderPush_front
        intro x hx
        have h1 : x.1 < e.1 := hu x hx e (List.mem_of_mem_head? he)
        have h2 : x.1 < o1.price_ := lt_of_lt_of_le h1 hle
        exact ⟨ne_of_lt h2, by simpa using h2⟩
      obtain ⟨tn2, b3, hm2, hsw⟩ := sweep_buy o1.price_ b.bids_ (matchFuel (insertOrder b o1))
        (insertOrder b o1) [] o1 hfront rfl (by rw [hia]; exact hc.2.1)
        (by rw [hia]; exact hu) (by rw [hfuel]; omega)
      rw [hm] at hm2
      simp only [List.nil_append, Option.some.injEq, Prod.mk.injEq] at hm2
      obtain ⟨rfl, rfl⟩ := hm2
      rw [hia] at hsw
      simp only [Swept, hs, if_true]
      exact hsw
    | Sell =>
      rw [hs] at hcm
      obtain ⟨e, he, hle⟩ := (canMatch_sell b o1.price_).1 hcm
      obtain ⟨hib, hia⟩ := insertOrder_sell b o1 hs
      have hfront : (insertOrder b o1).asks_ = (o1.price_, [o1]) :: b.asks_ := by
        rw [hia]
        apply ladderPush_front
        intro x hx
        have h1 : e.1 < x.1 := hu e (List.mem_of_mem_head? he) x hx
        have h2 : o1.price_ < x.1 := lt_of_le_of_lt hle h1
        exact ⟨ne_of_gt h2, by simpa using h2⟩
      obtain ⟨tn2, b3, hm2, hsw⟩ := sweep_sell o1.price_ b.asks_ (matchFuel (insertOrder b o1))
        (insertOrder b o1) [] o1 hfront rfl (by rw [hib]; exact hc.1)
        (by rw [hib]; intro e he y hy; exact hu y hy e he) (by rw [hfuel]; omega)
      rw [hm] at hm2
      simp only [List.nil_append, Option.some.injEq, Prod.mk.injEq] at hm2
      obtain ⟨rfl, rfl⟩ := hm2
      rw [hib] at hsw
      simp only [Swept, hs, reduceCtorEq, if_false]
      exact hsw
  · left
    have hcm2 : CanMatch b o1.side_ o1.price_ = false := by simpa using hcm
    refine ⟨hcm2, ?_⟩
    have hui : (insertOrder b o1).Uncrossed := by
      cases hs : o1.side_ with
      | Buy =>
        rw [hs] at hcm
        obtain ⟨hia, hib⟩ := insertOrder_buy b o1 hs
        intro x hx y hy
        rw [hia] at hy
        rw [hib] at hx
        rcases ladderPush_key _ _ _ _ x hx with hk | ⟨x0, hx0, hk⟩
        · rw [hk]
          by_contra hlt
          apply hcm
          rw [canMatch_buy]
          cases ha : b.asks_ with
          | nil => rw [ha] at hy; simp at hy
          | cons f t =>
            refine ⟨f, by simp, ?_⟩
            have := @asks_above_front b hc f (by simp [ha]) y hy
            exact le_trans this (not_lt.1 hlt)
        · rw [← hk]; exact hu x0 hx0 y hy
      | Sell =>
        rw [hs] at hcm
        obtain ⟨hib, hia⟩ := insertOrder_sell b o1 hs
        intro x hx y hy
        rw [hib] at hx
        rw [hia] at hy
        rcases ladderPush_key _ _ _ _ y hy with hk | ⟨y0, hy0, hk⟩
        · rw [hk]
          by_contra hlt
          apply hcm
          rw [canMatch_sell]
          cases hb : b.bids_ with
          | nil => rw [hb] at hx; simp at hx
          | cons f t =>
            refine ⟨f, by simp, ?_⟩
            have := @bids_below_front b hc f (by simp [hb]) x hx
            exact le_trans (not_lt.1 hlt) this
        · rw [← hk]; exact hu x hx y0 hy0
    have := matchLoop_uncrossed ((ladderOrders (insertOrder b o1).bids_).length +
        (ladderOrders (insertOrder b o1).asks_).length) (insertOrder b o1) [] hui
    rw [hfuel, this] at hm
    simp only [Option.some.injEq, Prod.mk.injEq] at hm
    exact ⟨hm.1.symm, hm.2.symm⟩

/-! ### `AddOrder` of an admitted order, step by step -/

theorem Admits.id_fresh {b : OrderBook} {o o1 : Order} (ha : b.Admits o o1) :
    containsOrder b.orders_ o1.orderId_ = false := by
  rw [(marketRetag_goesOn b o o1 ha.2.1).1]; exact ha.1

/-- `AddOrder` of an order admitted as `o1` to a consistent book that is not
crossed runs through its three steps and returns the trades of the matching
loop. -/
theorem add_admitted (b : OrderBook) (o o1 : Order) (hc : b.Consistent) (hu : b.Uncrossed)
    (ha : b.Admits o o1) :
    ∃ tn b2 b3 b4, b.AddSteps o1 tn b2 b3 b4 ∧ AddOrder b o = some (tn, b4) ∧
      b2.Consistent ∧ b3.Consistent ∧ b4.Consistent ∧ b4.Uncrossed ∧
      LadderFrom (insertOrder b o1).bids_ b2.bids_ ∧
      LadderFrom (insertOrder b o1).asks_ b2.asks_ ∧
      LadderFrom b2.bids_ b3.bids_ ∧ LadderFrom b2.asks_ b3.asks_ ∧
      LadderFrom b3.bids_ b4.bids_ ∧ LadderFrom b3.asks_ b4.asks_ ∧
      ((CanMatch b o1.side_ o1.price_ = false ∧ tn = [] ∧ b2 = insertOrder b o1) ∨
       (CanMatch b o1.side_ o1.price_ = true ∧ Swept o1 b tn b2)) := by
  obtain ⟨tn, b2, hm, c2, u2, fb2, fa2, hsw⟩ := match_after_insert b o1 hc hu (Admits.id_fresh ha)
  obtain ⟨b3, h3, c3, fb3, fa3, _⟩ :=
    cancelFront_ok b2 b2.bids_ _ Side.Buy c2.1 OrderType.FillOrKill c2
  obtain ⟨b4, h4, c4, fb4, fa4, _⟩ :=
    cancelFront_ok b3 b3.asks_ _ Side.Sell c3.2.1 OrderType.FillAndKill c3
  refine ⟨tn, b2, b3, b4, ⟨hm, h3, h4⟩, ?_, c2, c3, c4,
    uncrossed_of_from (uncrossed_of_from u2 fb3 fa3) fb4 fa4, fb2, fa2, fb3, fa3, fb4, fa4, hsw⟩
  rcases AddOrder_cases b o with ⟨_, hno⟩ | ⟨o2, ha2, h⟩
  · exact absurd ha (hno o1)
  · have : o2 = o1 := by
      have h1 := ha.2.1
      rw [ha2.2.1] at h1
      cases h1; rfl
    subst this
    rw [h]
    simp [MatchOrders, hm, h3, h4]

/-- The trades `AddOrder` returns on a consistent book that is not crossed: none,
or those of the sweep of the opposite ladder by the admitted order. -/
theorem AddOrder_trades (b : OrderBook) (o : Order) (hc : b.Consistent) (hu : b.Uncrossed) :
    ∃ ts b1, AddOrder b o = some (ts, b1) ∧
      (ts = [] ∨ ∃ o1 b2, b.Admits o o1 ∧ Swept o1 b ts b2) := by
  rcases AddOrder_cases b o with ⟨h, _⟩ | ⟨o1, ha, _⟩
  · exact ⟨[], b, h, Or.inl rfl⟩
  · obtain ⟨tn, b2, b3, b4, _, h, _, _, _, _, _, _, _, _, _, _, hsw⟩ :=
      add_admitted b o o1 hc hu ha
    refine ⟨tn, b4, h, ?_⟩
    rcases hsw with ⟨_, h1, _⟩ | ⟨_, h1⟩
    · exact Or.inl h1
    · exact Or.inr ⟨o1, b2, ha, h1⟩

theorem legsFollow_mem : ∀ (legs : List TradeInfo) (rs : List Order), legsFollow legs rs →
    ∀ l ∈ legs, ∃ r ∈ rs, l.orderId_ = r.orderId_ ∧ l.price_ = r.price_ ∧
      l.quantity_ ≤ r.remainingQuantity := by
  intro legs
  induction legs with
  | nil => intro _ _ l hl; simp at hl
  | cons t ts ih =>
    intro rs h l hl
    cases rs with
    | nil => simp [legsFollow] at h
    | cons r rs2 =>
      simp only [legsFollow] at h
      rcases List.mem_cons.1 hl with rfl | hl
      · exact ⟨r, List.mem_cons_self _ _, h.1, h.2.1, h.2.2.1⟩
      · obtain ⟨r2, hr2, h2⟩ := ih rs2 h.2.2.2.2 l hl
        exact ⟨r2, List.mem_cons_of_mem _ hr2, h2⟩

/-- The index form of `legsFollow`: leg `i` belongs to the `i`-th resting order,
and every leg but the last takes all of its order. -/
theorem legsFollow_index : ∀ (legs : List TradeInfo) (rs : List Order), legsFollow legs rs →
    legs.length ≤ rs.length ∧
    ∀ (i : Nat) (l : TradeInfo) (r : Order), legs[i]? = some l → rs[i]? = some r →
      l.orderId_ = r.orderId_ ∧ l.price_ = r.price_ ∧ l.quantity_ ≤ r.remainingQuantity ∧
      (i + 1 < legs.length → l.quantity_ = r.remainingQuantity) := by
  intro legs
  induction legs with
  | nil => intro rs _; exact ⟨Nat.zero_le _, fun i l r h => by simp at h⟩
  | cons t ts ih =>
    intro rs h
    cases rs with
    | nil => simp [legsFollow] at h
    | cons r rs2 =>
      simp only [legsFollow] at h
      obtain ⟨h1, h2, h3, h4, h5⟩ := h
      obtain ⟨ihl, ihi⟩ := ih rs2 h5
      refine ⟨by simp only [List.length_cons]; omega, ?_⟩
      intro i l r1 hl hr
      cases i with
      | zero =>
        simp only [List.getElem?_cons_zero, Option.some.injEq] at hl hr
        subst hl hr
        refine ⟨h1, h2, h3, ?_⟩
        intro hlen
        apply h4
        intro he
        rw [he] at hlen
        simp at hlen
      | succ j =>
        simp only [List.getElem?_cons_succ] at hl hr
        obtain ⟨a1, a2, a3, a4⟩ := ihi j l r1 hl hr
        refine ⟨a1, a2, a3, ?_⟩
        intro hlen
        apply a4
        simp only [List.length_cons] at hlen
        omega

/-! ### Trades of one `AddOrder` -/

theorem bookBuyTen_reachable : Reachable bookBuyTen :=
  ReachableBy.add OrderBook.empty (gtc 1 Side.Buy 100 10) [] bookBuyTen ReachableBy.empty
    (by decide) (by decide)

theorem bookTwoBuys_reachable : Reachable bookTwoBuys :=
  ReachableBy.add _ (gtc 2 Side.Buy 100 5) [] bookTwoBuys
    (ReachableBy.add OrderBook.empty (gtc 1 Side.Buy 100 5) [] _ ReachableBy.empty
      (by decide) (by decide : AddOrder OrderBook.empty (gtc 1 Side.Buy 100 5) = some ([],
        { orders_ := [(1, gtc 1 Side.Buy 100 5)], bids_ := [(100, [gtc 1 Side.Buy 100 5])],
          asks_ := [], data_ := [(100, ⟨5, 1⟩)] })))
    (by decide) (by decide)

theorem ownLeg_sum (side : Side) (ts : Trades)
    (h : ∀ t ∈ ts, t.askTrade_.quantity_ = t.bidTrade_.quantity_) :
    (ts.map (fun t => (ownLeg side t).quantity_)).sum = tradedQuantity ts := by
  unfold tradedQuantity
  congr 1
  apply List.map_congr_left
  intro t ht
  cases side with
  | Buy => simp [ownLeg]
  | Sell => simp [ownLeg, h t ht]

/-- C8: on every reachable book, each trade `AddOrder(order)` returns carries the
id of `order` on the leg of its side, and the quantities of the returned trades
sum to at most the initial quantity of `order`.  An `Order` object never has
more remaining than initial quantity, which is the hypothesis on `o`. -/
theorem trades_caused_by_order (b : OrderBook) (o : Order) (h : ReachableAny b)
    (hq : o.remainingQuantity ≤ o.initialQuantity) :
    ∃ ts b1, AddOrder b o = some (ts, b1) ∧
      (∀ t ∈ ts, (ownLeg o.side_ t).orderId_ = o.orderId_) ∧
      (ts.map (fun t => (ownLeg o.side_ t).quantity_)).sum ≤ o.initialQuantity ∧
      (ts.map (fun t => (otherLeg o.side_ t).quantity_)).sum ≤ o.initialQuantity := by
  obtain ⟨hc, hu⟩ := reachableBy_consistent _ b h
  obtain ⟨ts, b1, hadd, hts⟩ := AddOrder_trades b o hc hu
  refine ⟨ts, b1, hadd, ?_⟩
  rcases hts with rfl | ⟨o1, b2, ha, hsw⟩
  · simp
  · obtain ⟨hid, hside, _, hrem, _⟩ := marketRetag_goesOn b o o1 ha.2.1
    unfold Swept at hsw
    cases hs : o.side_ with
    | Buy =>
      rw [hside, hs] at hsw
      simp only [if_true] at hsw
      obtain ⟨h1, _, h3, _⟩ := hsw
      have hsum := ownLeg_sum Side.Buy ts (fun t ht => (h1 t ht).2.2.1)
      refine ⟨fun t ht => by simp only [ownLeg, if_true]; rw [(h1 t ht).1, hid], ?_, ?_⟩
      · rw [hsum]; rw [hrem] at h3; exact le_trans h3 hq
      · have hsum2 := ownLeg_sum Side.Sell ts (fun t ht => (h1 t ht).2.2.1)
        have e : (fun t => (otherLeg Side.Buy t).quantity_) =
            (fun t => (ownLeg Side.Sell t).quantity_) := by
          funext t; simp [ownLeg, otherLeg]
        rw [e, hsum2]; rw [hrem] at h3; exact le_trans h3 hq
    | Sell =>
      rw [hside, hs] at hsw
      simp only [reduceCtorEq, if_false] at hsw
      obtain ⟨h1, _, h3, _⟩ := hsw
      have hsum := ownLeg_sum Side.Sell ts (fun t ht => (h1 t ht).2.2.1)
      refine ⟨fun t ht => by
        simp only [ownLeg, reduceCtorEq, if_false]; rw [(h1 t ht).1, hid], ?_, ?_⟩
      · rw [hsum]; rw [hrem] at h3; exact le_trans h3 hq
      · have hsum2 := ownLeg_sum Side.Buy ts (fun t ht => (h1 t ht).2.2.1)
        have e : (fun t => (otherLeg Side.Sell t).quantity_) =
            (fun t => (ownLeg Side.Buy t).quantity_) := by
          funext t; simp [ownLeg, otherLeg]
        rw [e, hsum2]; rw [hrem] at h3; exact le_trans h3 hq

/-- C8 on the book with the buy id 1 of 10 at 100 resting: the sell id 2 of 7 at
100 returns exactly one trade, buyer 1 at 100 for 7 and seller 2 at 100 for 7,
and leaves `Size` 1 with order 1 at remaining quantity 3. -/
theorem trades_caused_by_order_witness :
    (∃ ts b1, AddOrder bookBuyTen (gtc 2 Side.Sell 100 7) = some (ts, b1) ∧
      (∀ t ∈ ts, (ownLeg Side.Sell t).orderId_ = 2) ∧
      (ts.map (fun t => (ownLeg Side.Sell t).quantity_)).sum ≤ 7 ∧
      (ts.map (fun t => (otherLeg Side.Sell t).quantity_)).sum ≤ 7) ∧
    AddOrder bookBuyTen (gtc 2 Side.Sell 100 7)
      = some ([⟨⟨1, 100, 7⟩, ⟨2, 100, 7⟩⟩], bookBuyThree) ∧
    bookBuyThree.Size = 1 ∧
    (findOrder bookBuyThree.orders_ 1).map (fun o => o.remainingQuantity) = some 3 :=
  ⟨trades_caused_by_order bookBuyTen (gtc 2 Side.Sell 100 7) bookBuyTen_reachable.any
    (by decide), by decide, by decide, by decide⟩

/-- C9: on every book that is consistent and not crossed, which every state of the
engine is, every trade `AddOrder` returns has the same quantity on both legs,
a bid price that is at least the ask price, the id and the limit price of the
admitted order on the leg of its side (the price it was retagged with when it
came as a market order) and the id and the limit price of an order resting on
the opposite ladder on the other leg. -/
theorem trade_legs (b : OrderBook) (o : Order) (hc : b.Consistent) (hu : b.Uncrossed) :
    ∃ ts b1, AddOrder b o = some (ts, b1) ∧ ∀ t ∈ ts,
      t.bidTrade_.quantity_ = t.askTrade_.quantity_ ∧
      t.askTrade_.price_ ≤ t.bidTrade_.price_ ∧
      ∃ o1, b.Admits o o1 ∧
        (ownLeg o.side_ t).orderId_ = o1.orderId_ ∧ (ownLeg o.side_ t).price_ = o1.price_ ∧
        ∃ r ∈ ladderOrders (b.opposite o.side_),
          (otherLeg o.side_ t).orderId_ = r.orderId_ ∧
          (otherLeg o.side_ t).price_ = r.price_ := by
  obtain ⟨ts, b1, hadd, hts⟩ := AddOrder_trades b o hc hu
  refine ⟨ts, b1, hadd, ?_⟩
  rcases hts with rfl | ⟨o1, b2, ha, hsw⟩
  · intro t ht; simp at ht
  · obtain ⟨_, hside, _⟩ := marketRetag_goesOn b o o1 ha.2.1
    unfold Swept at hsw
    intro t ht
    cases hs : o.side_ with
    | Buy =>
      rw [hside, hs] at hsw
      simp only [if_true] at hsw
      obtain ⟨h1, h2, _⟩ := hsw
      obtain ⟨a1, a2, a3, a4⟩ := h1 t ht
      obtain ⟨r, hr, e1, e2, _⟩ := legsFollow_mem _ _ h2 t.askTrade_
        (List.mem_map_of_mem _ ht)
      refine ⟨a3.symm, by rw [a2]; exact a4, o1, ha, ?_, ?_, r, ?_, ?_, ?_⟩
      · simp [ownLeg, a1]
      · simp [ownLeg, a2]
      · simpa [OrderBook.opposite] using hr
      · simpa [otherLeg] using e1
      · simpa [otherLeg] using e2
    | Sell =>
      rw [hside, hs] at hsw
      simp only [reduceCtorEq, if_false] at hsw
      obtain ⟨h1, h2, _⟩ := hsw
      obtain ⟨a1, a2, a3, a4⟩ := h1 t ht
      obtain ⟨r, hr, e1, e2, _⟩ := legsFollow_mem _ _ h2 t.bidTrade_
        (List.mem_map_of_mem _ ht)
      refine ⟨a3.symm, by rw [a2]; exact a4, o1, ha, ?_, ?_, r, ?_, ?_, ?_⟩
      · simp [ownLeg, a1]
      · simp [ownLeg, a2]
      · simpa [OrderBook.opposite] using hr
      · simpa [otherLeg] using e1
      · simpa [otherLeg] using e2

/-- C9 on the book with the buy id 1 of 10 at 100 resting, against the sell id 2
of 7 at 100. -/
theorem trade_legs_witness :
    ∃ ts b1, AddOrder bookBuyTen (gtc 2 Side.Sell 100 7) = some (ts, b1) ∧ ∀ t ∈ ts,
      t.bidTrade_.quantity_ = t.askTrade_.quantity_ ∧
      t.askTrade_.price_ ≤ t.bidTrade_.price_ ∧
      ∃ o1, bookBuyTen.Admits (gtc 2 Side.Sell 100 7) o1 ∧
        (ownLeg Side.Sell t).orderId_ = o1.orderId_ ∧
        (ownLeg Side.Sell t).price_ = o1.price_ ∧
        ∃ r ∈ ladderOrders (bookBuyTen.opposite Side.Sell),
          (otherLeg Side.Sell t).orderId_ = r.orderId_ ∧
          (otherLeg Side.Sell t).price_ = r.price_ :=
  trade_legs bookBuyTen (gtc 2 Side.Sell 100 7)
    (reachableBy_consistent _ _ bookBuyTen_reachable).1
    (reachableBy_consistent _ _ bookBuyTen_reachable).2

/-! ### Price-time priority -/

theorem LadderOK.key_unique {r : Price → Price → Prop} {side : Side} {k : Price}
    {q : List Order} {l : Ladder} (hirr : ∀ a, ¬ r a a)
    (h : LadderOK r side ((k, q) :: l)) : ∀ e ∈ l, e.1 ≠ k := by
  intro e he hk
  have := List.rel_of_pairwise_cons h.1 he
  simp only [] at this
  rw [hk] at this
  exact hirr _ this

/-- The pushed order goes to the tail of the FIFO of its price level and every
other level stays as it is. -/
theorem ladderPush_tail (before : Price → Price → Bool) (r : Price → Price → Prop)
    (hbr : ∀ p k, before p k = true ↔ r p k)
    (htrans : ∀ a b c, r a b → r b c → r a c) (hirr : ∀ a, ¬ r a a)
    (side : Side) (p : Price) (o : Order) :
    ∀ l : Ladder, LadderOK r side l →
      ∃ q, (p, q ++ [o]) ∈ ladderPush before p o l ∧
        (∀ e ∈ ladderPush before p o l, e.1 = p → e.2 = q ++ [o]) ∧
        (∀ e0 ∈ l, e0.1 = p → e0.2 = q) ∧
        (∀ e ∈ ladderPush before p o l, e.1 ≠ p → e ∈ l) := by
  intro l
  induction l with
  | nil =>
    intro _
    refine ⟨[], by simp [ladderPush], ?_, by simp, ?_⟩
    · intro e he _
      simp [ladderPush] at he
      subst he; rfl
    · intro e he hne
      simp [ladderPush] at he
      subst he
      exact absurd rfl hne
  | cons a t ih =>
    intro h
    obtain ⟨k, q⟩ := a
    have huniq := LadderOK.key_unique hirr h
    unfold ladderPush
    by_cases hk : k = p
    · subst hk
      simp only [if_true]
      refine ⟨q, List.mem_cons_self _ _, ?_, ?_, ?_⟩
      · intro e he hek
        rcases List.mem_cons.1 he with rfl | he
        · rfl
        · exact absurd hek (huniq e he)
      · intro e0 he0 hek
        rcases List.mem_cons.1 he0 with rfl | he0
        · rfl
        · exact absurd hek (huniq e0 he0)
      · intro e he hne
        rcases List.mem_cons.1 he with rfl | he
        · exact absurd rfl hne
        · exact List.mem_cons_of_mem _ he
    · simp only [hk, if_false]
      by_cases hb : before p k = true
      · simp only [hb, if_true]
        have hrpk : r p k := (hbr _ _).1 hb
        have hnone : ∀ e ∈ (k, q) :: t, e.1 ≠ p := by
          intro e he hep
          rcases List.mem_cons.1 he with rfl | he
          · exact hk hep
          · have := List.rel_of_pairwise_cons h.1 he
            simp only [] at this
            rw [hep] at this
            exact hirr _ (htrans _ _ _ hrpk this)
        refine ⟨[], List.mem_cons_self _ _, ?_, ?_, ?_⟩
        · intro e he hep
          rcases List.mem_cons.1 he with rfl | he
          · rfl
          · exact absurd hep (hnone e he)
        · intro e0 he0 hep
          exact absurd hep (hnone e0 he0)
        · intro e he hne
          rcases List.mem_cons.1 he with rfl | he
          · exact absurd rfl hne
          · exact he
      · simp only [hb, Bool.false_eq_true, if_false]
        obtain ⟨q1, h1, h2, h3, h4⟩ := ih h.tail
        refine ⟨q1, List.mem_cons_of_mem _ h1, ?_, ?_, ?_⟩
        · intro e he hep
          rcases List.mem_cons.1 he with rfl | he
          · exact absurd hep hk
          · exact h2 e he hep
        · intro e0 he0 hep
          rcases List.mem_cons.1 he0 with rfl | he0
          · exact absurd hep hk
          · exact h3 e0 he0 hep
        · intro e he hne
          rcases List.mem_cons.1 he with rfl | he
          · exact List.mem_cons_self _ _
          · exact List.mem_cons_of_mem _ (h4 e he hne)

/-- An inserted order goes to the tail of the FIFO at its price on the ladder of
its side, behind the orders that were there, and nothing else moves. -/
theorem insertOrder_tail (b : OrderBook) (o1 : Order) (hc : b.Consistent) :
    (insertOrder b o1).opposite o1.side_ = b.opposite o1.side_ ∧
    ∃ q, (o1.price_, q ++ [o1]) ∈ (insertOrder b o1).ladder o1.side_ ∧
      (∀ e ∈ (insertOrder b o1).ladder o1.side_, e.1 = o1.price_ → e.2 = q ++ [o1]) ∧
      (∀ e0 ∈ b.ladder o1.side_, e0.1 = o1.price_ → e0.2 = q) ∧
      (∀ e ∈ (insertOrder b o1).ladder o1.side_, e.1 ≠ o1.price_ → e ∈ b.ladder o1.side_) := by
  cases hs : o1.side_ with
  | Buy =>
    obtain ⟨hia, hib⟩ := insertOrder_buy b o1 hs
    simp only [OrderBook.opposite, OrderBook.ladder, if_true, hia, hib, true_and]
    exact ladderPush_tail _ _ (by simp) gt_trans_price gt_irrefl_price Side.Buy _ _ _ hc.1
  | Sell =>
    obtain ⟨hib, hia⟩ := insertOrder_sell b o1 hs
    simp only [OrderBook.opposite, OrderBook.ladder, reduceCtorEq, if_false, hia, hib,
      true_and]
    exact ladderPush_tail _ _ (by simp) lt_trans_price lt_irrefl_price Side.Sell _ _ _ hc.2.1

/-- C5: on every reachable book the trades `AddOrder` returns go down the opposite
ladder as it stood before the call, best level first and each FIFO from its
head: the `i`-th trade is against the `i`-th resting order in that order, for at
most its remaining quantity, and every trade but the last takes all of the
remaining quantity of its resting order, so that an order is traded against
only when all orders ahead of it are filled.  The ladders are in price order,
and an order that is admitted enters at the tail of the FIFO of its price,
behind the orders admitted before it. -/
theorem price_time_priority (b : OrderBook) (o : Order) (h : ReachableAny b) :
    ∃ ts b1, AddOrder b o = some (ts, b1) ∧ b.Sorted ∧
      ts.length ≤ (ladderOrders (b.opposite o.side_)).length ∧
      (∀ (i : Nat) (t : Trade) (r : Order), ts[i]? = some t →
        (ladderOrders (b.opposite o.side_))[i]? = some r →
        (otherLeg o.side_ t).orderId_ = r.orderId_ ∧
        (otherLeg o.side_ t).price_ = r.price_ ∧
        (otherLeg o.side_ t).quantity_ ≤ r.remainingQuantity ∧
        (i + 1 < ts.length → (otherLeg o.side_ t).quantity_ = r.remainingQuantity)) ∧
      (∀ o1, b.Admits o o1 →
        ∃ q, (o1.price_, q ++ [o1]) ∈ (insertOrder b o1).ladder o.side_ ∧
          (∀ e0 ∈ b.ladder o.side_, e0.1 = o1.price_ → e0.2 = q) ∧
          (∀ e ∈ (insertOrder b o1).ladder o.side_, e.1 ≠ o1.price_ → e ∈ b.ladder o.side_)) := by
  obtain ⟨hc, hu⟩ := reachableBy_consistent _ b h
  obtain ⟨ts, b1, hadd, hts⟩ := AddOrder_trades b o hc hu
  have hlegs : legsFollow (ts.map (otherLeg o.side_)) (ladderOrders (b.opposite o.side_)) := by
    rcases hts with rfl | ⟨o1, b2, ha, hsw⟩
    · simp [legsFollow]
    · obtain ⟨_, hside, _⟩ := marketRetag_goesOn b o o1 ha.2.1
      unfold Swept at hsw
      cases hs : o.side_ with
      | Buy =>
        rw [hside, hs] at hsw
        simp only [if_true] at hsw
        have e : otherLeg Side.Buy = fun t => t.askTrade_ := by
          funext t; simp [otherLeg]
        rw [e]
        simpa [OrderBook.opposite] using hsw.2.1
      | Sell =>
        rw [hside, hs] at hsw
        simp only [reduceCtorEq, if_false] at hsw
        have e : otherLeg Side.Sell = fun t => t.bidTrade_ := by
          funext t; simp [otherLeg]
        rw [e]
        simpa [OrderBook.opposite] using hsw.2.1
  obtain ⟨hlen, hidx⟩ := legsFollow_index _ _ hlegs
  refine ⟨ts, b1, hadd, ⟨hc.1.1, hc.2.1.1⟩, by simpa using hlen, ?_, ?_⟩
  · intro i t r ht hr
    have := hidx i (otherLeg o.side_ t) r (by simp [List.getElem?_map, ht]) hr
    simpa using this
  · intro o1 ha
    obtain ⟨_, hside, _⟩ := marketRetag_goesOn b o o1 ha.2.1
    obtain ⟨_, q, h1, _, h3, h4⟩ := insertOrder_tail b o1 hc
    rw [hside] at h1 h3 h4
    exact ⟨q, h1, h3, h4⟩

/-- C5 on the book with the buys id 1 and then id 2 resting at 100, 5 each: the
sell id 3 of 5 at 100 makes a single trade against id 1, which is filled and
leaves, and id 2 keeps its remaining quantity 5. -/
theorem price_time_priority_witness :
    (∃ ts b1, AddOrder bookTwoBuys (gtc 3 Side.Sell 100 5) = some (ts, b1) ∧
      bookTwoBuys.Sorted ∧
      ts.length ≤ (ladderOrders (bookTwoBuys.opposite Side.Sell)).length ∧
      (∀ (i : Nat) (t : Trade) (r : Order), ts[i]? = some t →
        (ladderOrders (bookTwoBuys.opposite Side.Sell))[i]? = some r →
        (otherLeg Side.Sell t).orderId_ = r.orderId_ ∧
        (otherLeg Side.Sell t).price_ = r.price_ ∧
        (otherLeg Side.Sell t).quantity_ ≤ r.remainingQuantity ∧
        (i + 1 < ts.length → (otherLeg Side.Sell t).quantity_ = r.remainingQuantity)) ∧
      (∀ o1, bookTwoBuys.Admits (gtc 3 Side.Sell 100 5) o1 →
        ∃ q, (o1.price_, q ++ [o1]) ∈ (insertOrder bookTwoBuys o1).ladder Side.Sell ∧
          (∀ e0 ∈ bookTwoBuys.ladder Side.Sell, e0.1 = o1.price_ → e0.2 = q) ∧
          (∀ e ∈ (insertOrder bookTwoBuys o1).ladder Side.Sell, e.1 ≠ o1.price_ →
            e ∈ bookTwoBuys.ladder Side.Sell))) ∧
    AddOrder bookTwoBuys (gtc 3 Side.Sell 100 5)
      = some ([⟨⟨1, 100, 5⟩, ⟨3, 100, 5⟩⟩], bookSecondBuy) ∧
    containsOrder bookSecondBuy.orders_ 1 = false ∧
    (findOrder bookSecondBuy.orders_ 2).map (fun o => o.remainingQuantity) = some 5 :=
  ⟨price_time_priority bookTwoBuys (gtc 3 Side.Sell 100 5) bookTwoBuys_reachable.any,
    by decide, by decide, by decide⟩

/-! ### Market orders -/

theorem available_all (ok : Price → Bool) (os : List Order)
    (h : ∀ o ∈ os, ok o.price_ = true) :
    available ok os = (os.map (fun o => o.remainingQuantity)).sum := by
  induction os with
  | nil => rfl
  | cons o t ih =>
    rw [available_cons, h o (List.mem_cons_self _ _),
      ih (fun x hx => h x (List.mem_cons_of_mem _ hx))]
    simp

theorem not_live_of_from {b b1 : OrderBook} (hc : b.Consistent) (hc1 : b1.Consistent)
    (orderId : OrderId) (hf : containsOrder b.orders_ orderId = false)
    (hB : LadderFrom b.bids_ b1.bids_) (hA : LadderFrom b.asks_ b1.asks_) :
    containsOrder b1.orders_ orderId = false := by
  rw [← Bool.not_eq_true]
  intro hcon
  obtain ⟨r, hr, hid⟩ := (hc1.contains_iff orderId).1 hcon
  have hex : ∃ r0 ∈ b.resting, r0.orderId_ = orderId := by
    rcases List.mem_append.1 hr with hr | hr
    · obtain ⟨r0, hr0, ht⟩ := hB.1 r hr
      exact ⟨r0, List.mem_append_left _ hr0, ht.2.1.symm.trans hid⟩
    · obtain ⟨r0, hr0, ht⟩ := hA.1 r hr
      exact ⟨r0, List.mem_append_right _ hr0, ht.2.1.symm.trans hid⟩
  have := (hc.contains_iff orderId).2 hex
  rw [hf] at this
  cases this

theorem bookTwoAsks_reachable : Reachable bookTwoAsks :=
  ReachableBy.add _ (gtc 2 Side.Sell 102 3) [] bookTwoAsks
    (ReachableBy.add OrderBook.empty (gtc 1 Side.Sell 101 4) [] _ ReachableBy.empty
      (by decide) (by decide : AddOrder OrderBook.empty (gtc 1 Side.Sell 101 4) = some ([],
        { orders_ := [(1, gtc 1 Side.Sell 101 4)], bids_ := [],
          asks_ := [(101, [gtc 1 Side.Sell 101 4])], data_ := [(101, ⟨4, 1⟩)] })))
    (by decide) (by decide)

/-- C7: on every reachable book, a market order that `AddOrder` admits (as `o1`,
the order retagged good-till-cancel at the worst opposite price) is matched
until it is filled in full, and then it is not live, or until the opposite
ladder is empty, and then there is one trade for each order that rested there,
the traded quantity is all that rested there, and the residual rests alone on
a new front level of its own ladder as a good-till-cancel order at the retag
price. -/
theorem market_order_sweeps (b : OrderBook) (o o1 : Order) (h : ReachableAny b)
    (hm : o.orderType_ = OrderType.Market) (ha : b.Admits o o1) :
    ∃ ts b1, AddOrder b o = some (ts, b1) ∧
      ((containsOrder b1.orders_ o.orderId_ = false ∧ ts ≠ [] ∧
          tradedQuantity ts = o.remainingQuantity) ∨
       (b1.opposite o.side_ = [] ∧
          ts.length = (ladderOrders (b.opposite o.side_)).length ∧
          tradedQuantity ts =
            ((ladderOrders (b.opposite o.side_)).map (fun r => r.remainingQuantity)).sum ∧
          ∃ x1, findOrder b1.orders_ o.orderId_ = some x1 ∧
            x1.orderType_ = OrderType.GoodTillCancel ∧ x1.price_ = o1.price_ ∧
            x1.side_ = o.side_ ∧ x1.initialQuantity = o.initialQuantity ∧
            x1.remainingQuantity = o.remainingQuantity - tradedQuantity ts ∧
            b1.ladder o.side_ = (o1.price_, [x1]) :: b.ladder o.side_)) := by
  obtain ⟨hc, hu⟩ := reachableBy_consistent _ b h
  obtain ⟨hid, hside, hinit, hrem, _, _, hmk⟩ := marketRetag_goesOn b o o1 ha.2.1
  obtain ⟨hgtc, e, hlast, hprice⟩ := hmk hm
  obtain ⟨tn, b2, b3, b4, ⟨hm2, hm3, hm4⟩, hadd, c2, c3, c4, _, fb2, fa2, fb3, fa3, fb4, fa4,
    hsw⟩ := add_admitted b o o1 hc hu ha
  refine ⟨tn, b4, hadd, ?_⟩
  have hfresh := Admits.id_fresh ha
  cases hs : o.side_ with
  | Buy =>
    have hs1 : o1.side_ = Side.Buy := hside.trans hs
    obtain ⟨hia, hib⟩ := insertOrder_buy b o1 hs1
    rw [hs] at hlast
    simp only [OrderBook.opposite, if_true] at hlast ⊢
    obtain ⟨hmem, hmax⟩ := getLast_extreme _ b.asks_ e hc.2.1.1 hlast
    have hle : ∀ y ∈ b.asks_, y.1 ≤ o1.price_ := by
      intro y hy
      rw [hprice]
      rcases hmax y hy with rfl | hlt
      · exact le_refl _
      · exact le_of_lt hlt
    have hcm : CanMatch b o1.side_ o1.price_ = true := by
      rw [hs1, canMatch_buy]
      cases hl : b.asks_ with
      | nil => rw [hl] at hmem; simp at hmem
      | cons f t => exact ⟨f, by simp, hle f (by rw [hl]; exact List.mem_cons_self _ _)⟩
    rcases hsw with ⟨hno, _⟩ | ⟨_, hsw⟩
    · rw [hcm] at hno; cases hno
    · simp only [Swept, hs1, if_true] at hsw
      obtain ⟨_, hlf, _, _, hcase⟩ := hsw
      rcases hcase with ⟨hb2, htq, hne⟩ | ⟨x1, hb2, htr, hxr, _, habove, hav, hdrop⟩
      · left
        refine ⟨?_, hne, by rw [htq, hrem]⟩
        rw [← hid]
        have c0 : b2.Consistent := c2
        exact not_live_of_from hc c4 o1.orderId_ hfresh
          (by
            have : LadderFrom b.bids_ b2.bids_ := by rw [hb2]; exact LadderFrom.same _
            exact (this.next fb3).next fb4)
          (by
            have : LadderFrom b.asks_ b2.asks_ := by rw [← hia]; exact fa2
            exact (this.next fa3).next fa4)
      · right
        have hasks2 : b2.asks_ = [] := by
          cases hl : b2.asks_ with
          | nil => rfl
          | cons y t =>
            exfalso
            have hy : y ∈ b2.asks_ := by rw [hl]; exact List.mem_cons_self _ _
            obtain ⟨y0, hy0, hk⟩ := fa2.2 y hy
            rw [hia] at hy0
            have h1 := hle y0 hy0
            have h2 := habove y hy
            rw [hk] at h1
            exact absurd h2 (not_lt.2 h1)
        have ht1 : x1.orderType_ = OrderType.GoodTillCancel := htr.1.trans hgtc
        have hb3 : b3 = b2 := by
          rw [hb2] at hm3
          simp [cancelFront, ht1] at hm3
          exact hm3.symm
        subst hb3
        have hb4 : b4 = b3 := by
          rw [hasks2] at hm4
          simp [cancelFront] at hm4
          exact hm4.symm
        subst hb4
        have hlen : tn.length = (ladderOrders b.asks_).length := by
          have h1 := (legsFollow_index _ _ hlf).1
          simp only [List.length_map] at h1
          rw [hasks2] at hdrop
          simp only [ladderOrders_nil] at hdrop
          have h2 := List.drop_eq_nil_iff.1 hdrop.symm
          omega
        refine ⟨hasks2, hlen, ?_, x1, ?_, ht1, htr.2.2.2.1, htr.2.2.1.trans hs1, ?_, ?_, ?_⟩
        · rw [hav]
          apply available_all
          intro r hr
          obtain ⟨_, f, hf, hfp, _⟩ := hc.2.1.price_of_mem hr
          have := hle f hf
          rw [hfp] at this
          simpa using this
        · have hx1 : x1 ∈ b4.resting := by
            unfold OrderBook.resting
            rw [hb2]; simp
          have := c4.find x1 hx1
          rw [htr.2.1, hid] at this
          exact this
        · exact htr.2.2.2.2.1.trans hinit
        · rw [hxr, hrem]
        · simp only [OrderBook.ladder, if_true]
          exact hb2
  | Sell =>
    have hs1 : o1.side_ = Side.Sell := hside.trans hs
    obtain ⟨hib, hia⟩ := insertOrder_sell b o1 hs1
    rw [hs] at hlast
    simp only [OrderBook.opposite, reduceCtorEq, if_false] at hlast ⊢
    obtain ⟨hmem, hmax⟩ := getLast_extreme _ b.bids_ e hc.1.1 hlast
    have hle : ∀ y ∈ b.bids_, o1.price_ ≤ y.1 := by
      intro y hy
      rw [hprice]
      rcases hmax y hy with rfl | hlt
      · exact le_refl _
      · exact le_of_lt hlt
    have hcm : CanMatch b o1.side_ o1.price_ = true := by
      rw [hs1, canMatch_sell]
      cases hl : b.bids_ with
      | nil => rw [hl] at hmem; simp at hmem
      | cons f t => exact ⟨f, by simp, hle f (by rw [hl]; exact List.mem_cons_self _ _)⟩
    rcases hsw with ⟨hno, _⟩ | ⟨_, hsw⟩
    · rw [hcm] at hno; cases hno
    · simp only [Swept, hs1, reduceCtorEq, if_false] at hsw
      obtain ⟨_, hlf, _, _, hcase⟩ := hsw
      rcases hcase with ⟨ha2, htq, hne⟩ | ⟨x1, ha2, htr, hxr, _, hbelow, hav, hdrop⟩
      · left
        refine ⟨?_, hne, by rw [htq, hrem]⟩
        rw [← hid]
        exact not_live_of_from hc c4 o1.orderId_ hfresh
          (by
            have : LadderFrom b.bids_ b2.bids_ := by rw [← hib]; exact fb2
            exact (this.next fb3).next fb4)
          (by
            have : LadderFrom b.asks_ b2.asks_ := by rw [ha2]; exact LadderFrom.same _
            exact (this.next fa3).next fa4)
      · right
        have hbids2 : b2.bids_ = [] := by
          cases hl : b2.bids_ with
          | nil => rfl
          | cons y t =>
            exfalso
            have hy : y ∈ b2.bids_ := by rw [hl]; exact List.mem_cons_self _ _
            obtain ⟨y0, hy0, hk⟩ := fb2.2 y hy
            rw [hib] at hy0
            have h1 := hle y0 hy0
            have h2 := hbelow y hy
            rw [hk] at h1
            exact absurd h2 (not_lt.2 h1)
        have ht1 : x1.orderType_ = OrderType.GoodTillCancel := htr.1.trans hgtc
        have hb3 : b3 = b2 := by
          rw [hbids2] at hm3
          simp [cancelFront] at hm3
          exact hm3.symm
        subst hb3
        have hb4 : b4 = b3 := by
          rw [ha2] at hm4
          simp [cancelFront, ht1] at hm4
          exact hm4.symm
        subst hb4
        have hlen : tn.length = (ladderOrders b.bids_).length := by
          have h1 := (legsFollow_index _ _ hlf).1
          simp only [List.length_map] at h1
          rw [hbids2] at hdrop
          simp only [ladderOrders_nil] at hdrop
          have h2 := List.drop_eq_nil_iff.1 hdrop.symm
          omega
        refine ⟨hbids2, hlen, ?_, x1, ?_, ht1, htr.2.2.2.1, htr.2.2.1.trans hs1, ?_, ?_, ?_⟩
        · rw [hav]
          apply available_all
          intro r hr
          obtain ⟨_, f, hf, hfp, _⟩ := hc.1.price_of_mem hr
          have := hle f hf
          rw [hfp] at this
          simpa using this
        · have hx1 : x1 ∈ b4.resting := by
            unfold OrderBook.resting
            rw [ha2]; simp
          have := c4.find x1 hx1
          rw [htr.2.1, hid] at this
          exact this
        · exact htr.2.2.2.2.1.trans hinit
        · rw [hxr, hrem]
        · simp only [OrderBook.ladder, reduceCtorEq, if_false]
          exact ha2

/-- C7 on the book with asks 4 at 101 and 3 at 102: a market buy of 9 trades 4 and
3, empties the asks and rests with 2 remaining as a good-till-cancel bid at 102;
a market buy of 5 is filled in full and is not live afterwards. -/
theorem market_order_sweeps_witness :
    (∃ ts b1, AddOrder bookTwoAsks (Order.new OrderType.Market 10 Side.Buy 0 9)
        = some (ts, b1) ∧
      ((containsOrder b1.orders_ 10 = false ∧ ts ≠ [] ∧ tradedQuantity ts = 9) ∨
       (b1.opposite Side.Buy = [] ∧
          ts.length = (ladderOrders (bookTwoAsks.opposite Side.Buy)).length ∧
          tradedQuantity ts =
            ((ladderOrders (bookTwoAsks.opposite Side.Buy)).map
              (fun r => r.remainingQuantity)).sum ∧
          ∃ x1, findOrder b1.orders_ 10 = some x1 ∧
            x1.orderType_ = OrderType.GoodTillCancel ∧ x1.price_ = 102 ∧
            x1.side_ = Side.Buy ∧ x1.initialQuantity = 9 ∧
            x1.remainingQuantity = 9 - tradedQuantity ts ∧
            b1.ladder Side.Buy = (102, [x1]) :: bookTwoAsks.ladder Side.Buy))) ∧
    AddOrder bookTwoAsks (Order.new OrderType.Market 10 Side.Buy 0 9)
      = some ([⟨⟨10, 102, 4⟩, ⟨1, 101, 4⟩⟩, ⟨⟨10, 102, 3⟩, ⟨2, 102, 3⟩⟩],
          { orders_ := [(10, ⟨OrderType.GoodTillCancel, 10, Side.Buy, 102, 9, 2⟩)],
            bids_ := [(102, [⟨OrderType.GoodTillCancel, 10, Side.Buy, 102, 9, 2⟩])],
            asks_ := [], data_ := [(102, ⟨2, 1⟩)] }) :=
  ⟨market_order_sweeps bookTwoAsks (Order.new OrderType.Market 10 Side.Buy 0 9)
      (gtc 10 Side.Buy 102 9) bookTwoAsks_reachable.any rfl (by decide),
    by decide⟩

/-! ### The per-price aggregate -/

theorem levelGet_levelErase (d : LevelMap) (price p : Price) :
    levelGet (levelErase d price) p = if p = price then none else levelGet d p := by
  unfold levelErase
  induction d with
  | nil => simp [levelGet]
  | cons e t ih =>
    obtain ⟨k, v⟩ := e
    by_cases hk : k = price
    · subst hk
      simp only [List.filter_cons, ne_eq, not_true_eq_false, decide_False, Bool.false_eq_true,
        if_false, ih]
      by_cases hp : p = k
      · simp [hp]
      · have : ¬ k = p := fun h => hp h.symm
        simp [hp, levelGet, this]
    · simp only [List.filter_cons, ne_eq, hk, not_false_eq_true, decide_True, if_true, levelGet,
        ih]
      by_cases hp : p = price
      · subst hp
        simp [hk]
      · simp [hp]

theorem levelGet_levelSet (d : LevelMap) (price p : Price) (v : LevelData) :
    levelGet (levelSet d price v) p = if p = price then some v else levelGet d p := by
  induction d with
  | nil =>
    by_cases hp : p = price
    · simp [levelSet, levelGet, hp]
    · have : ¬ price = p := fun h => hp h.symm
      simp [levelSet, levelGet, hp, this]
  | cons e t ih =>
    obtain ⟨k, w⟩ := e
    by_cases hk : k = price
    · subst hk
      by_cases hp : p = k
      · simp [levelSet, levelGet, hp]
      · have : ¬ k = p := fun h => hp h.symm
        simp [levelSet, levelGet, hp, this]
    · simp only [levelSet, hk, if_false, levelGet, ih]
      by_cases hp : p = price
      · subst hp
        simp [hk]
      · simp [hp]

theorem mem_keys_iff (d : LevelMap) (k : Price) :
    k ∈ d.map Prod.fst ↔ levelGet d k ≠ none := by
  induction d with
  | nil => simp [levelGet]
  | cons e t ih =>
    obtain ⟨ek, ev⟩ := e
    by_cases h : ek = k
    · simp [levelGet, h]
    · have h2 : ¬ k = ek := fun e => h e.symm
      simp [levelGet, h, h2, ih]

theorem levelSet_keys (d : LevelMap) (price : Price) (v : LevelData)
    (h : (d.map Prod.fst).Nodup) : ((levelSet d price v).map Prod.fst).Nodup := by
  induction d with
  | nil => simp [levelSet]
  | cons e t ih =>
    obtain ⟨k, w⟩ := e
    simp only [List.map_cons, List.nodup_cons] at h
    by_cases hk : k = price
    · simp only [levelSet, hk, if_true, List.map_cons, List.nodup_cons]
      rw [← hk]; exact h
    · simp only [levelSet, hk, if_false, List.map_cons, List.nodup_cons]
      refine ⟨?_, ih h.2⟩
      rw [mem_keys_iff, levelGet_levelSet]
      simp only [hk, if_false]
      rw [← mem_keys_iff]
      exact h.1

theorem levelErase_keys (d : LevelMap) (price : Price) (h : (d.map Prod.fst).Nodup) :
    ((levelErase d price).map Prod.fst).Nodup :=
  List.Nodup.sublist (List.Sublist.map _ (List.filter_sublist _)) h

theorem update_eq (d : LevelMap) (price : Price) (q : Quantity) (a : Action) :
    UpdateLevelData d price q a =
      if ((levelGet d price).getD ⟨0, 0⟩).count_ + a.countDelta = 0 then levelErase d price
      else levelSet d price
        { quantity_ := ((levelGet d price).getD ⟨0, 0⟩).quantity_ + a.quantityDelta q,
          count_ := ((levelGet d price).getD ⟨0, 0⟩).count_ + a.countDelta } := by
  cases a <;>
    simp [UpdateLevelData, Action.countDelta, Action.quantityDelta, sub_eq_add_neg]

theorem levelGet_update (d : LevelMap) (price p : Price) (q : Quantity) (a : Action) :
    levelGet (UpdateLevelData d price q a) p =
      if p = price then
        (if ((levelGet d price).getD ⟨0, 0⟩).count_ + a.countDelta = 0 then none
         else some
          { quantity_ := ((levelGet d price).getD ⟨0, 0⟩).quantity_ + a.quantityDelta q,
            count_ := ((levelGet d price).getD ⟨0, 0⟩).count_ + a.countDelta })
      else levelGet d p := by
  rw [update_eq]
  by_cases hz : ((levelGet d price).getD ⟨0, 0⟩).count_ + a.countDelta = 0
  · simp only [hz, if_true]
    rw [levelGet_levelErase]
  · simp only [hz, if_false]
    rw [levelGet_levelSet]

theorem update_keys (d : LevelMap) (price : Price) (q : Quantity) (a : Action)
    (h : (d.map Prod.fst).Nodup) : ((UpdateLevelData d price q a).map Prod.fst).Nodup := by
  rw [update_eq]
  split
  · exact levelErase_keys d price h
  · exact levelSet_keys d price _ h

theorem quantityAt_nonneg (p : Price) (os : List Order) : 0 ≤ quantityAt p os := by
  unfold quantityAt
  apply List.sum_nonneg
  intro x hx
  obtain ⟨o, _, rfl⟩ := List.mem_map.1 hx
  exact Int.natCast_nonneg _

theorem quantityAt_of_count_zero (p : Price) (os : List Order) (h : countAt p os = 0) :
    quantityAt p os = 0 := by
  unfold countAt at h
  unfold quantityAt
  have : os.filter (fun o => decide (o.price_ = p)) = [] := by
    apply List.eq_nil_of_length_eq_zero
    exact_mod_cast h
  rw [this]; rfl

theorem countAt_middle (p : Price) (X Y : List Order) (o : Order) :
    countAt p (X ++ o :: Y) = countAt p (X ++ Y) + (if p = o.price_ then 1 else 0) := by
  unfold countAt
  by_cases h : o.price_ = p
  · simp [List.filter_append, List.filter_cons, h]
    omega
  · have h2 : ¬ p = o.price_ := fun e => h e.symm
    simp [List.filter_append, List.filter_cons, h, h2]

theorem quantityAt_middle (p : Price) (X Y : List Order) (o : Order) :
    quantityAt p (X ++ o :: Y) =
      quantityAt p (X ++ Y) + (if p = o.price_ then (o.remainingQuantity : Int) else 0) := by
  unfold quantityAt
  by_cases h : o.price_ = p
  · simp [List.filter_append, List.filter_cons, h]
    omega
  · have h2 : ¬ p = o.price_ := fun e => h e.symm
    simp [List.filter_append, List.filter_cons, h, h2]

theorem Represents.current {d : LevelMap} {os : List Order} (h : Represents d os)
    (p : Price) : (levelGet d p).getD ⟨0, 0⟩ = ⟨quantityAt p os, countAt p os⟩ := by
  rw [h.2 p]
  unfold aggregate
  split
  · rename_i hz
    simp [hz, quantityAt_of_count_zero p os hz]
  · rfl

/-- One `UpdateLevelData` keeps the aggregate in step with the orders when the
orders change at that price by the count and the quantity of the action. -/
theorem Represents.update {d : LevelMap} {os os1 : List Order} (h : Represents d os)
    (price : Price) (q : Quantity) (a : Action)
    (hcount : ∀ p, countAt p os1 = countAt p os + (if p = price then a.countDelta else 0))
    (hqty : ∀ p, quantityAt p os1 =
      quantityAt p os + (if p = price then a.quantityDelta q else 0)) :
    Represents (UpdateLevelData d price q a) os1 := by
  refine ⟨update_keys d price q a h.1, ?_⟩
  intro p
  rw [levelGet_update, h.current price]
  by_cases hp : p = price
  · subst hp
    have hc := hcount p
    have hq := hqty p
    simp only [if_true] at hc hq ⊢
    unfold aggregate
    rw [hc, hq]
  · have hc := hcount p
    have hq := hqty p
    simp only [hp, if_false, add_zero] at hc hq ⊢
    rw [h.2 p]
    unfold aggregate
    rw [hc, hq]

theorem Represents.add {d : LevelMap} {X Y : List Order} (h : Represents d (X ++ Y))
    (o : Order) (hf : o.Fresh) : Represents (OnOrderAdded d o) (X ++ o :: Y) := by
  unfold OnOrderAdded
  apply h.update
  · intro p; rw [countAt_middle]; simp [Action.countDelta]
  · intro p; rw [quantityAt_middle]
    unfold Order.Fresh at hf
    simp [Action.quantityDelta, hf]

theorem Represents.remove {d : LevelMap} {X Y : List Order} {o : Order}
    (h : Represents d (X ++ o :: Y)) : Represents (OnOrderCancelled d o) (X ++ Y) := by
  unfold OnOrderCancelled
  apply h.update
  · intro p; rw [countAt_middle]
    by_cases hp : p = o.price_ <;> simp [Action.countDelta, hp]
  · intro p; rw [quantityAt_middle]
    by_cases hp : p = o.price_ <;> simp [Action.quantityDelta, hp]

/-- The aggregate after one of the two `OnOrderMatched` calls of a round, for the
order `o` that came back from the fill as `o1`. -/
theorem Represents.matched {d : LevelMap} {X Y : List Order} {o o1 : Order}
    (h : Represents d (X ++ o :: Y)) (q : Quantity) (hq : q ≤ o.remainingQuantity)
    (hp1 : o1.price_ = o.price_) (hr1 : o1.remainingQuantity = o.remainingQuantity - q) :
    Represents (OnOrderMatched d o.price_ q o1.IsFilled)
      (X ++ (if o1.IsFilled then [] else [o1]) ++ Y) := by
  unfold OnOrderMatched
  by_cases hf : o1.IsFilled = true
  · have hz : o1.remainingQuantity = 0 := by simpa [Order.IsFilled] using hf
    have hqe : q = o.remainingQuantity := by
      rw [hr1] at hz
      unfold Quantity at *
      omega
    simp only [hf, if_true, List.append_nil]
    have := h.remove
    unfold OnOrderCancelled at this
    rw [hqe]; exact this
  · simp only [hf, Bool.false_eq_true, if_false]
    apply h.update
    · intro p
      rw [List.append_assoc, List.singleton_append, countAt_middle, countAt_middle, hp1]
      simp [Action.countDelta]
    · intro p
      rw [List.append_assoc, List.singleton_append, quantityAt_middle, quantityAt_middle,
        hp1, hr1]
      by_cases hp : p = o.price_
      · simp only [hp, if_true, Action.quantityDelta]
        simp only [reduceCtorEq, or_true, if_true]
        unfold Quantity at *
        omega
      · simp [hp]

/-! ### `CanFullyFill` as a sum -/

theorem rangeSum_nil (ok : Price → Bool) : rangeSum ok [] = 0 := rfl

theorem rangeSum_cons (ok : Price → Bool) (e : Price × LevelData) (d : LevelMap) :
    rangeSum ok (e :: d) = (if ok e.1 then e.2.quantity_ else 0) + rangeSum ok d := by
  unfold rangeSum
  by_cases h : ok e.1 = true
  · simp [List.filter_cons, h]
  · simp [List.filter_cons, h]

theorem rangeSum_nonneg (ok : Price → Bool) (d : LevelMap)
    (h : ∀ e ∈ d, ok e.1 = true → 0 ≤ e.2.quantity_) : 0 ≤ rangeSum ok d := by
  induction d with
  | nil => simp [rangeSum_nil]
  | cons e t ih =>
    rw [rangeSum_cons]
    have h1 := ih (fun x hx => h x (List.mem_cons_of_mem _ hx))
    by_cases he : ok e.1 = true
    · have := h e (List.mem_cons_self _ _) he
      simp only [he, if_true]
      omega
    · simp only [he, Bool.false_eq_true, if_false]
      omega

theorem rangeSum_zero (ok : Price → Bool) (d : LevelMap)
    (h : ∀ e ∈ d, ok e.1 = false) : rangeSum ok d = 0 := by
  induction d with
  | nil => simp [rangeSum_nil]
  | cons e t ih =>
    rw [rangeSum_cons, h e (List.mem_cons_self _ _),
      ih (fun x hx => h x (List.mem_cons_of_mem _ hx))]
    simp

/-- The loop of `CanFullyFill` succeeds exactly when some entry is in range and
the entries in range add up to the quantity asked for, whatever the order of
the entries, provided no entry in range is negative. -/
theorem canFullyFillLoop_iff (side : Side) (t price : Price) :
    ∀ (d : LevelMap) (n : Int),
      (∀ e ∈ d, inRange side t price e.1 = true → 0 ≤ e.2.quantity_) →
      (canFullyFillLoop side t price d n = true ↔
        (∃ e ∈ d, inRange side t price e.1 = true) ∧ n ≤ rangeSum (inRange side t price) d) := by
  intro d
  induction d with
  | nil => intro n _; simp [canFullyFillLoop]
  | cons e rest ih =>
    intro n hnn
    obtain ⟨lp, ld⟩ := e
    have hnn2 : ∀ e ∈ rest, inRange side t price e.1 = true → 0 ≤ e.2.quantity_ :=
      fun x hx => hnn x (List.mem_cons_of_mem _ hx)
    have hsum := rangeSum_nonneg (inRange side t price) rest hnn2
    rw [rangeSum_cons]
    by_cases hin : inRange side t price lp = true
    · have hq := hnn (lp, ld) (List.mem_cons_self _ _) hin
      simp only at hq
      have hc : canFullyFillLoop side t price ((lp, ld) :: rest) n =
          if n ≤ ld.quantity_ then true
          else canFullyFillLoop side t price rest (n - ld.quantity_) := by
        unfold inRange at hin
        simp only [Bool.and_eq_true, Bool.not_eq_true'] at hin
        rw [canFullyFillLoop]
        simp only [hin.1, hin.2, Bool.false_eq_true, if_false]
      rw [hc]
      simp only [hin, if_true]
      by_cases hle : n ≤ ld.quantity_
      · simp only [hle, if_true, true_iff]
        exact ⟨⟨(lp, ld), List.mem_cons_self _ _, hin⟩, by omega⟩
      · simp only [hle, if_false]
        rw [ih (n - ld.quantity_) hnn2]
        constructor
        · rintro ⟨⟨x, hx, hxin⟩, hs⟩
          exact ⟨⟨x, List.mem_cons_of_mem _ hx, hxin⟩, by omega⟩
        · rintro ⟨_, hs⟩
          refine ⟨?_, by omega⟩
          by_contra hno
          have hz : rangeSum (inRange side t price) rest = 0 := by
            apply rangeSum_zero
            intro x hx
            by_contra hxin
            exact hno ⟨x, hx, by simpa using hxin⟩
          omega
    · have hin2 : inRange side t price lp = false := by simpa using hin
      have hc : canFullyFillLoop side t price ((lp, ld) :: rest) n =
          canFullyFillLoop side t price rest n := by
        unfold inRange at hin2
        rw [canFullyFillLoop]
        by_cases h1 : ((true && (decide (side = Side.Buy) && decide (t > lp))) ||
            (decide (side = Side.Sell) && decide (t < lp))) = true
        · simp only [h1, if_true]
        · simp only [h1, Bool.false_eq_true, if_false]
          have h1b : ((true && (decide (side = Side.Buy) && decide (t > lp))) ||
            (decide (side = Side.Sell) && decide (t < lp))) = false := by simpa using h1
          rw [h1b] at hin2
          simp only [Bool.not_false, Bool.true_and, Bool.not_eq_false'] at hin2
          simp only [hin2, if_true]
      rw [hc, ih n hnn2]
      simp only [hin2, Bool.false_eq_true, if_false, zero_add]
      constructor
      · rintro ⟨⟨x, hx, hxin⟩, hs⟩
        exact ⟨⟨x, List.mem_cons_of_mem _ hx, hxin⟩, hs⟩
      · rintro ⟨⟨x, hx, hxin⟩, hs⟩
        rcases List.mem_cons.1 hx with rfl | hx
        · simp only at hxin
          rw [hin2] at hxin; cases hxin
        · exact ⟨⟨x, hx, hxin⟩, hs⟩

theorem Represents.entry {d : LevelMap} {os : List Order} (h : Represents d os)
    (e : Price × LevelData) (he : e ∈ d) :
    e.2.quantity_ = quantityAt e.1 os ∧ e.2.count_ = countAt e.1 os ∧ countAt e.1 os ≠ 0 := by
  have hget : levelGet d e.1 = some e.2 := by
    have hnd := h.1
    clear h
    induction d with
    | nil => simp at he
    | cons a t ih =>
      obtain ⟨k, v⟩ := a
      simp only [List.map_cons, List.nodup_cons] at hnd
      rcases List.mem_cons.1 he with rfl | he
      · simp [levelGet]
      · have hne : k ≠ e.1 := by
          intro hk
          apply hnd.1
          rw [hk]
          exact List.mem_map_of_mem _ he
        simp only [levelGet, hne, if_false]
        exact ih he hnd.2
  rw [h.2 e.1] at hget
  unfold aggregate at hget
  split at hget
  · cases hget
  · rename_i hz
    simp only [Option.some.injEq] at hget
    rw [← hget]
    exact ⟨rfl, rfl, hz⟩

theorem Represents.key_of_mem {d : LevelMap} {os : List Order} (h : Represents d os)
    (o : Order) (ho : o ∈ os) : o.price_ ∈ d.map Prod.fst := by
  rw [mem_keys_iff, h.2 o.price_]
  unfold aggregate
  have : countAt o.price_ os ≠ 0 := by
    unfold countAt
    have hm : o ∈ os.filter (fun x => decide (x.price_ = o.price_)) := by
      simp [List.mem_filter, ho]
    have := List.length_pos_of_mem hm
    omega
  simp [this]

theorem indicator_sum (K : List Price) (hnd : K.Nodup) (p : Price) (c : Int) :
    (K.map (fun k => if p = k then c else 0)).sum = if p ∈ K then c else 0 := by
  induction K with
  | nil => simp
  | cons k t ih =>
    simp only [List.nodup_cons] at hnd
    simp only [List.map_cons, List.sum_cons, ih hnd.2, List.mem_cons]
    by_cases hpk : p = k
    · subst hpk
      simp [hnd.1]
    · simp [hpk]

theorem quantityAt_cons (k : Price) (o : Order) (os : List Order) :
    quantityAt k (o :: os) =
      (if o.price_ = k then (o.remainingQuantity : Int) else 0) + quantityAt k os := by
  unfold quantityAt
  by_cases h : o.price_ = k
  · simp [List.filter_cons, h]
  · simp [List.filter_cons, h]

theorem sum_quantityAt (K : List Price) (hnd : K.Nodup) :
    ∀ os : List Order,
      (K.map (fun k => quantityAt k os)).sum =
        ((os.filter (fun o => decide (o.price_ ∈ K))).map
          (fun o => (o.remainingQuantity : Int))).sum := by
  intro os
  induction os with
  | nil =>
    simp only [List.filter_nil, List.map_nil, List.sum_nil]
    have : (fun k => quantityAt k []) = fun _ : Price => (0 : Int) := by
      funext k; rfl
    rw [this]
    simp
  | cons o t ih =>
    have e : (fun k => quantityAt k (o :: t)) =
        fun k => (if o.price_ = k then (o.remainingQuantity : Int) else 0) + quantityAt k t := by
      funext k; exact quantityAt_cons k o t
    rw [e, List.sum_map_add, ih, indicator_sum K hnd]
    by_cases hm : o.price_ ∈ K
    · simp [List.filter_cons, hm]
    · simp [List.filter_cons, hm]

/-- The aggregated quantities over the prices that pass `ok` add up to the
remaining quantity of the orders at those prices. -/
theorem Represents.rangeSum_eq {d : LevelMap} {os : List Order} (h : Represents d os)
    (ok : Price → Bool) : rangeSum ok d = (available ok os : Int) := by
  have hK : ((d.map Prod.fst).filter ok).Nodup := List.Nodup.filter _ h.1
  have h1 : rangeSum ok d = (((d.map Prod.fst).filter ok).map (fun k => quantityAt k os)).sum := by
    unfold rangeSum
    rw [List.filter_map, List.map_map]
    congr 1
    apply List.map_congr_left
    intro e he
    exact (h.entry e (List.mem_of_mem_filter he)).1
  rw [h1, sum_quantityAt _ hK]
  unfold available
  rw [Nat.cast_list_sum, List.map_map]
  congr 1
  have : os.filter (fun o => decide (o.price_ ∈ (d.map Prod.fst).filter ok)) =
      os.filter (fun o => ok o.price_) := by
    apply List.filter_congr
    intro o ho
    have := h.key_of_mem o ho
    simp only [List.mem_filter, this, true_and]
    by_cases hok : ok o.price_ = true <;> simp [hok]
  rw [this]
  rfl

/-! ### The aggregate through the operations -/

theorem insertOrder_data (b : OrderBook) (o : Order) (hd : b.DataWF) (hf : o.Fresh) :
    (insertOrder b o).DataWF := by
  obtain ⟨X, Y, h1, h2⟩ := insertOrder_resting b o
  unfold OrderBook.DataWF at hd ⊢
  rw [h2]
  rw [h1] at hd
  exact hd.add o hf

theorem cancel_data (b : OrderBook) (orderId : OrderId) (b1 : OrderBook) (hc : b.Consistent)
    (hd : b.DataWF) (h : CancelOrderInternal b orderId = some b1) : b1.DataWF := by
  obtain ⟨b2, h2, _, _, _, hcase⟩ := cancel_ok b orderId hc
  rw [h] at h2
  cases h2
  rcases hcase with ⟨_, rfl⟩ | ⟨_, X, o, Y, _, _, hr, hr1, _, hdata, _⟩
  · exact hd
  · unfold OrderBook.DataWF at hd ⊢
    rw [hr1, hdata]
    rw [hr] at hd
    exact hd.remove

theorem bookAfterFill_data (b : OrderBook) (bp : Price) (bid : Order) (bt : List Order)
    (br : Ladder) (ap : Price) (ask : Order) (at1 : List Order) (ar : Ladder)
    (hb : b.bids_ = (bp, bid :: bt) :: br) (ha : b.asks_ = (ap, ask :: at1) :: ar)
    (hd : b.DataWF) : (bookAfterFill b bp bid bt br ap ask at1 ar).DataWF := by
  unfold OrderBook.DataWF at hd ⊢
  have hrest : b.resting =
      [] ++ bid :: ((bt ++ ladderOrders br) ++ ask :: (at1 ++ ladderOrders ar)) := by
    simp [OrderBook.resting, hb, ha]
  rw [hrest] at hd
  have h1 := @Represents.matched _ _ _ _ (filledBid bid ask) hd (matchQuantity bid ask)
    (min_le_left _ _) rfl rfl
  have e1 : [] ++ (if (filledBid bid ask).IsFilled = true then [] else [filledBid bid ask]) ++
      ((bt ++ ladderOrders br) ++ ask :: (at1 ++ ladderOrders ar)) =
      ((if (filledBid bid ask).IsFilled = true then [] else [filledBid bid ask]) ++
        (bt ++ ladderOrders br)) ++ ask :: (at1 ++ ladderOrders ar) := by
    simp
  rw [e1] at h1
  have h2 := @Represents.matched _ _ _ _ (filledAsk bid ask) h1 (matchQuantity bid ask)
    (min_le_right _ _) rfl rfl
  have e2 : (bookAfterFill b bp bid bt br ap ask at1 ar).resting =
      ((if (filledBid bid ask).IsFilled = true then [] else [filledBid bid ask]) ++
        (bt ++ ladderOrders br)) ++
      (if (filledAsk bid ask).IsFilled = true then [] else [filledAsk bid ask]) ++
      (at1 ++ ladderOrders ar) := by
    simp [OrderBook.resting, bookAfterFill, ladderOrders_frontAfterFill]
  rw [e2]
  exact h2

theorem matchLoop_data : ∀ (fuel : Nat) (b : OrderBook) (ts ts1 : Trades) (b1 : OrderBook),
    b.Consistent → b.DataWF → matchLoop fuel b ts = some (ts1, b1) → b1.DataWF := by
  intro fuel
  induction fuel with
  | zero => intro b ts ts1 b1 _ _ h; simp [matchLoop] at h
  | succ n ih =>
    intro b ts ts1 b1 hc hd hm
    cases hb : b.bids_ with
    | nil =>
      rw [matchLoop_exit_bids n b ts hb] at hm
      cases hm; exact hd
    | cons e br =>
      cases ha : b.asks_ with
      | nil =>
        rw [matchLoop_exit_asks n b ts ha] at hm
        cases hm; exact hd
      | cons f ar =>
        obtain ⟨bp, bq⟩ := e
        obtain ⟨ap, aq⟩ := f
        by_cases hx : bp < ap
        · rw [matchLoop_exit_lt n b ts bp bq br ap aq ar hb ha hx] at hm
          cases hm; exact hd
        · have hbne := (hc.1.2 (bp, bq) (by rw [hb]; exact List.mem_cons_self _ _)).1
          have hane := (hc.2.1.2 (ap, aq) (by rw [ha]; exact List.mem_cons_self _ _)).1
          cases bq with
          | nil => exact absurd rfl hbne
          | cons bid bt =>
            cases aq with
            | nil => exact absurd rfl hane
            | cons ask at1 =>
              rw [matchLoop_cross n b ts bp bid bt br ap ask at1 ar hb ha hx] at hm
              exact ih _ _ _ _
                (bookAfterFill_consistent b bp bid bt br ap ask at1 ar hb ha hc).1
                (bookAfterFill_data b bp bid bt br ap ask at1 ar hb ha hd) hm

theorem cancelFront_data (b : OrderBook) (l : Ladder) (t : OrderType) (b1 : OrderBook)
    (hc : b.Consistent) (hd : b.DataWF) (h : cancelFront b l t = some b1) : b1.DataWF := by
  cases l with
  | nil => simp [cancelFront] at h; rw [← h]; exact hd
  | cons e rest =>
    obtain ⟨k, q⟩ := e
    cases q with
    | nil => simp [cancelFront] at h
    | cons o q =>
      by_cases ht : o.orderType_ = t
      · simp only [cancelFront, ht, if_true, CancelOrder] at h
        exact cancel_data b _ b1 hc hd h
      · simp only [cancelFront, ht, if_false, Option.some.injEq] at h
        rw [← h]; exact hd

theorem available_append (ok : Price → Bool) (xs ys : List Order) :
    available ok (xs ++ ys) = available ok xs + available ok ys := by
  unfold available
  simp [List.filter_append]

theorem available_congr (ok ok2 : Price → Bool) (os : List Order)
    (h : ∀ o ∈ os, ok o.price_ = ok2 o.price_) : available ok os = available ok2 os := by
  unfold available
  congr 1
  congr 1
  apply List.filter_congr
  intro o ho
  exact h o ho

theorem Represents.nonneg {d : LevelMap} {os : List Order} (h : Represents d os) :
    ∀ e ∈ d, 0 ≤ e.2.quantity_ := by
  intro e he
  rw [(h.entry e he).1]
  exact quantityAt_nonneg _ _

/-- On a sound book a successful `CanFullyFill` for a buy means that the asks at
or below the limit price hold at least the quantity asked for. -/
theorem canFullyFill_buy (b : OrderBook) (hc : b.Consistent) (hu : b.Uncrossed)
    (hd : b.DataWF) (P : Price) (N : Quantity)
    (h : CanFullyFill b Side.Buy P N = true) :
    CanMatch b Side.Buy P = true ∧
      N ≤ available (fun p => decide (p ≤ P)) (ladderOrders b.asks_) := by
  unfold CanFullyFill at h
  by_cases hcm : CanMatch b Side.Buy P = true
  · refine ⟨hcm, ?_⟩
    simp only [hcm, Bool.not_true, Bool.false_eq_true, if_false, if_true] at h
    obtain ⟨f, hf, _⟩ := (canMatch_buy b P).1 hcm
    have hhead : b.asks_.head? = some f := hf
    simp only [hhead, Option.map_some'] at h
    have hloop := (canFullyFillLoop_iff Side.Buy f.1 P b.data_ (N : Int)
      (fun e he _ => hd.nonneg e he)).1 h
    have hsum := hloop.2
    rw [hd.rangeSum_eq, OrderBook.resting, available_append] at hsum
    have hbz : available (inRange Side.Buy f.1 P) (ladderOrders b.bids_) = 0 := by
      apply available_zero
      intro o ho
      obtain ⟨_, e, he, hep, _⟩ := hc.1.price_of_mem ho
      have := hu e he f (List.mem_of_mem_head? hf)
      rw [hep] at this
      simp [inRange, this]
    have haz : available (inRange Side.Buy f.1 P) (ladderOrders b.asks_) =
        available (fun p => decide (p ≤ P)) (ladderOrders b.asks_) := by
      apply available_congr
      intro o ho
      obtain ⟨_, e, he, hep, _⟩ := hc.2.1.price_of_mem ho
      have := asks_above_front hc hf e he
      rw [hep] at this
      have h1 : ¬ f.1 > o.price_ := not_lt.2 this
      by_cases h2 : o.price_ ≤ P
      · have h3 : ¬ P < o.price_ := not_lt.2 h2
        simp [inRange, h1, h2, h3]
      · have h3 : P < o.price_ := not_le.1 h2
        simp [inRange, h1, h2, h3]
    rw [hbz, haz, Nat.zero_add] at hsum
    exact_mod_cast hsum
  · simp [hcm] at h

/-- On a sound book a successful `CanFullyFill` for a sell means that the bids at
or above the limit price hold at least the quantity asked for. -/
theorem canFullyFill_sell (b : OrderBook) (hc : b.Consistent) (hu : b.Uncrossed)
    (hd : b.DataWF) (P : Price) (N : Quantity)
    (h : CanFullyFill b Side.Sell P N = true) :
    CanMatch b Side.Sell P = true ∧
      N ≤ available (fun p => decide (P ≤ p)) (ladderOrders b.bids_) := by
  unfold CanFullyFill at h
  by_cases hcm : CanMatch b Side.Sell P = true
  · refine ⟨hcm, ?_⟩
    simp only [hcm, Bool.not_true, Bool.false_eq_true, if_false, reduceCtorEq] at h
    obtain ⟨f, hf, _⟩ := (canMatch_sell b P).1 hcm
    have hhead : b.bids_.head? = some f := hf
    simp only [hhead, Option.map_some'] at h
    have hloop := (canFullyFillLoop_iff Side.Sell f.1 P b.data_ (N : Int)
      (fun e he _ => hd.nonneg e he)).1 h
    have hsum := hloop.2
    rw [hd.rangeSum_eq, OrderBook.resting, available_append] at hsum
    have haz : available (inRange Side.Sell f.1 P) (ladderOrders b.asks_) = 0 := by
      apply available_zero
      intro o ho
      obtain ⟨_, e, he, hep, _⟩ := hc.2.1.price_of_mem ho
      have := hu f (List.mem_of_mem_head? hf) e he
      rw [hep] at this
      simp [inRange, this]
    have hbz : available (inRange Side.Sell f.1 P) (ladderOrders b.bids_) =
        available (fun p => decide (P ≤ p)) (ladderOrders b.bids_) := by
      apply available_congr
      intro o ho
      obtain ⟨_, e, he, hep, _⟩ := hc.1.price_of_mem ho
      have := bids_below_front hc hf e he
      rw [hep] at this
      have h1 : ¬ f.1 < o.price_ := not_lt.2 this
      by_cases h2 : P ≤ o.price_
      · have h3 : ¬ o.price_ < P := not_lt.2 h2
        simp [inRange, h1, h2, h3]
      · have h3 : o.price_ < P := not_le.1 h2
        simp [inRange, h1, h2, h3]
    rw [hbz, haz, Nat.add_zero] at hsum
    exact_mod_cast hsum
  · simp [hcm] at h

/-! ### The invariant of the reachable books -/

theorem noFOK_of_from {l l1 : Ladder} (h : ∀ o ∈ ladderOrders l, o.orderType_ ≠ OrderType.FillOrKill)
    (hf : LadderFrom l l1) : ∀ o ∈ ladderOrders l1, o.orderType_ ≠ OrderType.FillOrKill := by
  intro o ho
  obtain ⟨o0, ho0, ht⟩ := hf.1 o ho
  rw [ht.1]
  exact h o0 ho0

theorem sound_of_from {b b1 : OrderBook} (hs : b.Sound) (hc1 : b1.Consistent)
    (hd1 : b1.DataWF) (hB : LadderFrom b.bids_ b1.bids_) (hA : LadderFrom b.asks_ b1.asks_) :
    b1.Sound := by
  refine ⟨hc1, uncrossed_of_from hs.2.1 hB hA, hd1, ?_⟩
  intro o ho
  rcases List.mem_append.1 ho with ho | ho
  · exact noFOK_of_from (fun x hx => hs.2.2.2 x (List.mem_append_left _ hx)) hB o ho
  · exact noFOK_of_from (fun x hx => hs.2.2.2 x (List.mem_append_right _ hx)) hA o ho

theorem empty_sound : OrderBook.empty.Sound := by
  refine ⟨empty_consistent, empty_uncrossed, ⟨by simp [OrderBook.empty], ?_⟩, ?_⟩
  · intro p
    simp [OrderBook.empty, OrderBook.resting, levelGet, aggregate, countAt]
  · intro o ho
    simp [OrderBook.empty, OrderBook.resting] at ho

theorem cancel_sound (b : OrderBook) (orderId : OrderId) (hs : b.Sound) :
    ∃ b1, CancelOrder b orderId = some b1 ∧ b1.Sound := by
  obtain ⟨b1, h1, c1, fb, fa, _⟩ := cancel_ok b orderId hs.1
  exact ⟨b1, h1, sound_of_from hs c1 (cancel_data b orderId b1 hs.1 hs.2.2.1 h1) fb fa⟩

theorem cancelOrders_sound : ∀ (orderIds : List OrderId) (b : OrderBook), b.Sound →
    ∃ b1, CancelOrders b orderIds = some b1 ∧ b1.Sound := by
  intro orderIds
  induction orderIds with
  | nil => intro b hs; exact ⟨b, rfl, hs⟩
  | cons i t ih =>
    intro b hs
    obtain ⟨b1, h1, s1⟩ := cancel_sound b i hs
    obtain ⟨b2, h2, s2⟩ := ih b1 s1
    have h1b : CancelOrderInternal b i = some b1 := h1
    exact ⟨b2, by simp [CancelOrders, h1b, h2], s2⟩

/-- `AddOrder` of a fresh order on a sound book returns a sound book; a
fill-or-kill order that is admitted is filled in full and does not stay, and an
order that is not admitted leaves no trade and the book unchanged. -/
theorem add_sound (b : OrderBook) (o : Order) (hs : b.Sound) (hf : o.Fresh) :
    ∃ ts b1, AddOrder b o = some (ts, b1) ∧ b1.Sound ∧
      (∀ o1, b.Admits o o1 → o1.orderType_ = OrderType.FillOrKill →
        tradedQuantity ts = o.initialQuantity ∧ ts ≠ [] ∧
          containsOrder b1.orders_ o.orderId_ = false) ∧
      ((∀ o1, ¬ b.Admits o o1) → ts = [] ∧ b1 = b) := by
  obtain ⟨hc, hu, hd, hnf⟩ := hs
  rcases AddOrder_cases b o with ⟨h, hno⟩ | ⟨o1, ha, _⟩
  · exact ⟨[], b, h, ⟨hc, hu, hd, hnf⟩, fun o1 ha => absurd ha (hno o1),
      fun _ => ⟨rfl, rfl⟩⟩
  · obtain ⟨hid, hside, hinit, hrem, _, _, _⟩ := marketRetag_goesOn b o o1 ha.2.1
    have hf1 : o1.Fresh := by
      unfold Order.Fresh at hf ⊢
      rw [hrem, hinit, hf]
    have hfresh := Admits.id_fresh ha
    obtain ⟨tn, b2, b3, b4, ⟨hm2, hm3, hm4⟩, hadd, c2, c3, c4, u4, fb2, fa2, fb3, fa3, fb4,
      fa4, hsw⟩ := add_admitted b o o1 hc hu ha
    have hci := insertOrder_consistent b o1 hc hfresh
    have d2 : b2.DataWF := matchLoop_data _ _ _ _ _ hci (insertOrder_data b o1 hd hf1) hm2
    have d3 : b3.DataWF := cancelFront_data b2 _ _ b3 c2 d2 hm3
    have d4 : b4.DataWF := cancelFront_data b3 _ _ b4 c3 d3 hm4
    have admit_unique : ∀ o2, b.Admits o o2 → o2 = o1 := by
      intro o2 ha2
      have h1 := ha2.2.1
      rw [ha.2.1] at h1
      cases h1; rfl
    by_cases hfok : o1.orderType_ = OrderType.FillOrKill
    · -- an admitted fill-or-kill order is filled in full
      have hcff := ha.2.2.2 hfok
      have key : tradedQuantity tn = o1.remainingQuantity ∧ tn ≠ [] ∧
          LadderFrom b.bids_ b2.bids_ ∧ LadderFrom b.asks_ b2.asks_ := by
        cases hs1 : o1.side_ with
        | Buy =>
          rw [hs1] at hcff
          obtain ⟨hcm, hav⟩ := canFullyFill_buy b hc hu hd _ _ hcff
          obtain ⟨hia, hib⟩ := insertOrder_buy b o1 hs1
          rcases hsw with ⟨hno, _⟩ | ⟨_, hsw⟩
          · rw [hs1, hcm] at hno; cases hno
          · simp only [Swept, hs1, if_true] at hsw
            obtain ⟨_, _, _, hne, hcase⟩ := hsw
            obtain ⟨f, hfm, hfle⟩ := (canMatch_buy b o1.price_).1 hcm
            have htn := hne f hfm hfle
            rcases hcase with ⟨hb2, htq, _⟩ | ⟨x1, _, _, _, hlt, _, hav2, _⟩
            · exact ⟨htq, htn, by rw [hb2]; exact LadderFrom.same _, by rw [← hia]; exact fa2⟩
            · exfalso
              have := hlt htn
              rw [hav2] at this
              unfold Order.Fresh at hf1
              rw [hf1] at this
              exact absurd hav (not_le.2 this)
        | Sell =>
          rw [hs1] at hcff
          obtain ⟨hcm, hav⟩ := canFullyFill_sell b hc hu hd _ _ hcff
          obtain ⟨hib, hia⟩ := insertOrder_sell b o1 hs1
          rcases hsw with ⟨hno, _⟩ | ⟨_, hsw⟩
          · rw [hs1, hcm] at hno; cases hno
          · simp only [Swept, hs1, reduceCtorEq, if_false] at hsw
            obtain ⟨_, _, _, hne, hcase⟩ := hsw
            obtain ⟨f, hfm, hfle⟩ := (canMatch_sell b o1.price_).1 hcm
            have htn := hne f hfm hfle
            rcases hcase with ⟨ha2, htq, _⟩ | ⟨x1, _, _, _, hlt, _, hav2, _⟩
            · exact ⟨htq, htn, by rw [← hib]; exact fb2, by rw [ha2]; exact LadderFrom.same _⟩
            · exfalso
              have := hlt htn
              rw [hav2] at this
              unfold Order.Fresh at hf1
              rw [hf1] at this
              exact absurd hav (not_le.2 this)
      obtain ⟨htq, htn, hB2, hA2⟩ := key
      have hB4 := (hB2.next fb3).next fb4
      have hA4 := (hA2.next fa3).next fa4
      refine ⟨tn, b4, hadd, sound_of_from ⟨hc, hu, hd, hnf⟩ c4 d4 hB4 hA4, ?_, ?_⟩
      · intro o2 _ _
        refine ⟨?_, htn, ?_⟩
        · rw [htq, hrem]; exact hf
        · rw [← hid]
          exact not_live_of_from hc c4 o1.orderId_ hfresh hB4 hA4
      · intro hno; exact absurd ha (hno o1)
    · -- any other order: the orders of the new book are the old ones and `o1`
      obtain ⟨X, Y, hr, hr1⟩ := insertOrder_resting b o1
      have hnfi : ∀ r ∈ (insertOrder b o1).resting, r.orderType_ ≠ OrderType.FillOrKill := by
        intro r hr2
        rw [hr1] at hr2
        rcases List.mem_append.1 hr2 with hx | hx
        · exact hnf r (by rw [hr]; exact List.mem_append_left _ hx)
        · rcases List.mem_cons.1 hx with rfl | hy
          · exact hfok
          · exact hnf r (by rw [hr]; exact List.mem_append_right _ hy)
      refine ⟨tn, b4, hadd, ⟨c4, u4, d4, ?_⟩, ?_, ?_⟩
      · intro r hr4
        rcases List.mem_append.1 hr4 with h4 | h4
        · exact noFOK_of_from (fun x hx => hnfi x (List.mem_append_left _ hx))
            ((fb2.next fb3).next fb4) r h4
        · exact noFOK_of_from (fun x hx => hnfi x (List.mem_append_right _ hx))
            ((fa2.next fa3).next fa4) r h4
      · intro o2 ha2 hfok2
        rw [admit_unique o2 ha2] at hfok2
        exact absurd hfok2 hfok
      · intro hno; exact absurd ha (hno o1)

theorem modify_sound (b : OrderBook) (m : OrderModify) (hs : b.Sound) :
    ∃ ts b1, ModifyOrder b m = some (ts, b1) ∧ b1.Sound := by
  by_cases hc : containsOrder b.orders_ m.orderId_ = true
  · obtain ⟨o, hmem⟩ := (containsOrder_iff _ _).1 hc
    have hfind := findOrder_of_mem _ _ _ hs.1.keys_nodup hmem
    obtain ⟨b1, h1, s1⟩ := cancel_sound b m.orderId_ hs
    obtain ⟨ts, b2, h2, s2, _⟩ := add_sound b1 (m.ToOrderPointer o.orderType_) s1 rfl
    exact ⟨ts, b2, by simp [ModifyOrder, hc, hfind, h1, h2], s2⟩
  · have hc2 : containsOrder b.orders_ m.orderId_ = false := by simpa using hc
    exact ⟨[], b, by simp [ModifyOrder, hc2], hs⟩

/-- Every book reachable with fresh orders is sound. -/
theorem reachable_sound (b : OrderBook) (h : Reachable b) : b.Sound := by
  induction h with
  | empty => exact empty_sound
  | add b o ts b1 _ hf hadd ih =>
    obtain ⟨ts2, b2, h2, s2, _⟩ := add_sound b o ih hf
    rw [hadd] at h2
    cases h2
    exact s2
  | cancel b i b1 _ hcan ih =>
    obtain ⟨b2, h2, s2⟩ := cancel_sound b i ih
    rw [hcan] at h2
    cases h2
    exact s2
  | cancelMany b is b1 _ hcan ih =>
    obtain ⟨b2, h2, s2⟩ := cancelOrders_sound is b ih
    rw [hcan] at h2
    cases h2
    exact s2
  | modify b m ts b1 _ hmod ih =>
    obtain ⟨ts2, b2, h2, s2⟩ := modify_sound b m ih
    rw [hmod] at h2
    cases h2
    exact s2

/-! ### Fill-or-kill -/

theorem own_legs (b : OrderBook) (o : Order) (hc : b.Consistent) (hu : b.Uncrossed) :
    ∃ ts b1, AddOrder b o = some (ts, b1) ∧
      (∀ t ∈ ts, (ownLeg o.side_ t).orderId_ = o.orderId_) ∧
      (ts.map (fun t => (ownLeg o.side_ t).quantity_)).sum = tradedQuantity ts := by
  obtain ⟨ts, b1, hadd, hts⟩ := AddOrder_trades b o hc hu
  refine ⟨ts, b1, hadd, ?_⟩
  rcases hts with rfl | ⟨o1, b2, ha, hsw⟩
  · simp [tradedQuantity]
  · obtain ⟨hid, hside, _⟩ := marketRetag_goesOn b o o1 ha.2.1
    unfold Swept at hsw
    cases hs : o.side_ with
    | Buy =>
      rw [hside, hs] at hsw
      simp only [if_true] at hsw
      exact ⟨fun t ht => by simp only [ownLeg, if_true]; rw [(hsw.1 t ht).1, hid],
        ownLeg_sum Side.Buy ts (fun t ht => (hsw.1 t ht).2.2.1)⟩
    | Sell =>
      rw [hside, hs] at hsw
      simp only [reduceCtorEq, if_false] at hsw
      exact ⟨fun t ht => by
          simp only [ownLeg, reduceCtorEq, if_false]; rw [(hsw.1 t ht).1, hid],
        ownLeg_sum Side.Sell ts (fun t ht => (hsw.1 t ht).2.2.1)⟩


/-- C3: on every reachable book, for every fill-or-kill order with a fresh id:
when `CanFullyFill(side, price, initialQuantity)` holds, `AddOrder` fills the
order in full in that call, the quantities of the returned trades summing to
its initial quantity, and the order is not live afterwards; when it does not
hold, the order is rejected with no trades and an unchanged book.  No
fill-or-kill order rests in the book before or after the call. -/
theorem fill_or_kill_all_or_nothing (b : OrderBook) (o : Order) (h : Reachable b)
    (hf : o.Fresh) (ht : o.orderType_ = OrderType.FillOrKill)
    (hid : containsOrder b.orders_ o.orderId_ = false) :
    ∃ ts b1, AddOrder b o = some (ts, b1) ∧
      (CanFullyFill b o.side_ o.price_ o.initialQuantity = true →
        tradedQuantity ts = o.initialQuantity ∧
        (ts.map (fun t => (ownLeg o.side_ t).quantity_)).sum = o.initialQuantity ∧
        (∀ t ∈ ts, (ownLeg o.side_ t).orderId_ = o.orderId_) ∧
        containsOrder b1.orders_ o.orderId_ = false) ∧
      (CanFullyFill b o.side_ o.price_ o.initialQuantity = false → ts = [] ∧ b1 = b) ∧
      (∀ r ∈ ladderOrders b.bids_ ++ ladderOrders b.asks_,
        r.orderType_ ≠ OrderType.FillOrKill) ∧
      (∀ r ∈ ladderOrders b1.bids_ ++ ladderOrders b1.asks_,
        r.orderType_ ≠ OrderType.FillOrKill) := by
  have hs := reachable_sound b h
  have hnm : o.orderType_ ≠ OrderType.Market := by rw [ht]; decide
  have hretag := marketRetag_of_not_market b o hnm
  obtain ⟨ts, b1, hadd, s1, hfok, hrej⟩ := add_sound b o hs hf
  refine ⟨ts, b1, hadd, ?_, ?_, hs.2.2.2, s1.2.2.2⟩
  · intro hcff
    have ha : b.Admits o o := by
      refine ⟨hid, hretag, ?_, fun _ => hcff⟩
      intro h2
      rw [ht] at h2
      cases h2
    obtain ⟨h1, _, h3⟩ := hfok o ha ht
    obtain ⟨ts2, b2, hadd2, hown⟩ := own_legs b o hs.1 hs.2.1
    rw [hadd] at hadd2
    simp only [Option.some.injEq, Prod.mk.injEq] at hadd2
    obtain ⟨rfl, rfl⟩ := hadd2
    exact ⟨h1, by rw [hown.2, h1], hown.1, h3⟩
  · intro hcff
    apply hrej
    rintro o1 ⟨_, h2, _, h4⟩
    rw [hretag] at h2
    cases h2
    rw [h4 ht] at hcff
    cases hcff

/-- C3 on the book with asks 4 at 101 and 3 at 102: a fill-or-kill buy id 10 of 5
at 102 can be filled in full and is, by trades of 4 and 1, and does not stay;
at 101 the same order cannot be filled in full. -/
theorem fill_or_kill_all_or_nothing_witness :
    (∃ ts b1, AddOrder bookTwoAsks (Order.new OrderType.FillOrKill 10 Side.Buy 102 5)
        = some (ts, b1) ∧
      (CanFullyFill bookTwoAsks Side.Buy 102 5 = true →
        tradedQuantity ts = 5 ∧
        (ts.map (fun t => (ownLeg Side.Buy t).quantity_)).sum = 5 ∧
        (∀ t ∈ ts, (ownLeg Side.Buy t).orderId_ = 10) ∧
        containsOrder b1.orders_ 10 = false) ∧
      (CanFullyFill bookTwoAsks Side.Buy 102 5 = false → ts = [] ∧ b1 = bookTwoAsks) ∧
      (∀ r ∈ ladderOrders bookTwoAsks.bids_ ++ ladderOrders bookTwoAsks.asks_,
        r.orderType_ ≠ OrderType.FillOrKill) ∧
      (∀ r ∈ ladderOrders b1.bids_ ++ ladderOrders b1.asks_,
        r.orderType_ ≠ OrderType.FillOrKill)) ∧
    CanFullyFill bookTwoAsks Side.Buy 102 5 = true ∧
    AddOrder bookTwoAsks (Order.new OrderType.FillOrKill 10 Side.Buy 102 5)
      = some ([⟨⟨10, 102, 4⟩, ⟨1, 101, 4⟩⟩, ⟨⟨10, 102, 1⟩, ⟨2, 102, 1⟩⟩],
          { orders_ := [(2, ⟨OrderType.GoodTillCancel, 2, Side.Sell, 102, 3, 2⟩)],
            bids_ := [],
            asks_ := [(102, [⟨OrderType.GoodTillCancel, 2, Side.Sell, 102, 3, 2⟩])],
            data_ := [(102, ⟨2, 1⟩)] }) ∧
    CanFullyFill bookTwoAsks Side.Buy 101 5 = false :=
  ⟨fill_or_kill_all_or_nothing bookTwoAsks (Order.new OrderType.FillOrKill 10 Side.Buy 102 5)
      bookTwoAsks_reachable (by decide) rfl (by decide),
    by decide, by decide, by decide⟩

/-! ### The aggregate per price -/

theorem levelOrders_cons (k : Price) (q : List Order) (rest : Ladder) (p : Price) :
    levelOrders ((k, q) :: rest) p = if k = p then q else levelOrders rest p := rfl

theorem levelOrders_mem {r : Price → Price → Prop} {side : Side} (hirr : ∀ a, ¬ r a a) :
    ∀ (l : Ladder), LadderOK r side l → ∀ e ∈ l, levelOrders l e.1 = e.2 := by
  intro l
  induction l with
  | nil => intro _ e he; cases he
  | cons f rest ih =>
    intro hl e he
    obtain ⟨k, q⟩ := f
    rcases List.mem_cons.1 he with rfl | he
    · rw [levelOrders_cons, if_pos rfl]
    · rw [levelOrders_cons, if_neg]
      · exact ih hl.tail e he
      · exact fun hk => LadderOK.key_unique hirr hl e he hk.symm

theorem ladderWithout_nil (keep : Order → Bool) : ladderWithout keep [] = [] := rfl

theorem containsOrder_eraseOrder (os : OrderIndex) (orderId : OrderId) :
    containsOrder (eraseOrder os orderId) orderId = false := by
  rw [containsOrder_false_iff]
  intro o ho
  unfold eraseOrder at ho
  simp at ho
theorem insertOrder_asks_mem (b : OrderBook) (o1 x : Order)
    (hx : x ∈ ladderOrders (insertOrder b o1).asks_) :
    x ∈ ladderOrders b.asks_ ∨ (x = o1 ∧ o1.side_ = Side.Sell) := by
  cases hs : o1.side_ with
  | Buy =>
    rw [(insertOrder_buy b o1 hs).1] at hx
    exact Or.inl hx
  | Sell =>
    rw [(insertOrder_sell b o1 hs).2] at hx
    obtain ⟨X, Y, h1, h2⟩ := ladderPush_orders (fun p k => decide (p < k)) o1.price_ o1 b.asks_
    rw [h2] at hx
    rw [h1]
    rcases List.mem_append.1 hx with hx | hx
    · exact Or.inl (List.mem_append_left _ hx)
    · rcases List.mem_cons.1 hx with rfl | hx
      · exact Or.inr ⟨rfl, rfl⟩
      · exact Or.inl (List.mem_append_right _ hx)

theorem insertOrder_bids_mem (b : OrderBook) (o1 x : Order)
    (hx : x ∈ ladderOrders (insertOrder b o1).bids_) :
    x ∈ ladderOrders b.bids_ ∨ (x = o1 ∧ o1.side_ = Side.Buy) := by
  cases hs : o1.side_ with
  | Sell =>
    rw [(insertOrder_sell b o1 hs).1] at hx
    exact Or.inl hx
  | Buy =>
    rw [(insertOrder_buy b o1 hs).2] at hx
    obtain ⟨X, Y, h1, h2⟩ := ladderPush_orders (fun p k => decide (p > k)) o1.price_ o1 b.bids_
    rw [h2] at hx
    rw [h1]
    rcases List.mem_append.1 hx with hx | hx
    · exact Or.inl (List.mem_append_left _ hx)
    · rcases List.mem_cons.1 hx with rfl | hx
      · exact Or.inr ⟨rfl, rfl⟩
      · exact Or.inl (List.mem_append_right _ hx)

theorem foldl_remaining (os : List Order) (a : Nat) :
    os.foldl (fun runningSum order => runningSum + order.remainingQuantity) a =
      a + (os.map (fun o => o.remainingQuantity)).sum := by
  induction os generalizing a with
  | nil => simp
  | cons o rest ih =>
    rw [List.foldl_cons, ih, List.map_cons, List.sum_cons, Nat.add_assoc]

theorem createLevelInfos_eq (price : Price) (orders : List Order) :
    CreateLevelInfos price orders =
      ⟨price, (orders.map (fun o => o.remainingQuantity)).sum⟩ := by
  unfold CreateLevelInfos
  rw [foldl_remaining, Nat.zero_add]

/-- In a well-formed ladder the orders priced at `k` are those of the FIFO of
the level at `k`. -/
theorem available_level {r : Price → Price → Prop} {side : Side} (hirr : ∀ a, ¬ r a a)
    (k : Price) : ∀ l : Ladder, LadderOK r side l →
      available (fun p => decide (p = k)) (ladderOrders l) =
        ((levelOrders l k).map (fun o => o.remainingQuantity)).sum := by
  intro l
  induction l with
  | nil => intro _; rfl
  | cons e rest ih =>
    intro hl
    obtain ⟨k1, q⟩ := e
    have hq := (hl.2 (k1, q) (List.mem_cons_self _ _)).2
    rw [ladderOrders_cons, available_append, levelOrders_cons]
    by_cases hk : k1 = k
    · rw [if_pos hk, available_all, available_zero, Nat.add_zero]
      · intro o ho
        obtain ⟨_, e, he, hpe, _⟩ := hl.tail.price_of_mem ho
        simp only [decide_eq_false_iff_not]
        intro hop
        exact LadderOK.key_unique hirr hl e he (by rw [hpe, hop, hk])
      · intro o ho
        simp only [decide_eq_true_eq]
        exact (hq o ho).2.trans hk
    · rw [if_neg hk, available_zero, Nat.zero_add, ih hl.tail]
      intro o ho
      simp only [decide_eq_false_iff_not]
      intro hop
      exact hk ((hq o ho).2.symm.trans hop)

theorem infos_of_ladder {r : Price → Price → Prop} {side : Side} (hirr : ∀ a, ¬ r a a)
    (l : Ladder) (hl : LadderOK r side l) :
    (l.map (fun e => CreateLevelInfos e.1 e.2)).map (fun i => i.price_) = l.map Prod.fst ∧
    (l.map (fun e => CreateLevelInfos e.1 e.2)).Pairwise (fun x y => r x.price_ y.price_) ∧
    ∀ i ∈ l.map (fun e => CreateLevelInfos e.1 e.2),
      (∃ q, (i.price_, q) ∈ l ∧ q ≠ [] ∧ i.quantity_ = (q.map (fun o => o.remainingQuantity)).sum) ∧
      i.quantity_ = available (fun p => decide (p = i.price_)) (ladderOrders l) := by
  refine ⟨?_, ?_, ?_⟩
  · rw [List.map_map]
    apply List.map_congr_left
    intro e _
    rfl
  · rw [List.pairwise_map]
    exact hl.1
  · intro i hi
    obtain ⟨e, he, rfl⟩ := List.mem_map.1 hi
    rw [createLevelInfos_eq]
    refine ⟨⟨e.2, he, (hl.2 e he).1, rfl⟩, ?_⟩
    rw [available_level hirr e.1 l hl, levelOrders_mem hirr l hl e he]

/-- C15: on every reachable book `GetOrderInfos` gives one entry per level of
each ladder, in ladder order: the prices of the bid entries are the keys of the
bid ladder and strictly descending, those of the ask entries are the keys of
the ask ladder and strictly ascending.  The quantity of an entry is the sum of
the remaining quantities of the FIFO of its level, which is the sum over all
orders resting at that price on that side. -/
theorem order_infos_per_level (b : OrderBook) (h : ReachableAny b) :
    b.GetOrderInfos.GetBids.map (fun i => i.price_) = b.bids_.map Prod.fst ∧
    b.GetOrderInfos.GetAsks.map (fun i => i.price_) = b.asks_.map Prod.fst ∧
    b.GetOrderInfos.GetBids.length = b.bids_.length ∧
    b.GetOrderInfos.GetAsks.length = b.asks_.length ∧
    b.GetOrderInfos.GetBids.Pairwise (fun x y => x.price_ > y.price_) ∧
    b.GetOrderInfos.GetAsks.Pairwise (fun x y => x.price_ < y.price_) ∧
    (∀ i ∈ b.GetOrderInfos.GetBids,
      (∃ q, (i.price_, q) ∈ b.bids_ ∧ q ≠ [] ∧
        i.quantity_ = (q.map (fun o => o.remainingQuantity)).sum) ∧
      i.quantity_ = available (fun p => decide (p = i.price_)) (ladderOrders b.bids_)) ∧
    (∀ i ∈ b.GetOrderInfos.GetAsks,
      (∃ q, (i.price_, q) ∈ b.asks_ ∧ q ≠ [] ∧
        i.quantity_ = (q.map (fun o => o.remainingQuantity)).sum) ∧
      i.quantity_ = available (fun p => decide (p = i.price_)) (ladderOrders b.asks_)) := by
  obtain ⟨hc, _⟩ := reachableBy_consistent _ b h
  obtain ⟨b1, b2, b3⟩ := infos_of_ladder gt_irrefl_price b.bids_ hc.1
  obtain ⟨a1, a2, a3⟩ := infos_of_ladder lt_irrefl_price b.asks_ hc.2.1
  refine ⟨b1, a1, ?_, ?_, b2, a2, b3, a3⟩
  · simp [OrderBook.GetOrderInfos, OrderBookLevelInfos.GetBids]
  · simp [OrderBook.GetOrderInfos, OrderBookLevelInfos.GetAsks]

/-- C15 on the book with asks of 4 at 101 and 3 at 102: the snapshot has no bid
entry and the ask entries (101, 4), (102, 3) in this order. -/
theorem order_infos_per_level_witness :
    ReachableAny bookTwoAsks ∧
    bookTwoAsks.GetOrderInfos = ⟨[], [⟨101, 4⟩, ⟨102, 3⟩]⟩ ∧
    bookTwoAsks.GetOrderInfos.GetAsks.Pairwise (fun x y => x.price_ < y.price_) ∧
    (∀ i ∈ bookTwoAsks.GetOrderInfos.GetAsks,
      (∃ q, (i.price_, q) ∈ bookTwoAsks.asks_ ∧ q ≠ [] ∧
        i.quantity_ = (q.map (fun o => o.remainingQuantity)).sum) ∧
      i.quantity_ =
        available (fun p => decide (p = i.price_)) (ladderOrders bookTwoAsks.asks_)) :=
  ⟨bookTwoAsks_reachable.any, by decide,
    (order_infos_per_level bookTwoAsks bookTwoAsks_reachable.any).2.2.2.2.2.1,
    (order_infos_per_level bookTwoAsks bookTwoAsks_reachable.any).2.2.2.2.2.2.2⟩
/-! ### The fill-or-kill test as a sum -/

theorem canFullyFill_eq (b : OrderBook) (side : Side) (price : Price) (n : Quantity) :
    CanFullyFill b side price n =
      (CanMatch b side price &&
        match b.bestOpposite side with
        | some t => canFullyFillLoop side t price b.data_ (n : Int)
        | none => false) := by
  unfold CanFullyFill OrderBook.bestOpposite OrderBook.opposite
  cases side with
  | Buy =>
    by_cases hcm : CanMatch b Side.Buy price = true
    · simp only [hcm, Bool.not_true, Bool.false_eq_true, if_false, if_true, Bool.true_and]
      cases b.asks_.head? <;> rfl
    · simp [hcm]
  | Sell =>
    by_cases hcm : CanMatch b Side.Sell price = true
    · simp only [hcm, Bool.not_true, Bool.false_eq_true, if_false, reduceCtorEq,
        Bool.true_and]
      cases b.bids_.head? <;> rfl
    · simp [hcm]

theorem canMatch_best (b : OrderBook) (side : Side) (price : Price)
    (h : CanMatch b side price = true) : ∃ t, b.bestOpposite side = some t := by
  unfold OrderBook.bestOpposite OrderBook.opposite
  cases side with
  | Buy =>
    obtain ⟨e, he, _⟩ := (canMatch_buy b price).1 h
    simp only [if_true]
    rw [Option.mem_def.1 he]
    exact ⟨e.1, rfl⟩
  | Sell =>
    obtain ⟨e, he, _⟩ := (canMatch_sell b price).1 h
    simp only [reduceCtorEq, if_false]
    rw [Option.mem_def.1 he]
    exact ⟨e.1, rfl⟩

theorem rangeSum_perm (ok : Price → Bool) (d1 d : LevelMap) (h : d1.Perm d) :
    rangeSum ok d1 = rangeSum ok d := by
  unfold rangeSum
  exact ((h.filter _).map _).sum_eq

theorem rangeSum_pos_mem (ok : Price → Bool) (d : LevelMap) (h : 0 < rangeSum ok d) :
    ∃ e ∈ d, ok e.1 = true := by
  by_contra hno
  have hz : rangeSum ok d = 0 := by
    apply rangeSum_zero
    intro e he
    by_cases hok : ok e.1 = true
    · exact absurd ⟨e, he, hok⟩ hno
    · simpa using hok
  rw [hz] at h
  exact lt_irrefl _ h

theorem inRange_buy (t price p : Price) :
    inRange Side.Buy t price p = true ↔ t ≤ p ∧ p ≤ price := by
  simp [inRange]

theorem inRange_sell (t price p : Price) :
    inRange Side.Sell t price p = true ↔ price ≤ p ∧ p ≤ t := by
  simp [inRange]
  exact And.comm

/-- `CanFullyFill` on an aggregate without negative quantities, as a test on the
sum over the range. -/
theorem canFullyFill_iff (b : OrderBook) (side : Side) (price : Price) (need : Quantity)
    (hnn : ∀ e ∈ b.data_, 0 ≤ e.2.quantity_) :
    CanFullyFill b side price need = true ↔
      CanMatch b side price = true ∧
      ∃ t, b.bestOpposite side = some t ∧
        (∃ e ∈ b.data_, inRange side t price e.1 = true) ∧
        (need : Int) ≤ rangeSum (inRange side t price) b.data_ := by
  rw [canFullyFill_eq]
  by_cases hcm : CanMatch b side price = true
  · obtain ⟨t, ht⟩ := canMatch_best b side price hcm
    rw [hcm, ht, Bool.true_and]
    simp only
    rw [canFullyFillLoop_iff side t price b.data_ need (fun e he _ => hnn e he)]
    constructor
    · intro h
      exact ⟨trivial, t, rfl, h⟩
    · rintro ⟨_, t1, ht1, h⟩
      cases ht1
      exact h
  · simp [hcm]
theorem best_in_range (b : OrderBook) (side : Side) (price t : Price)
    (hcm : CanMatch b side price = true) (ht : b.bestOpposite side = some t) :
    inRange side t price t = true := by
  unfold OrderBook.bestOpposite OrderBook.opposite at ht
  cases side with
  | Buy =>
    obtain ⟨e, he, hle⟩ := (canMatch_buy b price).1 hcm
    simp only [if_true] at ht
    rw [Option.mem_def.1 he] at ht
    simp only [Option.map_some', Option.some.injEq] at ht
    rw [inRange_buy, ← ht]
    exact ⟨le_refl _, hle⟩
  | Sell =>
    obtain ⟨e, he, hle⟩ := (canMatch_sell b price).1 hcm
    simp only [reduceCtorEq, if_false] at ht
    rw [Option.mem_def.1 he] at ht
    simp only [Option.map_some', Option.some.injEq] at ht
    rw [inRange_sell, ← ht]
    exact ⟨hle, le_refl _⟩

theorem best_has_entry (b : OrderBook) (hs : b.Sound) (side : Side) (t : Price)
    (ht : b.bestOpposite side = some t) : ∃ e ∈ b.data_, e.1 = t := by
  have hc := hs.1
  have hd := hs.2.2.1
  have hlev : ∃ q, (t, q) ∈ b.opposite side := by
    unfold OrderBook.bestOpposite at ht
    cases hh : (b.opposite side).head? with
    | none => rw [hh] at ht; cases ht
    | some e =>
      rw [hh] at ht
      simp only [Option.map_some', Option.some.injEq] at ht
      refine ⟨e.2, ?_⟩
      rw [← ht]
      exact List.mem_of_mem_head? hh
  obtain ⟨q, hq⟩ := hlev
  have hex : ∃ o ∈ b.resting, o.price_ = t := by
    unfold OrderBook.opposite at hq
    cases side with
    | Buy =>
      simp only [if_true] at hq
      obtain ⟨hne, hall⟩ := hc.2.1.2 (t, q) hq
      obtain ⟨o, ho⟩ := List.exists_mem_of_ne_nil _ hne
      exact ⟨o, List.mem_append_right _ ((mem_ladderOrders _ o).2 ⟨(t, q), hq, ho⟩),
        (hall o ho).2⟩
    | Sell =>
      simp only [reduceCtorEq, if_false] at hq
      obtain ⟨hne, hall⟩ := hc.1.2 (t, q) hq
      obtain ⟨o, ho⟩ := List.exists_mem_of_ne_nil _ hne
      exact ⟨o, List.mem_append_left _ ((mem_ladderOrders _ o).2 ⟨(t, q), hq, ho⟩),
        (hall o ho).2⟩
  obtain ⟨o, ho, hp⟩ := hex
  have hk := Represents.key_of_mem hd o ho
  obtain ⟨e, he, hek⟩ := List.mem_map.1 hk
  exact ⟨e, he, hek.trans hp⟩

/-- C17: for every book state whose aggregate has no negative quantity,
`CanFullyFill side price need` is true exactly when `CanMatch side price` holds
and the aggregated quantities over the prices between the best opposing price
`t` and `price` inclusive (`t ≤ p ≤ price` for a buy, `price ≤ p ≤ t` for a
sell) sum to at least `need`.  The state is one in which the aggregate has an
entry at the best opposing price, or else `need` is positive; in every reachable
book the aggregate has no negative quantity and has that entry, the front level
of a ladder holding an order.  The result is the same for every order in which
the entries of the aggregate are visited. -/
theorem can_fully_fill_sum_test (b : OrderBook) (side : Side) (price : Price)
    (need : Quantity) (hnn : ∀ e ∈ b.data_, 0 ≤ e.2.quantity_)
    (hent : 0 < need ∨ ∀ t, b.bestOpposite side = some t → ∃ e ∈ b.data_, e.1 = t) :
    (CanFullyFill b side price need = true ↔
      CanMatch b side price = true ∧
      ∃ t, b.bestOpposite side = some t ∧
        (need : Int) ≤ rangeSum (inRange side t price) b.data_) ∧
    (∀ d1 : LevelMap, d1.Perm b.data_ →
      CanFullyFill { b with data_ := d1 } side price need = CanFullyFill b side price need) ∧
    (∀ t p, inRange side t price p = true ↔
      if side = Side.Buy then t ≤ p ∧ p ≤ price else price ≤ p ∧ p ≤ t) ∧
    (Reachable b →
      (∀ e ∈ b.data_, 0 ≤ e.2.quantity_) ∧
      ∀ s t, b.bestOpposite s = some t → ∃ e ∈ b.data_, e.1 = t) := by
  have hiff := canFullyFill_iff b side price need hnn
  refine ⟨?_, ?_, ?_, ?_⟩
  · rw [hiff]
    constructor
    · rintro ⟨hcm, t, ht, _, hsum⟩
      exact ⟨hcm, t, ht, hsum⟩
    · rintro ⟨hcm, t, ht, hsum⟩
      refine ⟨hcm, t, ht, ?_, hsum⟩
      rcases hent with hpos | hent
      · apply rangeSum_pos_mem
        have : (0 : Int) < (need : Int) := by exact_mod_cast hpos
        exact lt_of_lt_of_le this hsum
      · obtain ⟨e, he, hek⟩ := hent t ht
        refine ⟨e, he, ?_⟩
        rw [hek]
        exact best_in_range b side price t hcm ht
  · intro d1 hp
    have hnn1 : ∀ e ∈ ({ b with data_ := d1 } : OrderBook).data_, 0 ≤ e.2.quantity_ :=
      fun e he => hnn e (hp.mem_iff.1 he)
    rw [Bool.eq_iff_iff, hiff, canFullyFill_iff _ side price need hnn1]
    have hcm : CanMatch { b with data_ := d1 } side price = CanMatch b side price := rfl
    have hbest : OrderBook.bestOpposite { b with data_ := d1 } side = b.bestOpposite side := by
      unfold OrderBook.bestOpposite OrderBook.opposite
      rfl
    rw [hcm, hbest]
    constructor
    · rintro ⟨h1, t, ht, ⟨e, he, hin⟩, hsum⟩
      refine ⟨h1, t, ht, ⟨e, hp.mem_iff.1 he, hin⟩, ?_⟩
      rw [← rangeSum_perm _ d1 b.data_ hp]
      exact hsum
    · rintro ⟨h1, t, ht, ⟨e, he, hin⟩, hsum⟩
      refine ⟨h1, t, ht, ⟨e, hp.mem_iff.2 he, hin⟩, ?_⟩
      have : rangeSum (inRange side t price) ({ b with data_ := d1 } : OrderBook).data_
          = rangeSum (inRange side t price) b.data_ := rangeSum_perm _ d1 b.data_ hp
      rw [this]
      exact hsum
  · intro t p
    cases side with
    | Buy => simp only [if_true]; exact inRange_buy t price p
    | Sell => simp only [reduceCtorEq, if_false]; exact inRange_sell t price p
  · intro hr
    have hs := reachable_sound b hr
    exact ⟨Represents.nonneg hs.2.2.1, fun s t ht => best_has_entry b hs s t ht⟩

/-- C17 on the reachable book with asks of 4 at 101 and 3 at 102: for a buy at
101 the range holds the level at 101 alone, 4 is less than 5, so `CanFullyFill`
is false and the fill-or-kill buy id 10 of 5 at 101 is turned away; for a need
of 0 the test is `CanMatch` alone and `CanFullyFill` is true. -/
theorem can_fully_fill_sum_test_witness :
    Reachable bookTwoAsks ∧
    (∀ e ∈ bookTwoAsks.data_, 0 ≤ e.2.quantity_) ∧
    (∀ t, bookTwoAsks.bestOpposite Side.Buy = some t → ∃ e ∈ bookTwoAsks.data_, e.1 = t) ∧
    (CanFullyFill bookTwoAsks Side.Buy 101 5 = true ↔
      CanMatch bookTwoAsks Side.Buy 101 = true ∧
      ∃ t, bookTwoAsks.bestOpposite Side.Buy = some t ∧
        ((5 : Quantity) : Int) ≤ rangeSum (inRange Side.Buy t 101) bookTwoAsks.data_) ∧
    bookTwoAsks.bestOpposite Side.Buy = some 101 ∧
    rangeSum (inRange Side.Buy 101 101) bookTwoAsks.data_ = 4 ∧
    CanFullyFill bookTwoAsks Side.Buy 101 5 = false ∧
    AddOrder bookTwoAsks (Order.new OrderType.FillOrKill 10 Side.Buy 101 5)
      = some ([], bookTwoAsks) ∧
    CanMatch bookTwoAsks Side.Buy 101 = true ∧
    CanFullyFill bookTwoAsks Side.Buy 101 0 = true :=
  ⟨bookTwoAsks_reachable, by decide,
    best_has_entry bookTwoAsks (reachable_sound _ bookTwoAsks_reachable) Side.Buy,
    (can_fully_fill_sum_test bookTwoAsks Side.Buy 101 5 (by decide)
      (Or.inr (best_has_entry bookTwoAsks (reachable_sound _ bookTwoAsks_reachable)
        Side.Buy))).1,
    by decide, by decide, by decide, by decide, by decide, by decide⟩

/-! ### Pruning the good-for-day orders -/

theorem bounded_of_from {l l1 : Ladder} (h : ∀ o ∈ ladderOrders l, o.Bounded)
    (hf : LadderFrom l l1) : ∀ o ∈ ladderOrders l1, o.Bounded := by
  intro o ho
  obtain ⟨o0, ho0, ht⟩ := hf.1 o ho
  have := h o0 ho0
  unfold Order.Bounded at this ⊢
  rw [ht.2.2.2.2.1]
  exact le_trans ht.2.2.2.2.2 this

theorem bounded_of_books {b b1 : OrderBook} (h : ∀ o ∈ b.resting, o.Bounded)
    (hB : LadderFrom b.bids_ b1.bids_) (hA : LadderFrom b.asks_ b1.asks_) :
    ∀ o ∈ b1.resting, o.Bounded := by
  intro o ho
  rcases List.mem_append.1 ho with ho | ho
  · exact bounded_of_from (fun x hx => h x (List.mem_append_left _ hx)) hB o ho
  · exact bounded_of_from (fun x hx => h x (List.mem_append_right _ hx)) hA o ho

theorem cancelOrders_from : ∀ (orderIds : List OrderId) (b : OrderBook), b.Consistent →
    ∃ b1, CancelOrders b orderIds = some b1 ∧ b1.Consistent ∧
      LadderFrom b.bids_ b1.bids_ ∧ LadderFrom b.asks_ b1.asks_ := by
  intro orderIds
  induction orderIds with
  | nil => intro b hc; exact ⟨b, rfl, hc, LadderFrom.same _, LadderFrom.same _⟩
  | cons i t ih =>
    intro b hc
    obtain ⟨b1, h1, c1, fb, fa, _⟩ := cancel_ok b i hc
    obtain ⟨b2, h2, c2, fb2, fa2⟩ := ih b1 c1
    exact ⟨b2, by simp [CancelOrders, h1, h2], c2, fb.next fb2, fa.next fa2⟩

theorem add_bounded (b : OrderBook) (o : Order) (hc : b.Consistent) (hu : b.Uncrossed)
    (hall : ∀ x ∈ b.resting, x.Bounded) (ho : o.Bounded) :
    ∃ ts b1, AddOrder b o = some (ts, b1) ∧ ∀ x ∈ b1.resting, x.Bounded := by
  rcases AddOrder_cases b o with ⟨hrej, _⟩ | ⟨o1, ha, _⟩
  · exact ⟨[], b, hrej, hall⟩
  · obtain ⟨tn, b2, b3, b4, _, hadd, _, _, _, _, fb2, fa2, fb3, fa3, fb4, fa4, _⟩ :=
      add_admitted b o o1 hc hu ha
    obtain ⟨_, _, hinit, hrem, _⟩ := marketRetag_goesOn b o o1 ha.2.1
    have ho1 : o1.Bounded := by
      unfold Order.Bounded at ho ⊢
      rw [hinit, hrem]
      exact ho
    refine ⟨tn, b4, hadd, ?_⟩
    intro x hx
    rcases List.mem_append.1 hx with hx | hx
    · refine bounded_of_from ?_ ((fb2.next fb3).next fb4) x hx
      intro y hy
      rcases insertOrder_bids_mem b o1 y hy with h | ⟨rfl, _⟩
      · exact hall y (List.mem_append_left _ h)
      · exact ho1
    · refine bounded_of_from ?_ ((fa2.next fa3).next fa4) x hx
      intro y hy
      rcases insertOrder_asks_mem b o1 y hy with h | ⟨rfl, _⟩
      · exact hall y (List.mem_append_right _ h)
      · exact ho1

/-- In every book reachable with bounded orders every resting order is bounded. -/
theorem reachable_bounded (b : OrderBook) (h : ReachableBy Order.Bounded b) :
    ∀ x ∈ b.resting, x.Bounded := by
  induction h with
  | empty => intro x hx; simp [OrderBook.empty, OrderBook.resting, ladderOrders] at hx
  | add b o ts b1 hb hP hadd ih =>
    obtain ⟨hc, hu⟩ := reachableBy_consistent _ b hb
    obtain ⟨ts2, b2, h2, s2⟩ := add_bounded b o hc hu ih hP
    rw [hadd] at h2
    cases h2
    exact s2
  | cancel b i b1 hb hcan ih =>
    obtain ⟨hc, _⟩ := reachableBy_consistent _ b hb
    obtain ⟨b2, h2, _, fb, fa, _⟩ := cancel_ok b i hc
    have hcan2 : CancelOrderInternal b i = some b1 := hcan
    rw [hcan2] at h2
    cases h2
    exact bounded_of_books ih fb fa
  | cancelMany b is b1 hb hcan ih =>
    obtain ⟨hc, _⟩ := reachableBy_consistent _ b hb
    obtain ⟨b2, h2, _, fb, fa⟩ := cancelOrders_from is b hc
    rw [hcan] at h2
    cases h2
    exact bounded_of_books ih fb fa
  | modify b m ts b1 hb hmod ih =>
    obtain ⟨hc, hu⟩ := reachableBy_consistent _ b hb
    by_cases hcon : containsOrder b.orders_ m.orderId_ = true
    · obtain ⟨o, hmem⟩ := (containsOrder_iff _ _).1 hcon
      have hfind := findOrder_of_mem _ _ _ hc.keys_nodup hmem
      obtain ⟨b2, h2, c2, fb, fa, _⟩ := cancel_ok b m.orderId_ hc
      have u2 := uncrossed_of_from hu fb fa
      have hall2 := bounded_of_books ih fb fa
      obtain ⟨ts3, b3, h3, s3⟩ := add_bounded b2 (m.ToOrderPointer o.orderType_) c2 u2 hall2
        (le_refl _)
      have h2c : CancelOrder b m.orderId_ = some b2 := h2
      have : ModifyOrder b m = some (ts3, b3) := by
        simp [ModifyOrder, hcon, hfind, h2c, h3]
      rw [hmod] at this
      cases this
      exact s3
    · have hc2 : containsOrder b.orders_ m.orderId_ = false := by simpa using hcon
      have : ModifyOrder b m = some ([], b) := by simp [ModifyOrder, hc2]
      rw [hmod] at this
      cases this
      exact ih

theorem marketRetag_not_failed (b : OrderBook) (o : Order) :
    marketRetag b o ≠ Retag.failed := by
  rcases marketRetag_cases b o with ⟨_, _, h⟩ | ⟨_, h⟩ | ⟨_, e, _, h⟩ <;>
    · rw [h]; intro hx; cases hx

/-- C19: on every book reachable from the empty book with orders as the class
`Order` keeps them (remaining at most initial), `AddOrder` of such an order
raises no logic error.  Every `Fill` of the matcher is called with the smaller
of the two remaining quantities, which is at most the remaining quantity of the
order it fills, so `Fill` returns.  `ToGoodTillCancel` is not called on an order
that is not a market order, and on a market order it is called with the key of
a level of the opposite ladder and returns.  So `AddOrder` returns, and in the
book it leaves every resting order, which is every order of the id index, has
its remaining quantity at most its initial quantity. -/
theorem add_order_no_logic_error (b : OrderBook) (o : Order)
    (h : ReachableBy Order.Bounded b) (ho : o.Bounded) :
    (∀ bid ask : Order,
      matchQuantity bid ask ≤ bid.remainingQuantity ∧
      matchQuantity bid ask ≤ ask.remainingQuantity ∧
      bid.Fill (matchQuantity bid ask) = some (filledBid bid ask) ∧
      ask.Fill (matchQuantity bid ask) = some (filledAsk bid ask)) ∧
    (∀ (b0 : OrderBook) (bp : Price) (bid : Order) (bt : List Order) (br : Ladder)
      (ap : Price) (ask : Order) (at1 : List Order) (ar : Ladder),
      fillFront b0 bp bid bt br ap ask at1 ar =
        some (matchTrade bid ask, bookAfterFill b0 bp bid bt br ap ask at1 ar)) ∧
    marketRetag b o ≠ Retag.failed ∧
    (o.orderType_ ≠ OrderType.Market → marketRetag b o = Retag.goesOn o) ∧
    (o.orderType_ = OrderType.Market → b.opposite o.side_ ≠ [] →
      ∃ e ∈ b.opposite o.side_,
        o.ToGoodTillCancel e.1 =
          some { o with price_ := e.1, orderType_ := OrderType.GoodTillCancel } ∧
        marketRetag b o =
          Retag.goesOn { o with price_ := e.1, orderType_ := OrderType.GoodTillCancel }) ∧
    ∃ ts b1, AddOrder b o = some (ts, b1) ∧
      (∀ x ∈ b1.resting, x.remainingQuantity ≤ x.initialQuantity) ∧
      (∀ i x, (i, x) ∈ b1.orders_ → x.remainingQuantity ≤ x.initialQuantity) ∧
      ReachableBy Order.Bounded b1 := by
  obtain ⟨hc, hu⟩ := reachableBy_consistent _ b h
  refine ⟨?_, fillFront_eq, marketRetag_not_failed b o, marketRetag_of_not_market b o, ?_, ?_⟩
  · intro bid ask
    have h1 : matchQuantity bid ask ≤ bid.remainingQuantity := Nat.min_le_left _ _
    have h2 : matchQuantity bid ask ≤ ask.remainingQuantity := Nat.min_le_right _ _
    refine ⟨h1, h2, ?_, ?_⟩
    · unfold Order.Fill filledBid
      rw [if_neg (not_lt.2 h1)]
    · unfold Order.Fill filledAsk
      rw [if_neg (not_lt.2 h2)]
  · intro hm hne
    rcases marketRetag_cases b o with ⟨_, hemp, _⟩ | ⟨hnm, _⟩ | ⟨_, e, hlast, hr⟩
    · exact absurd hemp hne
    · exact absurd hm hnm
    · refine ⟨e, List.mem_of_mem_getLast? hlast, ?_, hr⟩
      unfold Order.ToGoodTillCancel
      rw [if_neg (by simp [hm])]
  · obtain ⟨ts, b1, hadd, hall⟩ := add_bounded b o hc hu (reachable_bounded b h) ho
    have hr1 : ReachableBy Order.Bounded b1 := ReachableBy.add b o ts b1 h ho hadd
    obtain ⟨c1, _⟩ := reachableBy_consistent _ b1 hr1
    refine ⟨ts, b1, hadd, hall, ?_, hr1⟩
    intro i x hix
    exact hall x ((c1.mem_index i x).1 hix).1

theorem bookBuyTen_bounded : ReachableBy Order.Bounded bookBuyTen :=
  reachableBy_mono Order.Fresh Order.Bounded (fun o ho => by
    unfold Order.Fresh at ho
    unfold Order.Bounded
    rw [ho]) bookBuyTen bookBuyTen_reachable

/-- C19 on the book with one resting buy of 10 at 100: the sell id 2 of 7 at 100
is matched without an error and leaves the buy with 3 of its 10. -/
theorem add_order_no_logic_error_witness :
    ReachableBy Order.Bounded bookBuyTen ∧ (gtc 2 Side.Sell 100 7).Bounded ∧
    (∃ ts b1, AddOrder bookBuyTen (gtc 2 Side.Sell 100 7) = some (ts, b1) ∧
      (∀ x ∈ b1.resting, x.remainingQuantity ≤ x.initialQuantity) ∧
      (∀ i x, (i, x) ∈ b1.orders_ → x.remainingQuantity ≤ x.initialQuantity) ∧
      ReachableBy Order.Bounded b1) ∧
    AddOrder bookBuyTen (gtc 2 Side.Sell 100 7)
      = some ([⟨⟨1, 100, 7⟩, ⟨2, 100, 7⟩⟩], bookBuyThree) :=
  ⟨bookBuyTen_bounded, by decide,
    (add_order_no_logic_error bookBuyTen (gtc 2 Side.Sell 100 7) bookBuyTen_bounded
      (by decide)).2.2.2.2.2,
    by decide⟩
/-! ### Termination of the matching loop -/

theorem frontAfterFill_nonempty (k : Price) (o1 : Order) (t : List Order) (rest : Ladder)
    (h : ∀ e ∈ rest, e.2 ≠ []) : ∀ e ∈ frontAfterFill k o1 t rest, e.2 ≠ [] := by
  intro e he
  rcases frontAfterFill_cases k o1 t rest with ⟨_, _, h1⟩ | ⟨_, hne, h1⟩ | ⟨_, h1⟩
  · rw [h1] at he; exact h e he
  · rw [h1] at he
    rcases List.mem_cons.1 he with rfl | he
    · exact hne
    · exact h e he
  · rw [h1] at he
    rcases List.mem_cons.1 he with rfl | he
    · exact List.cons_ne_nil _ _
    · exact h e he

theorem containsOrder_erase_other (os : OrderIndex) (i j : OrderId)
    (h : containsOrder os i = false) : containsOrder (eraseOrder os j) i = false := by
  rw [containsOrder_false_iff] at h ⊢
  intro o ho
  unfold eraseOrder at ho
  exact h o (List.mem_filter.1 ho).1

/-- One round of the matching loop on any book: at least one of the two head
orders is filled; a filled head is popped from its FIFO and is no longer in the
id index; the ladders hold fewer orders than before and no empty FIFO. -/
theorem bookAfterFill_shrinks (b : OrderBook) (bp : Price) (bid : Order) (bt : List Order)
    (br : Ladder) (ap : Price) (ask : Order) (at1 : List Order) (ar : Ladder)
    (hb : b.bids_ = (bp, bid :: bt) :: br) (ha : b.asks_ = (ap, ask :: at1) :: ar) :
    ((filledBid bid ask).IsFilled = true ∨ (filledAsk bid ask).IsFilled = true) ∧
    ((filledBid bid ask).IsFilled = true →
      ladderOrders (bookAfterFill b bp bid bt br ap ask at1 ar).bids_ = bt ++ ladderOrders br ∧
      containsOrder (bookAfterFill b bp bid bt br ap ask at1 ar).orders_ bid.orderId_ = false) ∧
    ((filledAsk bid ask).IsFilled = true →
      ladderOrders (bookAfterFill b bp bid bt br ap ask at1 ar).asks_ = at1 ++ ladderOrders ar ∧
      containsOrder (bookAfterFill b bp bid bt br ap ask at1 ar).orders_ ask.orderId_ = false) ∧
    (bookAfterFill b bp bid bt br ap ask at1 ar).resting.length < b.resting.length ∧
    (b.NoEmptyLevel → (bookAfterFill b bp bid bt br ap ask at1 ar).NoEmptyLevel) := by
  have hone := filled_one bid ask
  have hB : ladderOrders (bookAfterFill b bp bid bt br ap ask at1 ar).bids_ =
      (if (filledBid bid ask).IsFilled then [] else [filledBid bid ask]) ++
        (bt ++ ladderOrders br) := ladderOrders_frontAfterFill _ _ _ _
  have hA : ladderOrders (bookAfterFill b bp bid bt br ap ask at1 ar).asks_ =
      (if (filledAsk bid ask).IsFilled then [] else [filledAsk bid ask]) ++
        (at1 ++ ladderOrders ar) := ladderOrders_frontAfterFill _ _ _ _
  refine ⟨hone, ?_, ?_, ?_, ?_⟩
  · intro hf
    refine ⟨by rw [hB, if_pos hf]; rfl, ?_⟩
    show containsOrder (indexAfterFill b.orders_ (filledBid bid ask) (filledAsk bid ask))
      bid.orderId_ = false
    unfold indexAfterFill
    simp only [hf, if_true]
    have h1 : containsOrder (eraseOrder (syncOrder (syncOrder b.orders_ (filledBid bid ask))
        (filledAsk bid ask)) (filledBid bid ask).orderId_) bid.orderId_ = false :=
      containsOrder_eraseOrder _ _
    by_cases hfa : (filledAsk bid ask).IsFilled = true
    · rw [if_pos hfa]
      exact containsOrder_erase_other _ _ _ h1
    · rw [if_neg hfa]
      exact h1
  · intro hf
    refine ⟨by rw [hA, if_pos hf]; rfl, ?_⟩
    show containsOrder (indexAfterFill b.orders_ (filledBid bid ask) (filledAsk bid ask))
      ask.orderId_ = false
    unfold indexAfterFill
    simp only [hf, if_true]
    exact containsOrder_eraseOrder _ (filledAsk bid ask).orderId_
  · unfold OrderBook.resting
    rw [hB, hA, hb, ha, ladderOrders_cons, ladderOrders_cons]
    simp only [List.length_append, List.length_cons]
    rcases hone with hf | hf
    · rw [if_pos hf]
      by_cases hfa : (filledAsk bid ask).IsFilled = true
      · rw [if_pos hfa]; simp only [List.length_nil]; omega
      · rw [if_neg hfa]; simp only [List.length_nil, List.length_cons]; omega
    · rw [if_pos hf]
      by_cases hfb : (filledBid bid ask).IsFilled = true
      · rw [if_pos hfb]; simp only [List.length_nil]; omega
      · rw [if_neg hfb]; simp only [List.length_nil, List.length_cons]; omega
  · intro hne
    constructor
    · apply frontAfterFill_nonempty
      intro e he
      exact hne.1 e (by rw [hb]; exact List.mem_cons_of_mem _ he)
    · apply frontAfterFill_nonempty
      intro e he
      exact hne.2 e (by rw [ha]; exact List.mem_cons_of_mem _ he)

/-- More fuel does not change a result of the matching loop. -/
theorem matchLoop_mono : ∀ (n : Nat) (b : OrderBook) (ts : Trades) (r : Trades × OrderBook),
    matchLoop n b ts = some r → matchLoop (n + 1) b ts = some r := by
  intro n
  induction n with
  | zero => intro b ts r h; simp [matchLoop] at h
  | succ n ih =>
    intro b ts r h
    cases hb : b.bids_ with
    | nil => rw [matchLoop_exit_bids _ _ _ hb] at h ⊢; exact h
    | cons eb br =>
      cases ha : b.asks_ with
      | nil => rw [matchLoop_exit_asks _ _ _ ha] at h ⊢; exact h
      | cons ea ar =>
        obtain ⟨bp, bq⟩ := eb
        obtain ⟨ap, aq⟩ := ea
        by_cases hx : bp < ap
        · rw [matchLoop_exit_lt _ _ _ _ _ _ _ _ _ hb ha hx] at h ⊢; exact h
        · cases bq with
          | nil =>
            have e1 : ∀ k, matchLoop (k + 1) b ts = matchLoop k b ts := by
              intro k
              simp [matchLoop, hb, ha, hx]
            rw [e1] at h ⊢
            exact ih b ts r h
          | cons bid bt =>
            cases aq with
            | nil =>
              have e1 : ∀ k, matchLoop (k + 1) b ts = matchLoop k b ts := by
                intro k
                simp [matchLoop, hb, ha, hx]
              rw [e1] at h ⊢
              exact ih b ts r h
            | cons ask at1 =>
              rw [matchLoop_cross _ _ _ _ _ _ _ _ _ _ _ hb ha hx] at h ⊢
              exact ih _ _ r h

theorem matchLoop_fuel (n m : Nat) (b : OrderBook) (ts : Trades) (r : Trades × OrderBook)
    (h : matchLoop n b ts = some r) (hnm : n ≤ m) : matchLoop m b ts = some r := by
  induction m with
  | zero =>
    have : n = 0 := Nat.le_zero.1 hnm
    rw [this] at h
    exact h
  | succ m ih =>
    by_cases hle : n ≤ m
    · exact matchLoop_mono m b ts r (ih hle)
    · have : n = m + 1 := by omega
      rw [← this]
      exact h

/-- On a book without an empty FIFO the matching loop returns once the fuel
exceeds the number of resting orders, and every trade took an order away. -/
theorem matchLoop_total : ∀ (n : Nat) (b : OrderBook) (ts : Trades), b.NoEmptyLevel →
    b.resting.length < n →
    ∃ tn b1, matchLoop n b ts = some (ts ++ tn, b1) ∧
      tn.length + b1.resting.length ≤ b.resting.length ∧ b1.NoEmptyLevel := by
  intro n
  induction n with
  | zero => intro b ts _ h; exact absurd h (Nat.not_lt_zero _)
  | succ n ih =>
    intro b ts hne hlen
    cases hb : b.bids_ with
    | nil =>
      exact ⟨[], b, by rw [matchLoop_exit_bids _ _ _ hb, List.append_nil], by simp, hne⟩
    | cons eb br =>
      cases ha : b.asks_ with
      | nil =>
        exact ⟨[], b, by rw [matchLoop_exit_asks _ _ _ ha, List.append_nil], by simp, hne⟩
      | cons ea ar =>
        obtain ⟨bp, bq⟩ := eb
        obtain ⟨ap, aq⟩ := ea
        by_cases hx : bp < ap
        · exact ⟨[], b, by rw [matchLoop_exit_lt _ _ _ _ _ _ _ _ _ hb ha hx, List.append_nil],
            by simp, hne⟩
        · cases bq with
          | nil => exact absurd rfl (hne.1 (bp, []) (by rw [hb]; exact List.mem_cons_self _ _))
          | cons bid bt =>
            cases aq with
            | nil =>
              exact absurd rfl (hne.2 (ap, []) (by rw [ha]; exact List.mem_cons_self _ _))
            | cons ask at1 =>
              obtain ⟨_, _, _, hlt, hne1⟩ :=
                bookAfterFill_shrinks b bp bid bt br ap ask at1 ar hb ha
              obtain ⟨tn, b1, h1, h2, h3⟩ :=
                ih (bookAfterFill b bp bid bt br ap ask at1 ar) (ts ++ [matchTrade bid ask])
                  (hne1 hne) (by omega)
              refine ⟨matchTrade bid ask :: tn, b1, ?_, ?_, h3⟩
              · rw [matchLoop_cross _ _ _ _ _ _ _ _ _ _ _ hb ha hx, h1]
                simp
              · simp only [List.length_cons]
                omega
theorem matchOrders_eq (b : OrderBook) (ts : Trades) (b1 : OrderBook)
    (h : matchLoop (matchFuel b) b [] = some (ts, b1)) :
    MatchOrders b =
      (cancelFront b1 b1.bids_ OrderType.FillOrKill).bind (fun b2 =>
        (cancelFront b2 b2.asks_ OrderType.FillAndKill).map (fun b3 => (ts, b3))) := by
  unfold MatchOrders
  simp only [h]
  cases h3 : cancelFront b1 b1.bids_ OrderType.FillOrKill with
  | none => simp
  | some b2 =>
    cases h4 : cancelFront b2 b2.asks_ OrderType.FillAndKill with
    | none => simp [h4]
    | some b3 => simp [h4]

/-- C20: on every book state in which no ladder level holds an empty FIFO and the
id index holds exactly the resting orders, as it does whenever `AddOrder` calls
`MatchOrders`, the matching loop terminates: every amount of fuel above the
number of resting orders gives the same trades `ts` and book `b1`, and
`MatchOrders` returns these trades.  Every round of the loop fills at least one
of the two head orders, pops each filled head from its FIFO and takes it out of
the id index, so the book loses at least one order per trade, and the number of
trades is at most `Size`, the number of live orders when matching starts and
the capacity reserved for the trade list. -/
theorem matching_terminates (b : OrderBook) (hne : b.NoEmptyLevel) (hc : b.Consistent) :
    ∃ ts b1 b3,
      (∀ fuel, b.resting.length < fuel → matchLoop fuel b [] = some (ts, b1)) ∧
      MatchOrders b = some (ts, b3) ∧
      ts.length + b1.Size ≤ b.Size ∧
      ts.length ≤ b.Size ∧
      b.Size = (ladderOrders b.bids_).length + (ladderOrders b.asks_).length ∧
      b1.NoEmptyLevel ∧ b1.Consistent ∧
      (∀ (b0 : OrderBook) (bp : Price) (bid : Order) (bt : List Order) (br : Ladder)
        (ap : Price) (ask : Order) (at1 : List Order) (ar : Ladder),
        b0.Consistent →
        b0.bids_ = (bp, bid :: bt) :: br → b0.asks_ = (ap, ask :: at1) :: ar →
        fillFront b0 bp bid bt br ap ask at1 ar =
          some (matchTrade bid ask, bookAfterFill b0 bp bid bt br ap ask at1 ar) ∧
        ((filledBid bid ask).IsFilled = true ∨ (filledAsk bid ask).IsFilled = true) ∧
        ((filledBid bid ask).IsFilled = true →
          ladderOrders (bookAfterFill b0 bp bid bt br ap ask at1 ar).bids_
            = bt ++ ladderOrders br ∧
          containsOrder (bookAfterFill b0 bp bid bt br ap ask at1 ar).orders_ bid.orderId_
            = false) ∧
        ((filledAsk bid ask).IsFilled = true →
          ladderOrders (bookAfterFill b0 bp bid bt br ap ask at1 ar).asks_
            = at1 ++ ladderOrders ar ∧
          containsOrder (bookAfterFill b0 bp bid bt br ap ask at1 ar).orders_ ask.orderId_
            = false) ∧
        (bookAfterFill b0 bp bid bt br ap ask at1 ar).Consistent ∧
        (bookAfterFill b0 bp bid bt br ap ask at1 ar).Size < b0.Size) := by
  obtain ⟨tn, b1, h1, h2, h3⟩ :=
    matchLoop_total (b.resting.length + 1) b [] hne (Nat.lt_succ_self _)
  rw [List.nil_append] at h1
  have hlen : b.resting.length = (ladderOrders b.bids_).length + (ladderOrders b.asks_).length := by
    unfold OrderBook.resting
    rw [List.length_append]
  have hfuel : matchLoop (matchFuel b) b [] = some (tn, b1) := by
    unfold matchFuel
    rw [← hlen]
    exact h1
  have hmo := matchOrders_eq b tn b1 hfuel
  have c1 : b1.Consistent := by
    obtain ⟨ts2, b2, h4, c2, _⟩ := matchLoop_ok (matchFuel b) b [] hc (matchFuel_gt b)
    rw [hfuel] at h4
    cases h4
    exact c2
  have hb3 : ∃ b3, MatchOrders b = some (tn, b3) := by
    obtain ⟨ts2, b3, h4, _⟩ := MatchOrders_ok b hc
    rw [hmo] at h4
    cases h5 : cancelFront b1 b1.bids_ OrderType.FillOrKill with
    | none => rw [h5] at h4; cases h4
    | some b2 =>
      rw [h5] at h4
      simp only [Option.some_bind] at h4
      cases h6 : cancelFront b2 b2.asks_ OrderType.FillAndKill with
      | none => rw [h6] at h4; cases h4
      | some b4 =>
        refine ⟨b4, ?_⟩
        rw [hmo, h5]
        simp only [Option.some_bind]
        rw [h6]
        rfl
  obtain ⟨b3, hm3⟩ := hb3
  refine ⟨tn, b1, b3, ?_, hm3, ?_, ?_, ?_, h3, c1, ?_⟩
  · intro fuel hf
    exact matchLoop_fuel _ _ b [] _ h1 hf
  · rw [hc.size, c1.size]; exact h2
  · rw [hc.size]; omega
  · rw [hc.size, hlen]
  · intro b0 bp bid bt br ap ask at1 ar hc0 hb ha
    obtain ⟨e1, e2, e3, e4, _⟩ := bookAfterFill_shrinks b0 bp bid bt br ap ask at1 ar hb ha
    obtain ⟨c0, _, _, _⟩ := bookAfterFill_consistent b0 bp bid bt br ap ask at1 ar hb ha hc0
    refine ⟨fillFront_eq _ _ _ _ _ _ _ _ _, e1, e2, e3, c0, ?_⟩
    rw [hc0.size, c0.size]
    exact e4

/-- C20 on the book with a buy of 10 and a sell of 7 crossing at 100, the state
in which `AddOrder` calls `MatchOrders` after inserting the sell: the loop makes
one trade, the sell is filled and gone, and `MatchOrders` returns the book with
the buy at 3 of its 10; one trade against a `Size` of 2. -/
theorem matching_terminates_witness :
    bookCrossed.NoEmptyLevel ∧ bookCrossed.Consistent ∧
    (∃ ts b1 b3,
      (∀ fuel, bookCrossed.resting.length < fuel →
        matchLoop fuel bookCrossed [] = some (ts, b1)) ∧
      MatchOrders bookCrossed = some (ts, b3) ∧
      ts.length + b1.Size ≤ bookCrossed.Size ∧
      ts.length ≤ bookCrossed.Size ∧
      bookCrossed.Size =
        (ladderOrders bookCrossed.bids_).length + (ladderOrders bookCrossed.asks_).length ∧
      b1.NoEmptyLevel ∧ b1.Consistent) ∧
    insertOrder bookBuyTen (gtc 2 Side.Sell 100 7) = bookCrossed ∧
    MatchOrders bookCrossed = some ([⟨⟨1, 100, 7⟩, ⟨2, 100, 7⟩⟩], bookBuyThree) ∧
    bookCrossed.Size = 2 := by
  have hc : bookCrossed.Consistent := by
    have h := insertOrder_consistent bookBuyTen (gtc 2 Side.Sell 100 7)
      (reachableBy_consistent _ _ bookBuyTen_reachable).1 (by decide)
    have e : insertOrder bookBuyTen (gtc 2 Side.Sell 100 7) = bookCrossed := by decide
    rw [e] at h
    exact h
  refine ⟨by decide, hc, ?_, by decide, by decide, by decide⟩
  obtain ⟨ts, b1, b3, h1, h2, h3, h4, h5, h6, h7, _⟩ :=
    matching_terminates bookCrossed (by decide) hc
  exact ⟨ts, b1, b3, h1, h2, h3, h4, h5, h6, h7⟩

end Engine
